import Mathlib

/-
  Verification development for the `hsm0_with_executor` hierarchical state
  machine engine (file `src/hsm0_with_executor/src/lib.rs`).

  Shallow embedding notes:
  * `StateInfo` / `Executor` mirror the Rust structs of the same names.
    The deferred-message channels of `Executor` are modelled separately
    (see the `Defer` section below) because handlers interact with them
    only through `defer_send`, which cannot affect any field the other
    claims talk about.
  * Process callbacks in Rust have type
    `fn(&mut SM, &Executor<SM,P>, &P) -> StateResult`.  The `&Executor`
    argument is read-only (used for diagnostics and deferral); here a
    callback is `σ → P → σ × Handled × Option Nat`, acting on the caller
    state `σ` only.
  * Rust loops over parent pointers can diverge on a cyclic parent
    relation, so every such loop is given explicit fuel; `ROut.fuelOut`
    marks fuel exhaustion (proved unreachable for machines whose build
    succeeded), `ROut.panicked` models a Rust panic.
  * Machine integers (`usize`) are modelled as `Nat`; none of the
    counters can overflow in any statement proved here, and the source
    relies on the same assumption.
-/

set_option maxHeartbeats 1600000

namespace Hsm0

/-- Outcome of a fuel-bounded, possibly panicking computation. -/
inductive ROut (α : Type) where
  | fuelOut
  | panicked
  | ok (a : α)

/-- Outcome of `Executor::build`: it can additionally fail with the
recoverable "Cycle detected" error. -/
inductive BOut (α : Type) where
  | fuelOut
  | panicked
  | cycleError
  | ok (a : α)

/-- Mirrors `pub enum Handled { Yes, No }`. -/
inductive Handled where
  | yes
  | no
deriving DecidableEq

variable {σ P : Type}

/-- Mirrors `pub struct StateInfo<SM, P>`. -/
structure StateInfo (σ P : Type) where
  name : String
  parent : Option Nat
  enter : Option (σ → P → σ)
  process : σ → P → σ × Handled × Option Nat
  exit : Option (σ → P → σ)
  active : Bool
  children_for_cycle_detector : List Nat
  enter_cnt : Nat
  process_cnt : Nat
  exit_cnt : Nat

/-- Placeholder state used as the default of out-of-range list reads
(the Rust source indexes `Vec`s directly; every read proved about is
shown in range, so the placeholder is never observable there). -/
def StateInfo.dflt : StateInfo σ P :=
  { name := ""
    parent := none
    enter := none
    process := fun s _ => (s, Handled.yes, none)
    exit := none
    active := false
    children_for_cycle_detector := []
    enter_cnt := 0
    process_cnt := 0
    exit_cnt := 0 }

/-- Mirrors `pub struct Executor<SM, P>` minus the mpsc channels
(modelled separately for the dispatcher claims). -/
structure Executor (σ P : Type) where
  sm : σ
  states : List (StateInfo σ P)
  current_state_changed : Bool
  idx_transition_dest : Option Nat
  idx_current_state : Nat
  idx_previous_state : Nat
  idxs_enter_fns : List Nat
  idxs_exit_fns : List Nat
  transition_targets : List Nat
  transition_targets_set : List Bool

/-- Replace the element at an index, leaving the list unchanged when the
index is out of range (like indexing assignment on a Rust `Vec`). -/
def modifyIdx (f : α → α) : Nat → List α → List α
  | _, [] => []
  | 0, a :: l => f a :: l
  | n + 1, a :: l => a :: modifyIdx f n l

/-- `states[i]` as a total read. -/
def stAt (sts : List (StateInfo σ P)) (i : Nat) : StateInfo σ P :=
  sts.getD i StateInfo.dflt

/-- One iteration of the enter drain of `dispatch_idx` (the body of
`while let Some(idx_enter) = self.idxs_enter_fns.pop()`): a state with an
enter callback gets `enter_cnt += 1`, the callback invoked, and
`active = true`; a state without one is skipped. -/
def enterStep (msg : P) (p : List (StateInfo σ P) × σ) (i : Nat) :
    List (StateInfo σ P) × σ :=
  match (stAt p.1 i).enter with
  | none => p
  | some f =>
      (modifyIdx (fun s => { s with enter_cnt := s.enter_cnt + 1, active := true }) i p.1,
       f p.2 msg)

/-- The full enter drain: `idxs_enter_fns` is a `Vec` popped from the
back, so the stored (leaf-to-root) list is consumed in reverse,
i.e. root-to-leaf. -/
def runEnters (msg : P) (l : List Nat) (p : List (StateInfo σ P) × σ) :
    List (StateInfo σ P) × σ :=
  l.reverse.foldl (enterStep msg) p

/-- One iteration of the exit drain of `dispatch_idx`: a state with an
exit callback gets `exit_cnt += 1`, the callback invoked, and
`active = false`; a state without one is skipped. -/
def exitStep (msg : P) (p : List (StateInfo σ P) × σ) (i : Nat) :
    List (StateInfo σ P) × σ :=
  match (stAt p.1 i).exit with
  | none => p
  | some f =>
      (modifyIdx (fun s => { s with exit_cnt := s.exit_cnt + 1, active := false }) i p.1,
       f p.2 msg)

/-- The full exit drain: `idxs_exit_fns` is a `VecDeque` popped from the
front, so the stored list is consumed front-to-back. -/
def runExits (msg : P) (l : List Nat) (p : List (StateInfo σ P) × σ) :
    List (StateInfo σ P) × σ :=
  l.foldl (exitStep msg) p

/-- The first (enter-list) loop of `setup_exit_enter_fns_idxs`: starting
at the destination, push the current node, move to its parent; stop with
sentinel `none` at the root, or with `some p` at the first parent whose
`active` flag is set (that parent is not pushed). -/
def setupEnterWalk (sts : List (StateInfo σ P)) : Nat → Nat → Option (List Nat × Option Nat)
  | 0, _ => none
  | fuel + 1, cur =>
    match (stAt sts cur).parent with
    | none => some ([cur], none)
    | some p =>
        if (stAt sts p).active then some ([cur], some p)
        else
          match setupEnterWalk sts fuel p with
          | none => none
          | some pr => some (cur :: pr.1, pr.2)

/-- The second (exit-list) loop of `setup_exit_enter_fns_idxs`, excluding
the unconditional first push of the current state: walk to the parent,
stop (without pushing) when the parent is the sentinel, else push it and
continue; stop at the root. -/
def setupExitWalk (sts : List (StateInfo σ P)) (sentinel : Option Nat) :
    Nat → Nat → Option (List Nat)
  | 0, _ => none
  | fuel + 1, cur =>
    match (stAt sts cur).parent with
    | none => some []
    | some p =>
        if sentinel = some p then some []
        else
          match setupExitWalk sts sentinel fuel p with
          | none => none
          | some l => some (p :: l)

/-- `Executor::setup_exit_enter_fns_idxs`: append the enter chain of the
destination to `idxs_enter_fns` and the exit chain of the current state
(current state first, unconditionally) to `idxs_exit_fns`. -/
def setup_exit_enter_fns_idxs (idx_next_state : Nat) (e : Executor σ P) :
    Option (Executor σ P) :=
  match setupEnterWalk e.states e.states.length idx_next_state with
  | none => none
  | some pr =>
    match setupExitWalk e.states pr.2 e.states.length e.idx_current_state with
    | none => none
    | some l =>
        some { e with
                idxs_enter_fns := e.idxs_enter_fns ++ pr.1
                idxs_exit_fns := e.idxs_exit_fns ++ (e.idx_current_state :: l) }

/-- The enter phase at the top of `dispatch_idx`: when
`current_state_changed` is set, drain the pending enter list and clear
the flag. -/
def enterPhase (msg : P) (e : Executor σ P) : Executor σ P :=
  let p := runEnters msg e.idxs_enter_fns (e.states, e.sm)
  { e with states := p.1, sm := p.2, idxs_enter_fns := [],
           current_state_changed := false }

/-- The processing step of `dispatch_idx` at one state: increment the
state's `process_cnt`, then invoke its process callback. -/
def procStep (msg : P) (idx : Nat) (p : List (StateInfo σ P) × σ) :
    (List (StateInfo σ P) × σ) × Handled × Option Nat :=
  let st := stAt p.1 idx
  let sts1 := modifyIdx (fun s => { s with process_cnt := s.process_cnt + 1 }) idx p.1
  let r := st.process p.2 msg
  ((sts1, r.1), r.2.1, r.2.2)

/-- The staging step of `dispatch_idx`: a returned destination is staged
only when no transition is staged yet. -/
def stageStep (e : Executor σ P) (d : Option Nat) : Executor σ P :=
  match d with
  | some t =>
      if e.idx_transition_dest.isNone then { e with idx_transition_dest := some t }
      else e
  | none => e

/-- Tail of `dispatch_idx` run after the recursion returns (or right away
when the message was handled): consume the staged transition exactly once
-- validating the destination, planning the exit/enter chains, updating
previous/current and setting `current_state_changed` -- then, if the flag
is set, drain the exit queue. -/
def dispatchFinish (msg : P) (e : Executor σ P) : ROut (Executor σ P) :=
  let step1 : ROut (Executor σ P) :=
    match e.idx_transition_dest with
    | none => ROut.ok e
    | some t =>
        let e1 := { e with idx_transition_dest := none }
        if t < e1.states.length ∧ e1.transition_targets_set.getD t false = true then
          match setup_exit_enter_fns_idxs t e1 with
          | none => ROut.fuelOut
          | some e2 =>
              ROut.ok { e2 with
                          idx_previous_state := e2.idx_current_state
                          idx_current_state := t
                          current_state_changed := true }
        else ROut.panicked
  match step1 with
  | ROut.ok e2 =>
      if e2.current_state_changed then
        let p := runExits msg e2.idxs_exit_fns (e2.states, e2.sm)
        ROut.ok { e2 with states := p.1, sm := p.2, idxs_exit_fns := [] }
      else ROut.ok e2
  | x => x

/-- `Executor::dispatch_idx`.  The recursion into the parent on
`Handled::No` is bounded by `fuel`.  The Rust function's single tail
(`if let Some(idx_next_state) = self.idx_transition_dest ...` followed
by the exit drain, `dispatchFinish` here) runs after the recursive call
returns, or immediately when no recursion happens; that tail is inlined
into the three control paths below. -/
def dispatch_idx (msg : P) : Nat → Nat → Executor σ P → ROut (Executor σ P)
  | 0, _, _ => ROut.fuelOut
  | fuel + 1, idx, e0 =>
    let e1 := if e0.current_state_changed then enterPhase msg e0 else e0
    let pr := procStep msg idx (e1.states, e1.sm)
    let e4 := stageStep { e1 with states := pr.1.1, sm := pr.1.2 } pr.2.2
    match pr.2.1 with
    | Handled.yes => dispatchFinish msg e4
    | Handled.no =>
        match (stAt e1.states idx).parent with
        | none => dispatchFinish msg e4
        | some p =>
            match dispatch_idx msg fuel p e4 with
            | ROut.ok e5 => dispatchFinish msg e5
            | x => x

/-- `Executor::dispatch`: dispatch to the current state; the Rust
function returns `self.current_state_changed` of the resulting machine. -/
def dispatch (msg : P) (fuel : Nat) (e : Executor σ P) : ROut (Executor σ P) :=
  dispatch_idx msg fuel e.idx_current_state e

/-- A state declaration as assembled by `StateInfo::new` plus the
`enter_fn` / `exit_fn` / `parent_idx` builder methods: `active` starts
`false` and all counters start at zero. -/
structure StateDecl (σ P : Type) where
  name : String
  parent : Option Nat
  enter : Option (σ → P → σ)
  process : σ → P → σ × Handled × Option Nat
  exit : Option (σ → P → σ)

def StateDecl.dflt : StateDecl σ P :=
  { name := ""
    parent := none
    enter := none
    process := fun s _ => (s, Handled.yes, none)
    exit := none }

def StateDecl.toInfo (d : StateDecl σ P) : StateInfo σ P :=
  { name := d.name
    parent := d.parent
    enter := d.enter
    process := d.process
    exit := d.exit
    active := false
    children_for_cycle_detector := []
    enter_cnt := 0
    process_cnt := 0
    exit_cnt := 0 }

/-- The parent map declared by a list of states. -/
def parOf (decls : List (StateDecl σ P)) (i : Nat) : Option Nat :=
  (decls.getD i StateDecl.dflt).parent

/-- `Executor::initialize_states_children`: the children of `i` are the
declared states whose parent is `i`, in index order. -/
def childrenOf (par : Nat → Option Nat) (n i : Nat) : List Nat :=
  (List.range n).filter (fun j => decide (par j = some i))

/-- The loop of `Executor::cycle_detector` (Kahn-style leaf pruning).
The worklist is a `Vec` used as a stack (pushes and pops at the back);
it is modelled as a list whose head is the top of the stack.  Reading
the parent of a popped node indexes `self.states[parent_idx]` in Rust,
which panics when the parent is out of range -- modelled by
`ROut.panicked`. -/
def cdLoop (par : Nat → Option Nat) (n : Nat) :
    Nat → List (List Nat) → List Nat → Nat → ROut (Nat × List (List Nat))
  | 0, _, _, _ => ROut.fuelOut
  | _ + 1, children, [], visited => ROut.ok (visited, children)
  | fuel + 1, children, leaf :: rest, visited =>
    match par leaf with
    | none => cdLoop par n fuel children rest (visited + 1)
    | some p =>
        if p < n then
          match (children.getD p []).filter (fun c => decide (c ≠ leaf)) with
          | [] => cdLoop par n fuel children (p :: rest) (visited + 1)
          | oc => cdLoop par n fuel (modifyIdx (fun _ => oc) p children) rest (visited + 1)
        else ROut.panicked

/-- The enter-chain initialisation at the end of `Executor::build`: push
the initial state, then all of its ancestors. -/
def buildChain (par : Nat → Option Nat) : Nat → Nat → Option (List Nat)
  | 0, _ => none
  | fuel + 1, cur =>
    match par cur with
    | none => some [cur]
    | some p =>
        match buildChain par fuel p with
        | none => none
        | some l => some (cur :: l)

/-- `Executor::new` followed by one `state(..)` call per declaration and
`build(idx_initial)`: compute children and the leaf set, run the cycle
detector (`Err("Cycle detected")` on failure), panic on an invalid
initial state, then stage the initial enter chain with
`current_state_changed = true`. -/
def buildExec (sm0 : σ) (decls : List (StateDecl σ P)) (idx_initial : Nat) :
    BOut (Executor σ P) :=
  let n := decls.length
  let par := parOf decls
  let sts0 := decls.map StateDecl.toInfo
  let children0 := (List.range n).map (fun i => childrenOf par n i)
  let tset := (List.range n).map (fun i => (childrenOf par n i).isEmpty)
  let targets := (List.range n).filter (fun i => (childrenOf par n i).isEmpty)
  match cdLoop par n (n + 1) children0 targets.reverse 0 with
  | ROut.fuelOut => BOut.fuelOut
  | ROut.panicked => BOut.panicked
  | ROut.ok (visited, childrenFinal) =>
    if visited ≠ n then BOut.cycleError
    else if idx_initial ≥ n ∨ tset.getD idx_initial false = false then BOut.panicked
    else
      match buildChain par n idx_initial with
      | none => BOut.fuelOut
      | some chain =>
          BOut.ok
            { sm := sm0
              states := (List.range n).map
                (fun i => { stAt sts0 i with
                              children_for_cycle_detector := childrenFinal.getD i [] })
              current_state_changed := true
              idx_transition_dest := none
              idx_current_state := idx_initial
              idx_previous_state := idx_initial
              idxs_enter_fns := chain
              idxs_exit_fns := []
              transition_targets := targets
              transition_targets_set := tset }

/-- `firstSome a b` is `a` unless `a = none`: the staging rule
`if self.idx_transition_dest.is_none() { ... = Some(idx_next_state) }`
keeps the first staged destination. -/
def firstSome (a b : Option Nat) : Option Nat :=
  match a with
  | some x => some x
  | none => b

/-- The processing/bubbling pass of one dispatch, extracted as a
straight-line function: starting at `idx`, increment `process_cnt`,
run the process callback, and on `Handled::No` continue at the parent;
returns the updated states and caller state together with the first
destination returned along the chain (leaf first). -/
def bubble (msg : P) : Nat → Nat → List (StateInfo σ P) × σ →
    Option ((List (StateInfo σ P) × σ) × Option Nat)
  | 0, _, _ => none
  | fuel + 1, idx, p =>
    let pr := procStep msg idx p
    match pr.2.1 with
    | Handled.yes => some (pr.1, pr.2.2)
    | Handled.no =>
      match (stAt p.1 idx).parent with
      | none => some (pr.1, pr.2.2)
      | some q =>
        match bubble msg fuel q pr.1 with
        | none => none
        | some qd => some (qd.1, firstSome pr.2.2 qd.2)

/-- The fields of a state descriptor untouched by the enter drain. -/
def skelE (s : StateInfo σ P) :=
  (s.name, s.parent, s.enter, s.process, s.exit, s.process_cnt, s.exit_cnt)

/-- The fields of a state descriptor untouched by the exit drain. -/
def skelX (s : StateInfo σ P) :=
  (s.name, s.parent, s.enter, s.process, s.exit, s.process_cnt, s.enter_cnt)

/-- The fields of a state descriptor untouched by the processing pass. -/
def skelP (s : StateInfo σ P) :=
  (s.name, s.parent, s.enter, s.process, s.exit, s.enter_cnt, s.exit_cnt, s.active)

/-- `k`-fold iteration of the declared parent map (`iterP par 0 x = some x`;
`none` once the walk has stepped past a root). -/
def iterP (par : Nat → Option Nat) : Nat → Nat → Option Nat
  | 0, x => some x
  | k + 1, x =>
    match par x with
    | none => none
    | some p => iterP par k p

/-- Executable test: does the parent relation restricted to the first `n`
states contain a cycle (of period at most `n`, which suffices for
in-range parents)? -/
def cyclicB (par : Nat → Option Nat) (n : Nat) : Bool :=
  (List.range n).any (fun x => (List.range n).any (fun k => decide (iterP par (k + 1) x = some x)))

/-- Executable test: does every declared parent reference a declared state? -/
def wfParB (par : Nat → Option Nat) (n : Nat) : Bool :=
  (List.range n).all (fun i =>
    match par i with
    | none => true
    | some p => decide (p < n))

/-- The executors reachable through the public API: a successful
`build` over declarations, followed by any number of successful
`dispatch` calls. -/
inductive Reach (sm0 : σ) (decls : List (StateDecl σ P)) (init : Nat) :
    Executor σ P → Prop where
  | base (e : Executor σ P) : buildExec sm0 decls init = BOut.ok e →
      Reach sm0 decls init e
  | step (e e' : Executor σ P) (msg : P) (fuel : Nat) : Reach sm0 decls init e →
      dispatch msg fuel e = ROut.ok e' → Reach sm0 decls init e'

/- ----------------------------------------------------------------
   Deferred-message model (`dispatcher`, `defer_send`, `defer_try_recv`,
   `next_defer`).  A dispatch is abstracted as
   `A : σ → P → σ × Bool × List P`: the new machine state, whether the
   dispatch transitioned, and the messages the handlers passed to
   `defer_send` during the dispatch, in send order (appended FIFO to the
   buffer `defer_tx[current_defer_idx]`; `defer_try_recv` pops FIFO from
   the other buffer).
   ---------------------------------------------------------------- -/

/-- The two deferred-message buffers plus the "current" index. -/
structure DeferCh (P : Type) where
  buf0 : List P
  buf1 : List P
  current_defer_idx : Nat

def DeferCh.getBuf (c : DeferCh P) (i : Nat) : List P :=
  if i % 2 = 0 then c.buf0 else c.buf1

def DeferCh.setBuf (c : DeferCh P) (i : Nat) (l : List P) : DeferCh P :=
  if i % 2 = 0 then { c with buf0 := l } else { c with buf1 := l }

/-- `Executor::current_defer`. -/
def DeferCh.current_defer (c : DeferCh P) : Nat := c.current_defer_idx

/-- `Executor::other_defer`. -/
def DeferCh.other_defer (c : DeferCh P) : Nat := (c.current_defer_idx + 1) % 2

/-- `Executor::next_defer`. -/
def DeferCh.next_defer (c : DeferCh P) : DeferCh P :=
  { c with current_defer_idx := (c.current_defer_idx + 1) % 2 }

/-- The inner `while let Ok(m) = self.defer_try_recv()` loop of
`dispatcher`: dispatch every message of the other buffer (passed
explicitly) in FIFO order; messages deferred while doing so are appended
to the current buffer (`acc`).  Returns the machine state, the final
current-buffer content, the accumulated `transitioned` flag, and the
trace of dispatched messages. -/
def drainOther (A : σ → P → σ × Bool × List P) :
    List P → σ → List P → σ × List P × Bool × List P
  | [], s, acc => (s, acc, false, [])
  | m :: rest, s, acc =>
    let r := A s m
    let res := drainOther A rest r.1 (acc ++ r.2.2)
    (res.1, res.2.1, r.2.1 || res.2.2.1, m :: res.2.2.2)

/-- The outer `while transitioned` loop of `dispatcher` (entered only
with `transitioned = true`): advance `next_defer`, drain the now-other
buffer, and repeat while some drained dispatch transitioned.  Returns
the final machine state and channel plus the trace of dispatched
messages. -/
def dispatcherLoop (A : σ → P → σ × Bool × List P) :
    Nat → σ × DeferCh P → ROut (σ × DeferCh P) × List P
  | 0, _ => (ROut.fuelOut, [])
  | fuel + 1, (s, c) =>
    let c1 := c.next_defer
    let r := drainOther A (c1.getBuf c1.other_defer) s (c1.getBuf c1.current_defer)
    let c2 := (c1.setBuf c1.other_defer []).setBuf c1.current_defer r.2.1
    if r.2.2.1 then
      let res := dispatcherLoop A fuel (r.1, c2)
      (res.1, r.2.2.2 ++ res.2)
    else (ROut.ok (r.1, c2), r.2.2.2)

/-- `Executor::dispatcher`: dispatch the incoming message (its deferrals
go to the current buffer), then run the reprocessing loop while
transitions keep occurring. -/
def dispatcher (A : σ → P → σ × Bool × List P) (fuel : Nat) (msg : P)
    (s : σ) (c : DeferCh P) : ROut (σ × DeferCh P) × List P :=
  let r := A s msg
  let c1 := c.setBuf c.current_defer (c.getBuf c.current_defer ++ r.2.2)
  if r.2.1 then
    let res := dispatcherLoop A fuel (r.1, c1)
    (res.1, msg :: res.2)
  else (ROut.ok (r.1, c1), [msg])

/-- Modelled from the spec: one round of the deferred-reprocessing
protocol -- dispatch every queued message in FIFO order, collecting the
messages deferred while doing so (they form the next round's queue) and
whether any dispatch transitioned. -/
def roundRun (A : σ → P → σ × Bool × List P) : List P → σ → σ × List P × Bool
  | [], s => (s, [], false)
  | m :: rest, s =>
    let r := A s m
    let res := roundRun A rest r.1
    (res.1, r.2.2 ++ res.2.1, r.2.1 || res.2.2)

/-- Modelled from the spec: strict round-by-round draining -- process
the current round's queue completely, then, if some dispatch of the
round transitioned, recurse on the messages deferred during the round;
otherwise stop with the leftover deferrals pending.  Returns the final
machine state, the pending queue, and the trace of dispatched
messages. -/
def specRounds (A : σ → P → σ × Bool × List P) :
    Nat → σ → List P → ROut (σ × List P) × List P
  | 0, _, _ => (ROut.fuelOut, [])
  | fuel + 1, s, q =>
    let r := roundRun A q s
    if r.2.2 then
      let res := specRounds A fuel r.1 r.2.1
      (res.1, q ++ res.2)
    else (ROut.ok (r.1, r.2.1), q)

/- ----------------------------------------------------------------
   Concrete machines used by witnesses and counterexamples.
   ---------------------------------------------------------------- -/

def BOut.isOk : BOut α → Bool
  | BOut.ok _ => true
  | _ => false

def BOut.getOk (dflt : α) : BOut α → α
  | BOut.ok a => a
  | _ => dflt

def ROut.getOk (dflt : α) : ROut α → α
  | ROut.ok a => a
  | _ => dflt

/-- An empty executor, used only as the default of `getOk`. -/
def dfltExec : Executor Unit Unit :=
  { sm := ()
    states := []
    current_state_changed := false
    idx_transition_dest := none
    idx_current_state := 0
    idx_previous_state := 0
    idxs_enter_fns := []
    idxs_exit_fns := []
    transition_targets := []
    transition_targets_set := [] }

/-- Scenario A of the spec (test `test_leaf_transitions_in_a_tree`):
`base = 0` with an enter callback, sibling leaves `initial = 1` and
`other = 2` under it, each with enter and exit callbacks, each
unconditionally transitioning to the other. -/
def declsA : List (StateDecl Unit Unit) :=
  [ { name := "base", parent := none, enter := some (fun s _ => s),
      process := fun s _ => (s, Handled.yes, none), exit := none },
    { name := "initial", parent := some 0, enter := some (fun s _ => s),
      process := fun s _ => (s, Handled.yes, some 2), exit := some (fun s _ => s) },
    { name := "other", parent := some 0, enter := some (fun s _ => s),
      process := fun s _ => (s, Handled.yes, some 1), exit := some (fun s _ => s) } ]

def eA0 : Executor Unit Unit := (buildExec () declsA 1).getOk dfltExec
def eA1 : Executor Unit Unit := (dispatch () 4 eA0).getOk dfltExec
def eA2 : Executor Unit Unit := (dispatch () 4 eA1).getOk dfltExec
def eA3 : Executor Unit Unit := (dispatch () 4 eA2).getOk dfltExec

/-- Counterexample input for the path planner: states `0` (root),
`1` (child of `0`), `2` (child of `1`, `active`), `3` (child of `1`),
`4` (child of `2`); destination `4`, current state `3`.  Reachable in
spirit: a state with an enter callback but no exit callback keeps
`active = true` after being exited, producing exactly such stale
configurations. -/
def mkS (p : Option Nat) (a : Bool) : StateInfo Unit Unit :=
  { name := "", parent := p, enter := none,
    process := fun s _ => (s, Handled.yes, none), exit := none, active := a,
    children_for_cycle_detector := [], enter_cnt := 0, process_cnt := 0, exit_cnt := 0 }

def stsC1 : List (StateInfo Unit Unit) :=
  [mkS none false, mkS (some 0) false, mkS (some 1) true, mkS (some 1) false,
   mkS (some 2) false]

/-- One state, no enter callback (test `test_sm_1s_no_enter_no_exit`). -/
def declsOneNoEnter : List (StateDecl Unit Unit) :=
  [ { name := "state1", parent := none, enter := none,
      process := fun s _ => (s, Handled.yes, none), exit := none } ]

def eN0 : Executor Unit Unit := (buildExec () declsOneNoEnter 0).getOk dfltExec
def eN1 : Executor Unit Unit := (dispatch () 2 eN0).getOk dfltExec

/-- Composite `0` with an exit callback but no enter callback, leaves
`1` (enter, no exit) and `2` (enter and exit) under it; the handler of
`1` transitions to `2`, a destination inside `0`'s subtree. -/
def declsX : List (StateDecl Unit Unit) :=
  [ { name := "P", parent := none, enter := none,
      process := fun s _ => (s, Handled.yes, none), exit := some (fun s _ => s) },
    { name := "c", parent := some 0, enter := some (fun s _ => s),
      process := fun s _ => (s, Handled.yes, some 2), exit := none },
    { name := "d", parent := some 0, enter := some (fun s _ => s),
      process := fun s _ => (s, Handled.yes, none), exit := some (fun s _ => s) } ]

def eX0 : Executor Unit Unit := (buildExec () declsX 1).getOk dfltExec
def eX1 : Executor Unit Unit := (dispatch () 3 eX0).getOk dfltExec

/-- One state whose handler returns the out-of-range transition `1`
(test `test_sm_out_of_bounds_invalid_transition`). -/
def declsOob : List (StateDecl Unit Unit) :=
  [ { name := "state1", parent := none, enter := none,
      process := fun s _ => (s, Handled.yes, some 1), exit := none } ]

def eOob : Executor Unit Unit := (buildExec () declsOob 0).getOk dfltExec

/-- The out-of-range-transition machine with its pending enter drained,
and its bubbling-pass result (which stages the invalid destination). -/
def eOobP : Executor Unit Unit := enterPhase () eOob

def qdOob : (List (StateInfo Unit Unit) × Unit) × Option Nat :=
  (bubble () 2 0 (eOobP.states, eOobP.sm)).getD (([], ()), none)

/-- Parent `0` and child leaf `1`; the child's handler returns the
non-leaf transition `0` (test `test_sm_2s_invalid_transition`). -/
def declsNonLeaf : List (StateDecl Unit Unit) :=
  [ { name := "state1", parent := none, enter := none,
      process := fun s _ => (s, Handled.yes, none), exit := none },
    { name := "state2", parent := some 0, enter := none,
      process := fun s _ => (s, Handled.yes, some 0), exit := none } ]

def eNonLeaf : Executor Unit Unit := (buildExec () declsNonLeaf 1).getOk dfltExec

/-- A single self-loop state (test `test_1s_cycle`). -/
def declsLoop : List (StateDecl Unit Unit) :=
  [ { name := "state1", parent := some 0, enter := none,
      process := fun s _ => (s, Handled.yes, none), exit := none } ]

/-- Abstract dispatch used by the dispatcher witness: counts down,
transitioning and re-deferring the message while positive. -/
def defA : Nat → Unit → Nat × Bool × List Unit :=
  fun s _ => if s = 0 then (0, false, []) else (s - 1, true, [(), ()])

/-- A commit point for the C5 witness: composite `0` (active, with exit
callback) over leaves `1` (current, active) and `2`; the handler of `1`
has just staged the transition to `2`. -/
def eC5w : Executor Unit Unit :=
  { sm := ()
    states := [
      { name := "P", parent := none, enter := none,
        process := fun s _ => (s, Handled.yes, none),
        exit := some (fun s _ => s), active := true,
        children_for_cycle_detector := [], enter_cnt := 1, process_cnt := 0,
        exit_cnt := 0 },
      { name := "c", parent := some 0, enter := none,
        process := fun s _ => (s, Handled.yes, some 2),
        exit := some (fun s _ => s), active := true,
        children_for_cycle_detector := [], enter_cnt := 1, process_cnt := 1,
        exit_cnt := 0 },
      { name := "d", parent := some 0, enter := none,
        process := fun s _ => (s, Handled.yes, none),
        exit := some (fun s _ => s), active := false,
        children_for_cycle_detector := [], enter_cnt := 0, process_cnt := 0,
        exit_cnt := 0 } ]
    current_state_changed := false
    idx_transition_dest := some 2
    idx_current_state := 1
    idx_previous_state := 1
    idxs_enter_fns := []
    idxs_exit_fns := []
    transition_targets := [1, 2]
    transition_targets_set := [false, true, true] }

/-- The parent map read off a states vector. -/
def parF (sts : List (StateInfo σ P)) : Nat → Option Nat :=
  fun i => (stAt sts i).parent

/-- Machine used by the C6 witness: Scenario A after dispatch 1 with its
pending enters drained; the current state is `other = 2`. -/
def eC6in : Executor Unit Unit := enterPhase () eA1

def eC6 : Executor Unit Unit := (dispatch_idx () 4 2 eC6in).getOk dfltExec

def bC6 : (List (StateInfo Unit Unit) × Unit) × Option Nat :=
  (bubble () 4 2 (eC6in.states, eC6in.sm)).getD (([], ()), none)

/-- The invariant of the `cycle_detector` loop.  `children` is the
mutable child table, `stack` the worklist (head = top), `L` the list of
already-popped ("visited") nodes in pop order: the table entries are
fresh children of their node, the worklist and visited list partition
exactly the nodes whose declared children are all visited, and each
node is popped only after all of its children. -/
structure CDInv (par : Nat → Option Nat) (n : Nat)
    (children : List (List Nat)) (stack L : List Nat) : Prop where
  hlen : children.length = n
  snodup : stack.Nodup
  srange : ∀ x ∈ stack, x < n
  snotpop : ∀ x ∈ stack, x ∉ L
  lnodup : L.Nodup
  lrange : ∀ x ∈ L, x < n
  closure : ∀ x, x < n →
    ((x ∈ stack ∨ x ∈ L) ↔ ∀ y ∈ childrenOf par n x, y ∈ L)
  csub : ∀ p, p < n → ∀ y ∈ children.getD p [], y ∈ childrenOf par n p
  csup : ∀ p, p < n → ∀ y ∈ childrenOf par n p, y ∉ L → y ∈ children.getD p []
  cfresh : ∀ p, p < n → (∃ y ∈ childrenOf par n p, y ∉ L) →
    ∀ y ∈ children.getD p [], y ∉ L
  ordered : ∀ j, j < L.length → ∀ y ∈ childrenOf par n (L.getD j 0), y ∈ L.take j

/- ================================================================
   Theorems.  First: indexing and drain-characterisation lemmas.
   ================================================================ -/

theorem modifyIdx_length (f : α → α) :
    ∀ (i : Nat) (l : List α), (modifyIdx f i l).length = l.length := by
  intro i l
  induction l generalizing i with
  | nil => cases i <;> rfl
  | cons a l ih =>
    cases i with
    | zero => rfl
    | succ i => simpa [modifyIdx] using ih i

theorem modifyIdx_oob (f : α → α) :
    ∀ (i : Nat) (l : List α), l.length ≤ i → modifyIdx f i l = l := by
  intro i l
  induction l generalizing i with
  | nil => intro _; cases i <;> rfl
  | cons a l ih =>
    cases i with
    | zero => intro h; exact absurd h (by simp)
    | succ i =>
      intro h
      simpa [modifyIdx] using ih i (by simpa using h)

theorem getD_modifyIdx_self (f : α → α) (d : α) :
    ∀ (i : Nat) (l : List α), i < l.length →
      (modifyIdx f i l).getD i d = f (l.getD i d) := by
  intro i l
  induction l generalizing i with
  | nil => intro h; exact absurd h (by simp)
  | cons a l ih =>
    cases i with
    | zero => intro _; rfl
    | succ i =>
      intro h
      simpa [modifyIdx] using ih i (by simpa using h)

theorem getD_modifyIdx_ne (f : α → α) (d : α) :
    ∀ (i j : Nat) (l : List α), j ≠ i →
      (modifyIdx f i l).getD j d = l.getD j d := by
  intro i j l
  induction l generalizing i j with
  | nil => intro _; cases i <;> rfl
  | cons a l ih =>
    cases i with
    | zero =>
      cases j with
      | zero => intro h; exact absurd rfl h
      | succ j => intro _; rfl
    | succ i =>
      cases j with
      | zero => intro _; rfl
      | succ j =>
        intro h
        simpa [modifyIdx] using ih i j (fun hh => h (by simpa using hh))

/-- Master indexing lemma for `modifyIdx` through `stAt`. -/
theorem stAt_modifyIdx (f : StateInfo σ P → StateInfo σ P) (i j : Nat)
    (l : List (StateInfo σ P)) :
    stAt (modifyIdx f i l) j =
      if j = i ∧ i < l.length then f (stAt l i) else stAt l j := by
  by_cases hji : j = i
  · subst hji
    by_cases hl : j < l.length
    · simp only [hl, and_true]
      simpa [stAt] using getD_modifyIdx_self f StateInfo.dflt j l hl
    · simp only [hl, and_false, if_false]
      rw [modifyIdx_oob f j l (Nat.le_of_not_lt hl)]
  · simp only [hji, false_and, if_false]
    simpa [stAt] using getD_modifyIdx_ne f StateInfo.dflt i j l hji

/-- Out-of-range reads give the placeholder. -/
theorem stAt_oob (sts : List (StateInfo σ P)) (j : Nat) (h : sts.length ≤ j) :
    stAt sts j = StateInfo.dflt := by
  unfold stAt
  rw [List.getD_eq_default]
  exact h

/- ---------------- enter drain ---------------- -/

theorem enterStep_length (msg : P) (p : List (StateInfo σ P) × σ) (i : Nat) :
    (enterStep msg p i).1.length = p.1.length := by
  unfold enterStep
  cases (stAt p.1 i).enter with
  | none => rfl
  | some f => simpa using modifyIdx_length _ i p.1

theorem enterFold_length (msg : P) :
    ∀ (m : List Nat) (p : List (StateInfo σ P) × σ),
      ((m.foldl (enterStep msg) p)).1.length = p.1.length := by
  intro m
  induction m with
  | nil => intro p; rfl
  | cons i m ih =>
    intro p
    simpa [List.foldl_cons, enterStep_length] using
      (ih (enterStep msg p i)).trans (enterStep_length msg p i)

theorem skelE_enterStep (msg : P) (p : List (StateInfo σ P) × σ) (i j : Nat) :
    skelE (stAt (enterStep msg p i).1 j) = skelE (stAt p.1 j) := by
  unfold enterStep
  cases h : (stAt p.1 i).enter with
  | none => rfl
  | some f =>
    simp only []
    rw [stAt_modifyIdx]
    by_cases hc : j = i ∧ i < p.1.length
    · rcases hc with ⟨hji, _⟩
      subst hji
      simp [skelE, *]
    · simp [hc]

theorem skelE_enterFold (msg : P) :
    ∀ (m : List Nat) (p : List (StateInfo σ P) × σ) (j : Nat),
      skelE (stAt ((m.foldl (enterStep msg) p)).1 j) = skelE (stAt p.1 j) := by
  intro m
  induction m with
  | nil => intro p j; rfl
  | cons i m ih =>
    intro p j
    exact (ih (enterStep msg p i) j).trans (skelE_enterStep msg p i j)

theorem enter_enterFold (msg : P) (m : List Nat) (p : List (StateInfo σ P) × σ) (j : Nat) :
    (stAt ((m.foldl (enterStep msg) p)).1 j).enter = (stAt p.1 j).enter :=
  congrArg (fun t => t.2.2.1) (skelE_enterFold msg m p j)

theorem enterCnt_enterStep (msg : P) (p : List (StateInfo σ P) × σ) (i j : Nat) :
    (stAt (enterStep msg p i).1 j).enter_cnt =
      (stAt p.1 j).enter_cnt +
        (if j = i ∧ (stAt p.1 j).enter.isSome then 1 else 0) := by
  unfold enterStep
  cases h : (stAt p.1 i).enter with
  | none =>
    have : ¬(j = i ∧ (stAt p.1 j).enter.isSome) := by
      rintro ⟨rfl, hs⟩
      rw [h] at hs
      exact absurd hs (by simp)
    simp [this]
  | some f =>
    simp only []
    rw [stAt_modifyIdx]
    by_cases hji : j = i
    · subst hji
      have hl : j < p.1.length := by
        by_contra hge
        have : stAt p.1 j = StateInfo.dflt := stAt_oob p.1 j (Nat.le_of_not_lt hge)
        rw [this] at h
        exact absurd h (by simp [StateInfo.dflt])
      simp [hl, h]
    · simp [hji]

theorem enterCnt_enterFold (msg : P) :
    ∀ (m : List Nat) (p : List (StateInfo σ P) × σ) (j : Nat),
      (stAt ((m.foldl (enterStep msg) p)).1 j).enter_cnt =
        (stAt p.1 j).enter_cnt +
          (if (stAt p.1 j).enter.isSome then m.count j else 0) := by
  intro m
  induction m with
  | nil => intro p j; simp
  | cons i m ih =>
    intro p j
    rw [List.foldl_cons, ih (enterStep msg p i) j]
    rw [enterCnt_enterStep msg p i j]
    have hsame : (stAt (enterStep msg p i).1 j).enter.isSome = (stAt p.1 j).enter.isSome := by
      have := skelE_enterStep msg p i j
      have he : (stAt (enterStep msg p i).1 j).enter = (stAt p.1 j).enter :=
        congrArg (fun t => t.2.2.1) this
      rw [he]
    rw [hsame]
    by_cases hs : (stAt p.1 j).enter.isSome
    · by_cases hji : j = i
      · subst hji
        simp [hs, List.count_cons, Nat.add_comm, Nat.add_assoc, Nat.add_left_comm]
      · have : ¬(i = j) := fun hh => hji hh.symm
        simp [hs, hji, List.count_cons, this]
    · simp [hs]

theorem active_enterStep (msg : P) (p : List (StateInfo σ P) × σ) (i j : Nat) :
    (stAt (enterStep msg p i).1 j).active =
      ((stAt p.1 j).active ||
        (decide (j = i) && (stAt p.1 j).enter.isSome)) := by
  unfold enterStep
  cases h : (stAt p.1 i).enter with
  | none =>
    by_cases hji : j = i
    · subst hji
      simp [h]
    · simp [hji]
  | some f =>
    simp only []
    rw [stAt_modifyIdx]
    by_cases hji : j = i
    · subst hji
      have hl : j < p.1.length := by
        by_contra hge
        have : stAt p.1 j = StateInfo.dflt := stAt_oob p.1 j (Nat.le_of_not_lt hge)
        rw [this] at h
        exact absurd h (by simp [StateInfo.dflt])
      simp [hl, h]
    · simp [hji]

theorem active_enterFold (msg : P) :
    ∀ (m : List Nat) (p : List (StateInfo σ P) × σ) (j : Nat),
      (stAt ((m.foldl (enterStep msg) p)).1 j).active =
        ((stAt p.1 j).active ||
          (decide (j ∈ m) && (stAt p.1 j).enter.isSome)) := by
  intro m
  induction m with
  | nil => intro p j; simp
  | cons i m ih =>
    intro p j
    rw [List.foldl_cons, ih (enterStep msg p i) j]
    have he : (stAt (enterStep msg p i).1 j).enter = (stAt p.1 j).enter :=
      congrArg (fun t => t.2.2.1) (skelE_enterStep msg p i j)
    rw [he, active_enterStep msg p i j]
    by_cases hji : j = i
    · subst hji
      by_cases hs : (stAt p.1 j).enter.isSome <;> simp [hs, List.mem_cons]
    · by_cases hm : j ∈ m <;> simp [hji, hm, List.mem_cons]

/- ---------------- exit drain ---------------- -/

theorem exitStep_length (msg : P) (p : List (StateInfo σ P) × σ) (i : Nat) :
    (exitStep msg p i).1.length = p.1.length := by
  unfold exitStep
  cases (stAt p.1 i).exit with
  | none => rfl
  | some f => simpa using modifyIdx_length _ i p.1

theorem exitFold_length (msg : P) :
    ∀ (m : List Nat) (p : List (StateInfo σ P) × σ),
      ((m.foldl (exitStep msg) p)).1.length = p.1.length := by
  intro m
  induction m with
  | nil => intro p; rfl
  | cons i m ih =>
    intro p
    exact (ih (exitStep msg p i)).trans (exitStep_length msg p i)

theorem skelX_exitStep (msg : P) (p : List (StateInfo σ P) × σ) (i j : Nat) :
    skelX (stAt (exitStep msg p i).1 j) = skelX (stAt p.1 j) := by
  unfold exitStep
  cases h : (stAt p.1 i).exit with
  | none => rfl
  | some f =>
    simp only []
    rw [stAt_modifyIdx]
    by_cases hc : j = i ∧ i < p.1.length
    · rcases hc with ⟨hji, _⟩
      subst hji
      simp [skelX, *]
    · simp [hc]

theorem skelX_exitFold (msg : P) :
    ∀ (m : List Nat) (p : List (StateInfo σ P) × σ) (j : Nat),
      skelX (stAt ((m.foldl (exitStep msg) p)).1 j) = skelX (stAt p.1 j) := by
  intro m
  induction m with
  | nil => intro p j; rfl
  | cons i m ih =>
    intro p j
    exact (ih (exitStep msg p i) j).trans (skelX_exitStep msg p i j)

theorem exitCnt_exitStep (msg : P) (p : List (StateInfo σ P) × σ) (i j : Nat) :
    (stAt (exitStep msg p i).1 j).exit_cnt =
      (stAt p.1 j).exit_cnt +
        (if j = i ∧ (stAt p.1 j).exit.isSome then 1 else 0) := by
  unfold exitStep
  cases h : (stAt p.1 i).exit with
  | none =>
    have : ¬(j = i ∧ (stAt p.1 j).exit.isSome) := by
      rintro ⟨rfl, hs⟩
      rw [h] at hs
      exact absurd hs (by simp)
    simp [this]
  | some f =>
    simp only []
    rw [stAt_modifyIdx]
    by_cases hji : j = i
    · subst hji
      have hl : j < p.1.length := by
        by_contra hge
        have : stAt p.1 j = StateInfo.dflt := stAt_oob p.1 j (Nat.le_of_not_lt hge)
        rw [this] at h
        exact absurd h (by simp [StateInfo.dflt])
      simp [hl, h]
    · simp [hji]

theorem exitCnt_exitFold (msg : P) :
    ∀ (m : List Nat) (p : List (StateInfo σ P) × σ) (j : Nat),
      (stAt ((m.foldl (exitStep msg) p)).1 j).exit_cnt =
        (stAt p.1 j).exit_cnt +
          (if (stAt p.1 j).exit.isSome then m.count j else 0) := by
  intro m
  induction m with
  | nil => intro p j; simp
  | cons i m ih =>
    intro p j
    rw [List.foldl_cons, ih (exitStep msg p i) j]
    rw [exitCnt_exitStep msg p i j]
    have hsame : (stAt (exitStep msg p i).1 j).exit.isSome = (stAt p.1 j).exit.isSome := by
      have he : (stAt (exitStep msg p i).1 j).exit = (stAt p.1 j).exit :=
        congrArg (fun t => t.2.2.2.2.1) (skelX_exitStep msg p i j)
      rw [he]
    rw [hsame]
    by_cases hs : (stAt p.1 j).exit.isSome
    · by_cases hji : j = i
      · subst hji
        simp [hs, List.count_cons, Nat.add_comm, Nat.add_assoc, Nat.add_left_comm]
      · have : ¬(i = j) := fun hh => hji hh.symm
        simp [hs, hji, List.count_cons, this]
    · simp [hs]

theorem active_exitStep (msg : P) (p : List (StateInfo σ P) × σ) (i j : Nat) :
    (stAt (exitStep msg p i).1 j).active =
      ((stAt p.1 j).active &&
        !(decide (j = i) && (stAt p.1 j).exit.isSome)) := by
  unfold exitStep
  cases h : (stAt p.1 i).exit with
  | none =>
    by_cases hji : j = i
    · subst hji
      simp [h]
    · simp [hji]
  | some f =>
    simp only []
    rw [stAt_modifyIdx]
    by_cases hji : j = i
    · subst hji
      have hl : j < p.1.length := by
        by_contra hge
        have : stAt p.1 j = StateInfo.dflt := stAt_oob p.1 j (Nat.le_of_not_lt hge)
        rw [this] at h
        exact absurd h (by simp [StateInfo.dflt])
      simp [hl, h]
    · simp [hji]

theorem active_exitFold (msg : P) :
    ∀ (m : List Nat) (p : List (StateInfo σ P) × σ) (j : Nat),
      (stAt ((m.foldl (exitStep msg) p)).1 j).active =
        ((stAt p.1 j).active &&
          !(decide (j ∈ m) && (stAt p.1 j).exit.isSome)) := by
  intro m
  induction m with
  | nil => intro p j; simp
  | cons i m ih =>
    intro p j
    rw [List.foldl_cons, ih (exitStep msg p i) j]
    have he : (stAt (exitStep msg p i).1 j).exit = (stAt p.1 j).exit :=
      congrArg (fun t => t.2.2.2.2.1) (skelX_exitStep msg p i j)
    rw [he, active_exitStep msg p i j]
    by_cases hji : j = i
    · subst hji
      by_cases hs : (stAt p.1 j).exit.isSome <;> simp [hs, List.mem_cons]
    · by_cases hm : j ∈ m <;> simp [hji, hm, List.mem_cons]

/-- The enter drain consumes its `Vec` from the back: draining a list
with last element `x` processes `x` first.  `idxs_enter_fns` is stored
leaf-to-root, so this is the root-to-leaf consumption order. -/
theorem runEnters_snoc (msg : P) (l : List Nat) (x : Nat)
    (p : List (StateInfo σ P) × σ) :
    runEnters msg (l ++ [x]) p = runEnters msg l (enterStep msg p x) := by
  unfold runEnters
  rw [List.reverse_append]
  rfl

/-- The exit drain consumes its `VecDeque` from the front. -/
theorem runExits_cons (msg : P) (l : List Nat) (x : Nat)
    (p : List (StateInfo σ P) × σ) :
    runExits msg (x :: l) p = runExits msg l (exitStep msg p x) := rfl

/- ---------------- the dispatch pipeline ---------------- -/

theorem firstSome_assoc (a b c : Option Nat) :
    firstSome (firstSome a b) c = firstSome a (firstSome b c) := by
  cases a <;> rfl

theorem firstSome_none_right (a : Option Nat) : firstSome a none = a := by
  cases a <;> rfl

/-- Structure eta: writing a field back leaves the record unchanged. -/
theorem setSlot_self (e : Executor σ P) (v : Option Nat)
    (h : e.idx_transition_dest = v) :
    ({ e with idx_transition_dest := v } : Executor σ P) = e := by
  rw [← h]

/-- The staging step of `dispatch_idx` keeps the first staged
destination. -/
theorem stage_eq (e3 : Executor σ P) (d : Option Nat) :
    stageStep e3 d =
      { e3 with idx_transition_dest := firstSome e3.idx_transition_dest d } := by
  unfold stageStep
  cases d with
  | none =>
    rw [firstSome_none_right]
  | some t =>
    cases h : e3.idx_transition_dest with
    | none =>
      simp [firstSome]
    | some s =>
      simp only [firstSome, Option.isNone_some, Bool.false_eq_true, if_false]
      exact (setSlot_self e3 _ h).symm

/-- Inversion of the path-planner wrapper. -/
theorem setup_inv (t : Nat) (e e2 : Executor σ P)
    (h : setup_exit_enter_fns_idxs t e = some e2) :
    ∃ en ex sent,
      setupEnterWalk e.states e.states.length t = some (en, sent) ∧
      setupExitWalk e.states sent e.states.length e.idx_current_state = some ex ∧
      e2 = { e with idxs_enter_fns := e.idxs_enter_fns ++ en,
                    idxs_exit_fns := e.idxs_exit_fns ++ (e.idx_current_state :: ex) } := by
  unfold setup_exit_enter_fns_idxs at h
  rcases h1 : setupEnterWalk e.states e.states.length t with _ | ⟨en, sent⟩
  · rw [h1] at h
    exact absurd h (by simp)
  · rw [h1] at h
    have h' : (match setupExitWalk e.states sent e.states.length e.idx_current_state with
       | none => (none : Option (Executor σ P))
       | some l =>
           some { e with idxs_enter_fns := e.idxs_enter_fns ++ en,
                         idxs_exit_fns := e.idxs_exit_fns ++ (e.idx_current_state :: l) }) =
        some e2 := h
    cases h2 : setupExitWalk e.states sent e.states.length e.idx_current_state with
    | none =>
      rw [h2] at h'
      exact absurd h' (by simp)
    | some l =>
      rw [h2] at h'
      refine ⟨en, l, sent, rfl, h2, ?_⟩
      cases h'
      rfl

/-- `dispatchFinish` with no staged transition and an empty exit queue
does nothing. -/
theorem dispatchFinish_noop (msg : P) (e : Executor σ P)
    (h1 : e.idx_transition_dest = none) (h2 : e.idxs_exit_fns = []) :
    dispatchFinish msg e = ROut.ok e := by
  have hrec : ({ e with states := (runExits msg e.idxs_exit_fns (e.states, e.sm)).1,
                        sm := (runExits msg e.idxs_exit_fns (e.states, e.sm)).2,
                        idxs_exit_fns := [] } : Executor σ P) = e := by
    rw [h2]
    show ({ e with states := e.states, sm := e.sm, idxs_exit_fns := [] } : Executor σ P) = e
    conv_rhs => rw [show e = { e with idxs_exit_fns := e.idxs_exit_fns } from rfl]
    rw [h2]
  unfold dispatchFinish
  rw [h1]
  simp only []
  split
  · rw [hrec]
  · rfl

/-- An `ok` result of `dispatchFinish` always has an empty staged
transition and (given an empty input queue) an empty exit queue. -/
theorem dispatchFinish_ok_inv (msg : P) (e e' : Executor σ P)
    (h2 : e.idxs_exit_fns = []) (h : dispatchFinish msg e = ROut.ok e') :
    e'.idx_transition_dest = none ∧ e'.idxs_exit_fns = [] := by
  unfold dispatchFinish at h
  cases hd : e.idx_transition_dest with
  | none =>
    rw [hd] at h
    simp only [] at h
    cases hc : e.current_state_changed with
    | false =>
      rw [hc] at h
      simp at h
      cases h
      exact ⟨hd, h2⟩
    | true =>
      rw [hc] at h
      simp at h
      cases h
      exact ⟨hd, rfl⟩
  | some t =>
    rw [hd] at h
    simp only [] at h
    by_cases hv : t < e.states.length ∧ e.transition_targets_set.getD t false = true
    · rw [if_pos hv] at h
      cases hs : setup_exit_enter_fns_idxs t { e with idx_transition_dest := none } with
      | none => rw [hs] at h; exact absurd h (by simp)
      | some e3 =>
        rw [hs] at h
        obtain ⟨en, ex, sent, _, _, he3⟩ := setup_inv _ _ _ hs
        subst he3
        simp only [] at h
        split at h
        · cases h
          exact ⟨rfl, rfl⟩
        · cases h
          simp_all
    · rw [if_neg hv] at h
      exact absurd h (by simp)

/-- Master pipeline lemma: on a machine with the enter drain already
done (`current_state_changed = false`) and an empty exit queue, one
`dispatch_idx` call is the bubbling pass followed by a single
staged-transition consumption and exit drain. -/
theorem dispatch_pipeline (msg : P) :
    ∀ (fuel idx : Nat) (e : Executor σ P),
      e.current_state_changed = false → e.idxs_exit_fns = [] →
      dispatch_idx msg fuel idx e =
        (match bubble msg fuel idx (e.states, e.sm) with
         | none => ROut.fuelOut
         | some qd =>
             dispatchFinish msg
               { e with states := qd.1.1, sm := qd.1.2,
                        idx_transition_dest := firstSome e.idx_transition_dest qd.2 }) := by
  intro fuel
  induction fuel with
  | zero => intro idx e _ _; rfl
  | succ fuel ih =>
    intro idx e hch hxq
    rw [dispatch_idx, bubble]
    conv_lhs => rw [hch]
    simp only [Bool.false_eq_true, if_false]
    rw [stage_eq]
    rcases hpr : procStep msg idx (e.states, e.sm) with ⟨q1, hd, dst⟩
    simp only []
    have hE4 : (({ e with states := q1.1, sm := q1.2 } : Executor σ P)).idx_transition_dest
        = e.idx_transition_dest := rfl
    rw [hE4]
    cases hd with
    | yes => rfl
    | no =>
      cases hpar : (stAt e.states idx).parent with
      | none => rfl
      | some q =>
        dsimp only
        have hch4 : ({ e with states := q1.1, sm := q1.2, idx_transition_dest := firstSome e.idx_transition_dest dst } : Executor σ P).current_state_changed = false := hch
        have hxq4 : ({ e with states := q1.1, sm := q1.2, idx_transition_dest := firstSome e.idx_transition_dest dst } : Executor σ P).idxs_exit_fns = [] := hxq
        rw [ih q _ hch4 hxq4]
        cases hb : bubble msg fuel q (q1.1, q1.2) with
        | none => rfl
        | some qd =>
          simp only []
          rw [firstSome_assoc]
          set E := ({ e with states := qd.1.1, sm := qd.1.2, idx_transition_dest := firstSome e.idx_transition_dest (firstSome dst qd.2) } : Executor σ P) with hE
          cases h5 : dispatchFinish msg E with
          | fuelOut => rfl
          | panicked => rfl
          | ok e5 =>
            obtain ⟨hs5, hx5⟩ := dispatchFinish_ok_inv msg E e5 hxq h5
            exact dispatchFinish_noop msg e5 hs5 hx5

/-- A dispatch step that begins with `current_state_changed` set first
runs the enter phase, then proceeds exactly like a dispatch on the
drained machine. -/
theorem dispatch_enterPhase (msg : P) (fuel idx : Nat) (e : Executor σ P)
    (hch : e.current_state_changed = true) :
    dispatch_idx msg (fuel + 1) idx e =
      dispatch_idx msg (fuel + 1) idx (enterPhase msg e) := by
  rw [dispatch_idx, dispatch_idx, hch]
  rfl

/-- Wrappers translating the fold lemmas to `runEnters` (which consumes
the stored list from the back). -/
theorem runEnters_enterCnt (msg : P) (l : List Nat) (p : List (StateInfo σ P) × σ)
    (j : Nat) :
    (stAt (runEnters msg l p).1 j).enter_cnt =
      (stAt p.1 j).enter_cnt +
        (if (stAt p.1 j).enter.isSome then l.count j else 0) := by
  unfold runEnters
  rw [enterCnt_enterFold]
  rw [List.count_reverse]

theorem runEnters_active (msg : P) (l : List Nat) (p : List (StateInfo σ P) × σ)
    (j : Nat) :
    (stAt (runEnters msg l p).1 j).active =
      ((stAt p.1 j).active || (decide (j ∈ l) && (stAt p.1 j).enter.isSome)) := by
  unfold runEnters
  rw [active_enterFold]
  simp [List.mem_reverse]

theorem runEnters_skelE (msg : P) (l : List Nat) (p : List (StateInfo σ P) × σ)
    (j : Nat) :
    skelE (stAt (runEnters msg l p).1 j) = skelE (stAt p.1 j) :=
  skelE_enterFold msg l.reverse p j

theorem runExits_exitCnt (msg : P) (l : List Nat) (p : List (StateInfo σ P) × σ)
    (j : Nat) :
    (stAt (runExits msg l p).1 j).exit_cnt =
      (stAt p.1 j).exit_cnt +
        (if (stAt p.1 j).exit.isSome then l.count j else 0) :=
  exitCnt_exitFold msg l p j

theorem runExits_active (msg : P) (l : List Nat) (p : List (StateInfo σ P) × σ)
    (j : Nat) :
    (stAt (runExits msg l p).1 j).active =
      ((stAt p.1 j).active && !(decide (j ∈ l) && (stAt p.1 j).exit.isSome)) :=
  active_exitFold msg l p j

theorem runExits_skelX (msg : P) (l : List Nat) (p : List (StateInfo σ P) × σ)
    (j : Nat) :
    skelX (stAt (runExits msg l p).1 j) = skelX (stAt p.1 j) :=
  skelX_exitFold msg l p j

/-- The process-count increment leaves every other field unchanged. -/
theorem skelP_procInc (idx j : Nat) (l : List (StateInfo σ P)) :
    skelP (stAt (modifyIdx (fun s => { s with process_cnt := s.process_cnt + 1 }) idx l) j)
      = skelP (stAt l j) := by
  rw [stAt_modifyIdx]
  by_cases hc : j = idx ∧ idx < l.length
  · rcases hc with ⟨rfl, _⟩
    simp [skelP, *]
  · simp [hc]

/-- The bubbling pass touches nothing but `process_cnt` and the caller
state. -/
theorem bubble_skelP (msg : P) :
    ∀ (fuel idx : Nat) (p : List (StateInfo σ P) × σ) qd,
      bubble msg fuel idx p = some qd →
      ∀ j, skelP (stAt qd.1.1 j) = skelP (stAt p.1 j) := by
  intro fuel
  induction fuel with
  | zero => intro idx p qd h; exact absurd h (by simp [bubble])
  | succ fuel ih =>
    intro idx p qd h j
    rw [bubble] at h
    rcases hpr : procStep msg idx p with ⟨q1, hd, dst⟩
    rw [hpr] at h
    have hq1 : ∀ j, skelP (stAt q1.1 j) = skelP (stAt p.1 j) := by
      intro j
      have : q1.1 = modifyIdx (fun s => { s with process_cnt := s.process_cnt + 1 }) idx p.1 := by
        have := congrArg (fun t => t.1.1) hpr
        exact this.symm
      rw [this]
      exact skelP_procInc idx j p.1
    cases hd with
    | yes =>
      simp only [] at h
      cases h
      exact hq1 j
    | no =>
      simp only [] at h
      cases hpar : (stAt p.1 idx).parent with
      | none =>
        rw [hpar] at h
        cases h
        exact hq1 j
      | some q =>
        rw [hpar] at h
        have h2 : (match bubble msg fuel q q1 with
            | none => none
            | some qd => some (qd.1, firstSome dst qd.2)) = some qd := h
        cases hb : bubble msg fuel q q1 with
        | none => rw [hb] at h2; exact absurd h2 (by simp)
        | some qd2 =>
          rw [hb] at h2
          cases h2
          exact (ih q q1 qd2 hb j).trans (hq1 j)

theorem bubble_length (msg : P) :
    ∀ (fuel idx : Nat) (p : List (StateInfo σ P) × σ) qd,
      bubble msg fuel idx p = some qd → qd.1.1.length = p.1.length := by
  intro fuel
  induction fuel with
  | zero => intro idx p qd h; exact absurd h (by simp [bubble])
  | succ fuel ih =>
    intro idx p qd h
    rw [bubble] at h
    rcases hpr : procStep msg idx p with ⟨q1, hd, dst⟩
    rw [hpr] at h
    have hq1 : q1.1.length = p.1.length := by
      have : q1.1 = modifyIdx (fun s => { s with process_cnt := s.process_cnt + 1 }) idx p.1 := by
        have := congrArg (fun t => t.1.1) hpr
        exact this.symm
      rw [this]
      exact modifyIdx_length _ idx p.1
    cases hd with
    | yes =>
      simp only [] at h
      cases h
      exact hq1
    | no =>
      simp only [] at h
      cases hpar : (stAt p.1 idx).parent with
      | none =>
        rw [hpar] at h
        cases h
        exact hq1
      | some q =>
        rw [hpar] at h
        have h2 : (match bubble msg fuel q q1 with
            | none => none
            | some qd => some (qd.1, firstSome dst qd.2)) = some qd := h
        cases hb : bubble msg fuel q q1 with
        | none => rw [hb] at h2; exact absurd h2 (by simp)
        | some qd2 =>
          rw [hb] at h2
          cases h2
          exact (ih q q1 qd2 hb).trans hq1

/-- When the handler of the dispatched state itself returns a
destination, that destination is the staged one, whatever the ancestor
handlers return later in the pass. -/
theorem bubble_leaf_dest (msg : P) (fuel idx : Nat) (p : List (StateInfo σ P) × σ)
    (sm2 : σ) (hd : Handled) (t : Nat)
    (hp : (stAt p.1 idx).process p.2 msg = (sm2, hd, some t)) :
    bubble msg (fuel + 1) idx p = none ∨
      ∃ qd, bubble msg (fuel + 1) idx p = some qd ∧ qd.2 = some t := by
  rw [bubble]
  have hpr : procStep msg idx p =
      ((modifyIdx (fun s => { s with process_cnt := s.process_cnt + 1 }) idx p.1, sm2),
        hd, some t) := by
    unfold procStep
    dsimp only
    rw [hp]
  rw [hpr]
  dsimp only
  cases hd with
  | yes => exact Or.inr ⟨_, rfl, rfl⟩
  | no =>
    cases hpar : (stAt p.1 idx).parent with
    | none => exact Or.inr ⟨_, rfl, rfl⟩
    | some q =>
      dsimp only
      cases hb : bubble msg fuel q
          (modifyIdx (fun s => { s with process_cnt := s.process_cnt + 1 }) idx p.1, sm2) with
      | none => exact Or.inl rfl
      | some qd2 => exact Or.inr ⟨_, rfl, rfl⟩

/-- `dispatchFinish` changes states only through the exit drain: all
fields the drain keeps are preserved. -/
theorem dispatchFinish_skelX (msg : P) (e e' : Executor σ P)
    (h : dispatchFinish msg e = ROut.ok e') :
    ∀ j, skelX (stAt e'.states j) = skelX (stAt e.states j) := by
  intro j
  unfold dispatchFinish at h
  cases hd : e.idx_transition_dest with
  | none =>
    rw [hd] at h
    simp only [] at h
    split at h
    · cases h
      exact runExits_skelX msg e.idxs_exit_fns (e.states, e.sm) j
    · cases h
      rfl
  | some t =>
    rw [hd] at h
    simp only [] at h
    by_cases hv : t < e.states.length ∧ e.transition_targets_set.getD t false = true
    · rw [if_pos hv] at h
      cases hs : setup_exit_enter_fns_idxs t { e with idx_transition_dest := none } with
      | none => rw [hs] at h; exact absurd h (by simp)
      | some e3 =>
        rw [hs] at h
        obtain ⟨en, ex, sent, _, _, he3⟩ := setup_inv _ _ _ hs
        subst he3
        simp only [] at h
        split at h
        · cases h
          exact runExits_skelX msg _ (e.states, e.sm) j
        · cases h
          rfl
    · rw [if_neg hv] at h
      exact absurd h (by simp)

/-- With the changed flag down, the rest of a dispatch call never touches
an enter counter: the enter drain happens at most once per call. -/
theorem dispatch_noEnter (msg : P) :
    ∀ (fuel idx : Nat) (e e' : Executor σ P),
      e.current_state_changed = false → e.idxs_exit_fns = [] →
      dispatch_idx msg fuel idx e = ROut.ok e' →
      ∀ j, (stAt e'.states j).enter_cnt = (stAt e.states j).enter_cnt := by
  intro fuel idx e e' hch hxq h j
  rw [dispatch_pipeline msg fuel idx e hch hxq] at h
  cases hb : bubble msg fuel idx (e.states, e.sm) with
  | none => rw [hb] at h; exact absurd h (by simp)
  | some qd =>
    rw [hb] at h
    simp only [] at h
    have h1 := dispatchFinish_skelX msg _ _ h j
    have h2 := bubble_skelP msg fuel idx (e.states, e.sm) qd hb j
    have e1 : (stAt e'.states j).enter_cnt = (stAt qd.1.1 j).enter_cnt :=
      congrArg (fun t => t.2.2.2.2.2.2) h1
    have e2 : (stAt qd.1.1 j).enter_cnt = (stAt e.states j).enter_cnt :=
      congrArg (fun t => t.2.2.2.2.2.1) h2
    exact e1.trans e2

/- ================= Claims C2 and C3 ================= -/

/-- C2, counterexample: the claim demands that every state popped from
the pending enter list gets its enter callback invoked, its
`enter_count` incremented by one, and its `active` flag set.  In the
machine of the repository's own test `test_sm_1s_no_enter_no_exit`
(one state declared without an enter callback), the first dispatch pops
state `0` from the pending list `[0]` with the changed flag set, yet
its `enter_cnt` stays `0` (not `0 + 1`) and `active` stays `false`:
the drain body is guarded by `if let Some(state_enter) = ...`. -/
theorem C2_counterexample :
    eN0.current_state_changed = true ∧
    eN0.idxs_enter_fns = [0] ∧
    (stAt eN0.states 0).enter_cnt = 0 ∧
    dispatch () 2 eN0 = ROut.ok eN1 ∧
    (stAt eN1.states 0).enter_cnt = 0 ∧
    (stAt eN1.states 0).active = false :=
  ⟨rfl, rfl, rfl, rfl, rfl, rfl⟩

/-- C2 (amended): whenever a dispatch call begins with the changed flag
set, the pending enter list is drained in root-to-leaf order before any
processing; for every popped state that has an enter callback the
callback is invoked once per pop, `enter_cnt` goes up by the number of
pops and `active` becomes true, while a state without an enter callback
is popped with no effect; the flag is then cleared and the list emptied,
and no later step of the same dispatch call touches an enter counter
again. -/
theorem C2_enter_drain (msg : P) (fuel idx : Nat) (e : Executor σ P)
    (hch : e.current_state_changed = true) :
    dispatch_idx msg (fuel + 1) idx e =
        dispatch_idx msg (fuel + 1) idx (enterPhase msg e) ∧
    (enterPhase msg e).current_state_changed = false ∧
    (enterPhase msg e).idxs_enter_fns = [] ∧
    (∀ j, (stAt (enterPhase msg e).states j).enter_cnt =
        (stAt e.states j).enter_cnt +
          (if (stAt e.states j).enter.isSome then e.idxs_enter_fns.count j else 0)) ∧
    (∀ j, (stAt (enterPhase msg e).states j).active =
        ((stAt e.states j).active ||
          (decide (j ∈ e.idxs_enter_fns) && (stAt e.states j).enter.isSome))) ∧
    (∀ (l : List Nat) (x : Nat) (p : List (StateInfo σ P) × σ),
        runEnters msg (l ++ [x]) p = runEnters msg l (enterStep msg p x)) ∧
    (∀ (f i : Nat) (e' e'' : Executor σ P), e'.current_state_changed = false →
        e'.idxs_exit_fns = [] → dispatch_idx msg f i e' = ROut.ok e'' →
        ∀ j, (stAt e''.states j).enter_cnt = (stAt e'.states j).enter_cnt) := by
  refine ⟨dispatch_enterPhase msg fuel idx e hch, rfl, rfl, ?_, ?_, ?_, ?_⟩
  · intro j
    exact runEnters_enterCnt msg e.idxs_enter_fns (e.states, e.sm) j
  · intro j
    exact runEnters_active msg e.idxs_enter_fns (e.states, e.sm) j
  · intro l x p
    exact runEnters_snoc msg l x p
  · intro f i e' e'' h1 h2 h3 j
    exact dispatch_noEnter msg f i e' e'' h1 h2 h3 j

/-- C2, witness: the amended drain description evaluated on the built
Scenario A machine (pending enter list `[1, 0]`, changed flag set). -/
theorem C2_witness :
    eA0.current_state_changed = true ∧
    (enterPhase () eA0).current_state_changed = false ∧
    (enterPhase () eA0).idxs_enter_fns = [] ∧
    (stAt (enterPhase () eA0).states 0).enter_cnt =
      (stAt eA0.states 0).enter_cnt +
        (if (stAt eA0.states 0).enter.isSome then eA0.idxs_enter_fns.count 0 else 0) :=
  ⟨rfl, (C2_enter_drain () 3 1 eA0 rfl).2.1, (C2_enter_drain () 3 1 eA0 rfl).2.2.1,
    (C2_enter_drain () 3 1 eA0 rfl).2.2.2.1 0⟩

/-- C3, counterexample: the claim states that in Scenario A `other`'s
exit_count becomes 1 only once dispatch 3 runs; in fact the exit drain
runs at the end of the same dispatch that commits the transition, so
`other`'s exit_count is already 1 after dispatch 2 (exactly what the
repository's test `test_leaf_transitions_in_a_tree` asserts). -/
theorem C3_counterexample :
    dispatch () 4 eA1 = ROut.ok eA2 ∧
    (stAt eA2.states 2).exit_cnt = 1 :=
  ⟨rfl, rfl⟩

/-- C3 (amended): in Scenario A, exits run within the committing
dispatch while enters stay staged for the next call.  After dispatch 1,
`initial` has process_count 1 and exit_count 1 while all of `other`'s
counters are 0, and the staged enter list `[2]` is untouched (the
destination's enter callback has not run).  After dispatch 2, `base`'s
enter_count is still 1, `other` has enter 1 / process 1, and `other`'s
exit_count is already 1; it stays 1 after dispatch 3. -/
theorem C3_scenario :
    dispatch () 4 eA0 = ROut.ok eA1 ∧
    (stAt eA1.states 1).process_cnt = 1 ∧
    (stAt eA1.states 1).exit_cnt = 1 ∧
    (stAt eA1.states 2).enter_cnt = 0 ∧
    (stAt eA1.states 2).process_cnt = 0 ∧
    (stAt eA1.states 2).exit_cnt = 0 ∧
    eA1.current_state_changed = true ∧
    eA1.idxs_enter_fns = [2] ∧
    (stAt eA1.states 0).enter_cnt = 1 ∧
    dispatch () 4 eA1 = ROut.ok eA2 ∧
    (stAt eA2.states 0).enter_cnt = 1 ∧
    (stAt eA2.states 2).enter_cnt = 1 ∧
    (stAt eA2.states 2).process_cnt = 1 ∧
    (stAt eA2.states 2).exit_cnt = 1 ∧
    dispatch () 4 eA2 = ROut.ok eA3 ∧
    (stAt eA3.states 2).exit_cnt = 1 :=
  ⟨rfl, rfl, rfl, rfl, rfl, rfl, rfl, rfl, rfl, rfl, rfl, rfl, rfl, rfl, rfl, rfl⟩

/- ================= Claim C6 ================= -/

/-- With no staged transition, `dispatchFinish` and thus the tail of a
dispatch is the identity when no transition was committed earlier in the
call. -/
theorem dispatchFinish_idle (msg : P) (e : Executor σ P)
    (hs : e.idx_transition_dest = none) (hch : e.current_state_changed = false) :
    dispatchFinish msg e = ROut.ok e := by
  unfold dispatchFinish
  rw [hs]
  simp [hch]

/-- A successful `dispatchFinish` on a machine with staged destination
`t` commits exactly that transition: the current state becomes `t`, the
previous state becomes the old current state, and the changed flag is
set. -/
theorem dispatchFinish_commit_inv (msg : P) (e e' : Executor σ P) (t : Nat)
    (hs : e.idx_transition_dest = some t) (h : dispatchFinish msg e = ROut.ok e') :
    e'.idx_current_state = t ∧ e'.idx_previous_state = e.idx_current_state ∧
      e'.current_state_changed = true := by
  unfold dispatchFinish at h
  rw [hs] at h
  simp only [] at h
  by_cases hv : t < e.states.length ∧ e.transition_targets_set.getD t false = true
  · rw [if_pos hv] at h
    cases hsetup : setup_exit_enter_fns_idxs t { e with idx_transition_dest := none } with
    | none => rw [hsetup] at h; exact absurd h (by simp)
    | some e3 =>
      rw [hsetup] at h
      obtain ⟨en, ex, sent, _, _, he3⟩ := setup_inv _ _ _ hsetup
      subst he3
      simp only [] at h
      split at h
      · cases h
        exact ⟨rfl, rfl, rfl⟩
      · cases h
        simp_all
  · rw [if_neg hv] at h
    exact absurd h (by simp)

/-- C6: within a single dispatch call at most one transition is staged
and committed, and it is the first destination returned along the
bubble-up chain: a destination returned by the dispatched state's own
handler wins over anything an ancestor handler returns later in the same
pass; an `ok` dispatch always ends with the staged-transition slot
empty, commits the first staged destination when there is one (current
state becomes it, previous state becomes the old current state), and
commits nothing when no destination was returned. -/
theorem C6_first_transition_wins (msg : P) (fuel idx : Nat) (e : Executor σ P)
    (hch : e.current_state_changed = false) (hxq : e.idxs_exit_fns = [])
    (hslot : e.idx_transition_dest = none) :
    (∀ (sm2 : σ) (hd : Handled) (t : Nat),
        (stAt e.states idx).process e.sm msg = (sm2, hd, some t) →
        ∀ qd, bubble msg (fuel + 1) idx (e.states, e.sm) = some qd → qd.2 = some t) ∧
    (∀ e', dispatch_idx msg (fuel + 1) idx e = ROut.ok e' →
        e'.idx_transition_dest = none) ∧
    (∀ qd t, bubble msg (fuel + 1) idx (e.states, e.sm) = some qd → qd.2 = some t →
        ∀ e', dispatch_idx msg (fuel + 1) idx e = ROut.ok e' →
          e'.idx_current_state = t ∧ e'.idx_previous_state = e.idx_current_state ∧
            e'.current_state_changed = true) ∧
    (∀ qd, bubble msg (fuel + 1) idx (e.states, e.sm) = some qd → qd.2 = none →
        ∀ e', dispatch_idx msg (fuel + 1) idx e = ROut.ok e' →
          e'.idx_current_state = e.idx_current_state ∧
            e'.current_state_changed = false) := by
  have hpipe := dispatch_pipeline msg (fuel + 1) idx e hch hxq
  refine ⟨?_, ?_, ?_, ?_⟩
  · intro sm2 hd t hp qd hb
    rcases bubble_leaf_dest msg fuel idx (e.states, e.sm) sm2 hd t hp with h | ⟨qd2, hb2, hd2⟩
    · rw [h] at hb; exact absurd hb (by simp)
    · rw [hb] at hb2
      cases hb2
      exact hd2
  · intro e' h
    rw [hpipe] at h
    cases hb : bubble msg (fuel + 1) idx (e.states, e.sm) with
    | none => rw [hb] at h; exact absurd h (by simp)
    | some qd =>
      rw [hb] at h
      simp only [] at h
      exact (dispatchFinish_ok_inv msg ({ e with states := qd.1.1, sm := qd.1.2, idx_transition_dest := firstSome e.idx_transition_dest qd.2 }) e' hxq h).1
  · intro qd t hb ht e' h
    rw [hpipe, hb] at h
    simp only [] at h
    rw [ht, hslot] at h
    exact dispatchFinish_commit_inv msg ({ e with states := qd.1.1, sm := qd.1.2, idx_transition_dest := firstSome none (some t) }) e' t rfl h
  · intro qd hb ht e' h
    rw [hpipe, hb] at h
    simp only [] at h
    rw [ht, hslot] at h
    have hidle := dispatchFinish_idle msg ({ e with states := qd.1.1, sm := qd.1.2, idx_transition_dest := firstSome none none } : Executor σ P) rfl hch
    rw [hidle] at h
    cases h
    exact ⟨rfl, hch⟩

/-- C6, witness: on the Scenario A machine after dispatch 1 (current
state `other = 2`, whose handler returns destination `1`), the staged
destination is `1`, the dispatch ends with the slot empty, and the
commit makes `1` current with previous `2`. -/
theorem C6_witness :
    bubble () 4 2 (eC6in.states, eC6in.sm) = some bC6 ∧
    bC6.2 = some 1 ∧
    dispatch_idx () 4 2 eC6in = ROut.ok eC6 ∧
    eC6.idx_transition_dest = none ∧
    eC6.idx_current_state = 1 ∧
    eC6.idx_previous_state = 2 :=
  ⟨rfl, rfl, rfl,
    (C6_first_transition_wins () 3 2 eC6in rfl rfl rfl).2.1 eC6 rfl,
    ((C6_first_transition_wins () 3 2 eC6in rfl rfl rfl).2.2.1 bC6 1 rfl rfl eC6 rfl).1,
    ((C6_first_transition_wins () 3 2 eC6in rfl rfl rfl).2.2.1 bC6 1 rfl rfl eC6 rfl).2.1⟩

/- ================= Parent-chain infrastructure ================= -/

theorem iterP_add (par : Nat → Option Nat) :
    ∀ (a b x : Nat), iterP par (a + b) x = (iterP par a x).bind (iterP par b) := by
  intro a
  induction a with
  | zero => intro b x; simp [iterP]
  | succ a ih =>
    intro b x
    have hab : a + 1 + b = (a + b) + 1 := by omega
    rw [hab]
    cases hp : par x with
    | none => simp [iterP, hp]
    | some p => simp [iterP, hp, ih]

/-- If a later iterate exists, every earlier one does. -/
theorem iterP_some_mono (par : Nat → Option Nat) (a b x : Nat) (w : Nat)
    (hab : a ≤ b) (hb : iterP par b x = some w) :
    ∃ u, iterP par a x = some u := by
  have hb' : iterP par (a + (b - a)) x = some w := by
    rw [show a + (b - a) = b from by omega]
    exact hb
  rw [iterP_add] at hb'
  cases ha : iterP par a x with
  | none => rw [ha] at hb'; exact absurd hb' (by simp)
  | some u => exact ⟨u, rfl⟩

theorem iterP_period (par : Nat → Option Nat) (q w : Nat)
    (h : iterP par q w = some w) (r : Nat) :
    iterP par (q + r) w = iterP par r w := by
  rw [iterP_add, h]
  rfl

/-- A parent chain that reaches the root never revisits a node. -/
theorem chain_nodup (par : Nat → Option Nat) (x : Nat)
    (hreach : ∃ K, iterP par K x = none) :
    ∀ (a b w : Nat), a < b → iterP par a x = some w → iterP par b x = some w →
      False := by
  intro a b w hab ha hb
  obtain ⟨K, hK⟩ := hreach
  have hq : iterP par (b - a) w = some w := by
    have hb' : iterP par (a + (b - a)) x = some w := by
      rw [show a + (b - a) = b from by omega]
      exact hb
    rw [iterP_add, ha] at hb'
    exact hb'
  have hall : ∀ d, ∃ u, iterP par d w = some u := by
    intro d
    induction d using Nat.strong_induction_on with
    | _ d ihd =>
      by_cases hd : d < b - a
      · exact iterP_some_mono par d (b - a) w w (by omega) hq
      · have h1 : iterP par d w = iterP par (d - (b - a)) w := by
          conv_lhs => rw [show d = (b - a) + (d - (b - a)) from by omega]
          exact iterP_period par (b - a) w hq _
        rw [h1]
        exact ihd (d - (b - a)) (by omega)
  by_cases hKa : K ≤ a
  · obtain ⟨u, hu⟩ := iterP_some_mono par K a x w hKa ha
    rw [hK] at hu
    exact absurd hu (by simp)
  · have hK' : iterP par (a + (K - a)) x = none := by
      rw [show a + (K - a) = K from by omega]
      exact hK
    rw [iterP_add, ha] at hK'
    obtain ⟨u, hu⟩ := hall (K - a)
    simp only [Option.bind] at hK'
    rw [hu] at hK'
    exact absurd hK' (by simp)

/-- Characterisation of the enter-list loop of the path planner: the
pushed list is the destination followed by its strict ancestors, every
pushed strict ancestor is inactive, and the sentinel is the next
ancestor, which is active (or the walk fell off the root and the
sentinel is `none`). -/
theorem enterWalk_chain (sts : List (StateInfo σ P)) :
    ∀ (fuel d : Nat) (l : List Nat) (sent : Option Nat),
      setupEnterWalk sts fuel d = some (l, sent) →
      (∀ j, j < l.length → iterP (parF sts) j d = some (l.getD j 0)) ∧
      1 ≤ l.length ∧ l.getD 0 0 = d ∧
      (∀ j, 1 ≤ j → j < l.length → (stAt sts (l.getD j 0)).active = false) ∧
      (∀ z, sent = some z →
          iterP (parF sts) l.length d = some z ∧ (stAt sts z).active = true) ∧
      (sent = none → iterP (parF sts) l.length d = none) := by
  intro fuel
  induction fuel with
  | zero => intro d l sent h; exact absurd h (by simp [setupEnterWalk])
  | succ fuel ih =>
    intro d l sent h
    rw [setupEnterWalk] at h
    cases hp : (stAt sts d).parent with
    | none =>
      rw [hp] at h
      cases h
      refine ⟨?_, by simp, rfl, ?_, ?_, ?_⟩
      · intro j hj
        simp at hj
        subst hj
        rfl
      · intro j hj hj2
        simp at hj2
        omega
      · intro z hz
        exact absurd hz (by simp)
      · intro _
        show iterP (parF sts) 1 d = none
        simp [iterP, parF, hp]
    | some p =>
      rw [hp] at h
      have h' : (if (stAt sts p).active = true then some ([d], some p)
          else match setupEnterWalk sts fuel p with
               | none => none
               | some pr => some (d :: pr.1, pr.2)) = some (l, sent) := h
      by_cases ha : (stAt sts p).active
      · rw [if_pos ha] at h'
        cases h'
        refine ⟨?_, by simp, rfl, ?_, ?_, ?_⟩
        · intro j hj
          simp at hj
          subst hj
          rfl
        · intro j hj hj2
          simp at hj2
          omega
        · intro z hz
          have hz' : p = z := by injection hz with h0
          subst hz'
          refine ⟨?_, ha⟩
          simp [iterP, parF, hp]
        · intro hz
          exact absurd hz (by simp)
      · rw [if_neg (by simpa using ha)] at h'
        cases hrec : setupEnterWalk sts fuel p with
        | none => rw [hrec] at h'; exact absurd h' (by simp)
        | some pr =>
          rw [hrec] at h'
          cases h'
          obtain ⟨hidx, hlen, hhead, hact, hsent, hroot⟩ := ih p pr.1 pr.2 (by rw [hrec])
          have hstep : ∀ k, iterP (parF sts) (k + 1) d = iterP (parF sts) k p := by
            intro k
            have h2 : (1 : Nat) + k = k + 1 := by omega
            rw [← h2, iterP_add]
            have h1 : iterP (parF sts) 1 d = some p := by simp [iterP, parF, hp]
            rw [h1]
            rfl
          refine ⟨?_, by simp, rfl, ?_, ?_, ?_⟩
          · intro j hj
            cases j with
            | zero => rfl
            | succ j =>
              rw [hstep j]
              have hj' : j < pr.1.length := by
                simp at hj
                omega
              simpa using hidx j hj'
          · intro j hj1 hj2
            cases j with
            | zero => omega
            | succ j =>
              show (stAt sts (pr.1.getD j 0)).active = false
              cases Nat.eq_or_lt_of_le hj1 with
              | inl h0 =>
                have hj0 : j = 0 := by omega
                subst hj0
                rw [show pr.1.getD 0 0 = p from hhead]
                simpa using ha
              | inr h1 =>
                exact hact j (by omega) (by simp at hj2; omega)
          · intro z hz
            have hz2 := hsent z hz
            refine ⟨?_, hz2.2⟩
            show iterP (parF sts) (pr.1.length + 1) d = some z
            rw [hstep]
            exact hz2.1
          · intro hz
            show iterP (parF sts) (pr.1.length + 1) d = none
            rw [hstep]
            exact hroot hz

/-- Characterisation of the exit-list loop: the pushed entries are the
strict ancestors of the current state in order, none of them is the
sentinel, and the walk stops right at the sentinel or at the root. -/
theorem exitWalk_chain (sts : List (StateInfo σ P)) (sent : Option Nat) :
    ∀ (fuel c : Nat) (m : List Nat),
      setupExitWalk sts sent fuel c = some m →
      (∀ j, j < m.length → iterP (parF sts) (j + 1) c = some (m.getD j 0)) ∧
      (∀ j, j < m.length → sent ≠ some (m.getD j 0)) ∧
      (iterP (parF sts) (m.length + 1) c = none ∨
        (∃ z, sent = some z ∧ iterP (parF sts) (m.length + 1) c = some z)) := by
  intro fuel
  induction fuel with
  | zero => intro c m h; exact absurd h (by simp [setupExitWalk])
  | succ fuel ih =>
    intro c m h
    rw [setupExitWalk] at h
    cases hp : (stAt sts c).parent with
    | none =>
      rw [hp] at h
      cases h
      refine ⟨by intro j hj; simp at hj, by intro j hj; simp at hj, Or.inl ?_⟩
      show iterP (parF sts) 1 c = none
      simp [iterP, parF, hp]
    | some p =>
      rw [hp] at h
      have h' : (if sent = some p then some []
          else match setupExitWalk sts sent fuel p with
               | none => none
               | some l => some (p :: l)) = some m := h
      by_cases hsp : sent = some p
      · rw [if_pos hsp] at h'
        cases h'
        refine ⟨by intro j hj; simp at hj, by intro j hj; simp at hj,
          Or.inr ⟨p, hsp, ?_⟩⟩
        show iterP (parF sts) 1 c = some p
        simp [iterP, parF, hp]
      · rw [if_neg hsp] at h'
        cases hrec : setupExitWalk sts sent fuel p with
        | none => rw [hrec] at h'; exact absurd h' (by simp)
        | some m2 =>
          rw [hrec] at h'
          cases h'
          obtain ⟨hidx, hns, hterm⟩ := ih p m2 hrec
          have hstep : ∀ k, iterP (parF sts) (k + 1) c = iterP (parF sts) k p := by
            intro k
            have h2 : (1 : Nat) + k = k + 1 := by omega
            rw [← h2, iterP_add]
            have h1 : iterP (parF sts) 1 c = some p := by simp [iterP, parF, hp]
            rw [h1]
            rfl
          refine ⟨?_, ?_, ?_⟩
          · intro j hj
            cases j with
            | zero =>
              show iterP (parF sts) 1 c = some p
              simp [iterP, parF, hp]
            | succ j =>
              rw [hstep (j + 1)]
              have hj' : j < m2.length := by simp at hj; omega
              simpa using hidx j hj'
          · intro j hj
            cases j with
            | zero => simpa using hsp
            | succ j =>
              have hj' : j < m2.length := by simp at hj; omega
              simpa using hns j hj'
          · rw [show (p :: m2).length + 1 = (m2.length + 1) + 1 from by simp]
            rw [hstep (m2.length + 1)]
            exact hterm

/- ================= Claim C1 ================= -/

/-- Index a list membership. -/
theorem mem_getD (L : List Nat) (a : Nat) (h : a ∈ L) :
    ∃ j, j < L.length ∧ L.getD j 0 = a := by
  induction L with
  | nil => exact absurd h (by simp)
  | cons b L ih =>
    rcases List.mem_cons.mp h with h0 | h1
    · exact ⟨0, by simp, h0.symm⟩
    · obtain ⟨j, hj, hgd⟩ := ih h1
      exact ⟨j + 1, by simp; omega, by simpa using hgd⟩

/-- C1, counterexample: with states `0 ← 1 ← {2, 3}`, `4` a child of `2`,
and `2` (the eventual sentinel) the only active state, the planner run
for a transition from current leaf `3` to destination leaf `4` yields
exit_sentinel `2` and exit list `[3, 1, 0]` -- which contains `1`, the
parent of the sentinel, violating "the exit_sentinel itself and every
state above it appear in neither list".  (Such stale-active
configurations arise in reachable machines because a state without an
exit callback keeps `active = true` after being exited.) -/
theorem C1_counterexample :
    setupEnterWalk stsC1 5 4 = some ([4], some 2) ∧
    setupExitWalk stsC1 (some 2) 5 3 = some [1, 0] ∧
    parF stsC1 2 = some 1 ∧
    (1 : Nat) ∈ (3 :: [1, 0]) :=
  ⟨rfl, rfl, rfl, by decide⟩

/-- C1 (amended): for every planner run from current leaf `c` to
destination `d` whose parent chains terminate, the enter list is `d`
followed by its successive (inactive) ancestors, stopping at and
excluding the first active ancestor, which is recorded as the sentinel
(`none` when the root is reached); the exit list is `c` first,
unconditionally, followed by `c`'s ancestors up to but excluding the
sentinel or through the root; the sentinel is in neither list (in the
exit list only if it equals `c`), no state above the sentinel is in the
enter list, and -- provided the sentinel lies on `c`'s strict ancestor
chain -- no state above it is in the exit list either. -/
theorem C1_planner (sts : List (StateInfo σ P)) (fuel fuel2 d c : Nat)
    (l : List Nat) (sent : Option Nat) (m : List Nat)
    (hE : setupEnterWalk sts fuel d = some (l, sent))
    (hX : setupExitWalk sts sent fuel2 c = some m)
    (hRd : ∃ K, iterP (parF sts) K d = none)
    (hRc : ∃ K, iterP (parF sts) K c = none) :
    (l.getD 0 0 = d ∧ 1 ≤ l.length ∧
      (∀ j, j < l.length → iterP (parF sts) j d = some (l.getD j 0)) ∧
      (∀ j, 1 ≤ j → j < l.length → (stAt sts (l.getD j 0)).active = false)) ∧
    (∀ z, sent = some z →
        iterP (parF sts) l.length d = some z ∧ (stAt sts z).active = true) ∧
    (sent = none → iterP (parF sts) l.length d = none) ∧
    ((∀ j, j < m.length → iterP (parF sts) (j + 1) c = some (m.getD j 0)) ∧
      (∀ j, j < m.length → sent ≠ some (m.getD j 0)) ∧
      (iterP (parF sts) (m.length + 1) c = none ∨
        (∃ z, sent = some z ∧ iterP (parF sts) (m.length + 1) c = some z))) ∧
    (∀ z, sent = some z → z ∉ l ∧ (z ≠ c → z ∉ (c :: m))) ∧
    (∀ z w k, sent = some z → 1 ≤ k → iterP (parF sts) k z = some w → w ∉ l) ∧
    (∀ z w k kc, sent = some z → 1 ≤ k → iterP (parF sts) k z = some w →
        1 ≤ kc → iterP (parF sts) kc c = some z → w ∉ (c :: m)) := by
  obtain ⟨hEidx, hElen, hEhead, hEact, hEsent, hEroot⟩ :=
    enterWalk_chain sts fuel d l sent hE
  obtain ⟨hXidx, hXns, hXterm⟩ := exitWalk_chain sts sent fuel2 c m hX
  refine ⟨⟨hEhead, hElen, hEidx, hEact⟩, hEsent, hEroot, ⟨hXidx, hXns, hXterm⟩,
    ?_, ?_, ?_⟩
  · intro z hz
    obtain ⟨hzit, _⟩ := hEsent z hz
    constructor
    · intro hmem
      obtain ⟨j, hj, hgd⟩ := mem_getD l z hmem
      have h1 := hEidx j hj
      rw [hgd] at h1
      exact chain_nodup (parF sts) d hRd j l.length z hj h1 hzit
    · intro hne hmem
      rcases List.mem_cons.mp hmem with h0 | h1
      · exact hne h0
      · obtain ⟨j, hj, hgd⟩ := mem_getD m z h1
        exact hXns j hj (by rw [hz, hgd])
  · intro z w k hz hk hzw hmem
    obtain ⟨hzit, _⟩ := hEsent z hz
    have hwit : iterP (parF sts) (l.length + k) d = some w := by
      rw [iterP_add, hzit]
      exact hzw
    obtain ⟨j, hj, hgd⟩ := mem_getD l w hmem
    have h1 := hEidx j hj
    rw [hgd] at h1
    exact chain_nodup (parF sts) d hRd j (l.length + k) w (by omega) h1 hwit
  · intro z w k kc hz hk hzw hkc hzc hmem
    have hkcval : kc = m.length + 1 := by
      rcases hXterm with hroot | ⟨z2, hz2, hit⟩
      · exfalso
        by_cases hle : kc ≤ m.length
        · have h1 := hXidx (kc - 1) (by omega)
          rw [show kc - 1 + 1 = kc from by omega, hzc] at h1
          have hz' : z = m.getD (kc - 1) 0 := by injection h1 with h0
          exact (hXns (kc - 1) (by omega)) (by rw [hz, hz'])
        · obtain ⟨u, hu⟩ :=
            iterP_some_mono (parF sts) (m.length + 1) kc c z (by omega) hzc
          rw [hroot] at hu
          exact absurd hu (by simp)
      · rw [hz] at hz2
        have hz2' : z2 = z := by injection hz2 with h0; exact h0.symm
        rw [hz2'] at hit
        by_cases hkeq : kc = m.length + 1
        · exact hkeq
        · exfalso
          rcases Nat.lt_or_ge kc (m.length + 1) with hlt | hge
          · exact chain_nodup (parF sts) c hRc kc (m.length + 1) z hlt hzc hit
          · exact chain_nodup (parF sts) c hRc (m.length + 1) kc z (by omega) hit hzc
    subst hkcval
    have hwit : iterP (parF sts) ((m.length + 1) + k) c = some w := by
      rw [iterP_add, hzc]
      exact hzw
    rcases List.mem_cons.mp hmem with h0 | h1
    · rw [h0] at hwit
      exact chain_nodup (parF sts) c hRc 0 ((m.length + 1) + k) c (by omega) rfl hwit
    · obtain ⟨j, hj, hgd⟩ := mem_getD m w h1
      have h1' := hXidx j hj
      rw [hgd] at h1'
      exact chain_nodup (parF sts) c hRc (j + 1) ((m.length + 1) + k) w (by omega) h1' hwit

/-- C1, witness: the amended planner description applied to the
counterexample configuration (the sentinel `2` is absent from both
lists there; only its ancestor appears in the exit list, which the
amendment permits because the sentinel is off `c`'s chain). -/
theorem C1_witness :
    ([4].getD 0 0 = 4) ∧
    (2 : Nat) ∉ [4] ∧
    ((2 : Nat) ≠ 3 → (2 : Nat) ∉ (3 :: [1, 0])) :=
  ⟨(C1_planner stsC1 5 5 4 3 [4] (some 2) [1, 0] rfl rfl ⟨5, rfl⟩ ⟨5, rfl⟩).1.1,
    ((C1_planner stsC1 5 5 4 3 [4] (some 2) [1, 0] rfl rfl ⟨5, rfl⟩
      ⟨5, rfl⟩).2.2.2.2.1 2 rfl).1,
    ((C1_planner stsC1 5 5 4 3 [4] (some 2) [1, 0] rfl rfl ⟨5, rfl⟩
      ⟨5, rfl⟩).2.2.2.2.1 2 rfl).2⟩

/- ================= Claim C5 ================= -/

theorem iterP_succ_back (par : Nat → Option Nat) :
    ∀ (n x : Nat), iterP par (n + 1) x = (iterP par n x).bind par := by
  intro n
  induction n with
  | zero => intro x; cases hp : par x <;> simp [iterP, hp]
  | succ n ih =>
    intro x
    cases hp : par x with
    | none => simp [iterP, hp]
    | some p =>
      show iterP par (n + 1 + 1) x = (iterP par (n + 1) x).bind par
      have h1 : iterP par (n + 1 + 1) x = iterP par (n + 1) p := by
        simp [iterP, hp]
      have h2 : iterP par (n + 1) x = iterP par n p := by
        simp [iterP, hp]
      rw [h1, h2, ih p]

/-- A node reached in at least one parent step is somebody's declared
parent. -/
theorem iter_back_parent (par : Nat → Option Nat) (k x y : Nat)
    (hk : 1 ≤ k) (h : iterP par k x = some y) :
    ∃ u, par u = some y := by
  have h' : iterP par ((k - 1) + 1) x = some y := by
    rw [show k - 1 + 1 = k from by omega]
    exact h
  rw [iterP_succ_back] at h'
  cases hu : iterP par (k - 1) x with
  | none => rw [hu] at h'; exact absurd h' (by simp)
  | some u =>
    rw [hu] at h'
    exact ⟨u, h'⟩

theorem getD_mem (L : List Nat) : ∀ (j : Nat), j < L.length → L.getD j 0 ∈ L := by
  induction L with
  | nil => intro j hj; simp at hj
  | cons a L ih =>
    intro j hj
    cases j with
    | zero => exact List.mem_cons_self a L
    | succ j =>
      exact List.mem_cons.mpr (Or.inr (ih j (by simp at hj; omega)))

/-- A list enumerating pairwise-distinct values of a partial function
has no duplicates. -/
theorem enum_nodup (f : Nat → Option Nat)
    (hinj : ∀ a b w, a < b → f a = some w → f b = some w → False) :
    ∀ (L : List Nat) (off : Nat),
      (∀ j, j < L.length → f (off + j) = some (L.getD j 0)) → L.Nodup := by
  intro L
  induction L with
  | nil => intro off _; exact List.nodup_nil
  | cons a L ih =>
    intro off hL
    refine List.nodup_cons.mpr ⟨?_, ih (off + 1) ?_⟩
    · intro hmem
      obtain ⟨j, hj, hgd⟩ := mem_getD L a hmem
      have h1 : f (off + 0) = some a := by simpa using hL 0 (by simp)
      have h2 : f (off + 1 + j) = some a := by
        have h3 := hL (j + 1) (by simp; omega)
        rw [show off + (j + 1) = off + 1 + j from by omega] at h3
        rw [show (a :: L).getD (j + 1) 0 = L.getD j 0 from rfl, hgd] at h3
        exact h3
      exact hinj (off + 0) (off + 1 + j) a (by omega) h1 h2
    · intro j hj
      have h3 := hL (j + 1) (by simp; omega)
      rw [show off + (j + 1) = off + 1 + j from by omega] at h3
      exact h3

/-- Under accurate active flags (the active set is exactly the ancestor
chain of the current leaf `c`, with both `c` and the destination `t`
leaves), a strict ancestor of `c` is on the planner's exit list exactly
when the destination lies outside its subtree, and then appears exactly
once. -/
theorem exitlist_subtree (sts : List (StateInfo σ P)) (fuel fuel2 t c : Nat)
    (l : List Nat) (sent : Option Nat) (ex : List Nat)
    (hE : setupEnterWalk sts fuel t = some (l, sent))
    (hX : setupExitWalk sts sent fuel2 c = some ex)
    (hRc : ∃ K, iterP (parF sts) K c = none)
    (HA : ∀ i, (stAt sts i).active = true ↔ ∃ k, iterP (parF sts) k c = some i)
    (hLc : ∀ j, parF sts j ≠ some c)
    (hLt : ∀ j, parF sts j ≠ some t) :
    ∀ i k, 1 ≤ k → iterP (parF sts) k c = some i →
      ((i ∈ (c :: ex) ↔ ¬∃ kp, iterP (parF sts) kp t = some i) ∧
        ((¬∃ kp, iterP (parF sts) kp t = some i) → (c :: ex).count i = 1) ∧
        ((∃ kp, iterP (parF sts) kp t = some i) → (c :: ex).count i = 0)) := by
  obtain ⟨hEidx, hElen, hEhead, hEact, hEsent, hEroot⟩ :=
    enterWalk_chain sts fuel t l sent hE
  obtain ⟨hXidx, hXns, hXterm⟩ := exitWalk_chain sts sent fuel2 c ex hX
  have hinj : ∀ a b w, a < b → iterP (parF sts) a c = some w →
      iterP (parF sts) b c = some w → False := chain_nodup (parF sts) c hRc
  have hnodup : (c :: ex).Nodup := by
    refine enum_nodup (fun k => iterP (parF sts) k c) hinj (c :: ex) 0 ?_
    intro j hj
    cases j with
    | zero => rfl
    | succ j =>
      have hj' : j < ex.length := by simp at hj; omega
      simpa using hXidx j hj'
  have hnot_t : ∀ i k, 1 ≤ k → iterP (parF sts) k c = some i → i ≠ t := by
    intro i k hk hkc hit
    subst hit
    obtain ⟨u, hu⟩ := iter_back_parent (parF sts) k c i hk hkc
    exact hLt u hu
  have hk_of_mem : ∀ i k, 1 ≤ k → iterP (parF sts) k c = some i →
      i ∈ (c :: ex) → k ≤ ex.length := by
    intro i k hk hkc hmem
    have hne_c : i ≠ c := by
      intro h0
      subst h0
      exact hinj 0 k i hk rfl hkc
    rcases List.mem_cons.mp hmem with h0 | h1
    · exact absurd h0 hne_c
    · obtain ⟨j, hj, hgd⟩ := mem_getD ex i h1
      have h2 := hXidx j hj
      rw [hgd] at h2
      rcases Nat.lt_trichotomy k (j + 1) with hlt | heq | hgt
      · exact absurd h2 (fun _ => hinj k (j + 1) i hlt hkc h2)
      · omega
      · exact absurd h2 (fun _ => hinj (j + 1) k i hgt h2 hkc)
  have hmem_of_k : ∀ i k, 1 ≤ k → iterP (parF sts) k c = some i →
      k ≤ ex.length → i ∈ (c :: ex) := by
    intro i k hk hkc hkle
    have h1 := hXidx (k - 1) (by omega)
    rw [show k - 1 + 1 = k from by omega, hkc] at h1
    have hieq : i = ex.getD (k - 1) 0 := by injection h1 with h0
    refine List.mem_cons.mpr (Or.inr ?_)
    rw [hieq]
    exact getD_mem ex (k - 1) (by omega)
  have hmem_iff : ∀ i k, 1 ≤ k → iterP (parF sts) k c = some i →
      (i ∈ (c :: ex) ↔ ¬∃ kp, iterP (parF sts) kp t = some i) := by
    intro i k hk hkc
    have hactive : (stAt sts i).active = true := (HA i).mpr ⟨k, hkc⟩
    cases hsent : sent with
    | none =>
      have hroot_t := hEroot hsent
      have hterm : iterP (parF sts) (ex.length + 1) c = none := by
        rcases hXterm with h | ⟨z, hz, _⟩
        · exact h
        · rw [hsent] at hz; exact absurd hz (by simp)
      constructor
      · rintro _ ⟨kp, hkp⟩
        by_cases hkp0 : kp = 0
        · subst hkp0
          exact hnot_t i k hk hkc (by injection hkp with h0; exact h0.symm)
        · by_cases hkpl : kp < l.length
          · have h1 := hEidx kp hkpl
            rw [hkp] at h1
            have hieq : i = l.getD kp 0 := by injection h1 with h0
            have h2 := hEact kp (by omega) hkpl
            rw [← hieq, hactive] at h2
            exact absurd h2 (by simp)
          · obtain ⟨u, hu⟩ :=
              iterP_some_mono (parF sts) l.length kp t i (by omega) hkp
            rw [hroot_t] at hu
            exact absurd hu (by simp)
      · intro _
        have hkle : k ≤ ex.length := by
          by_contra hgt
          obtain ⟨u, hu⟩ :=
            iterP_some_mono (parF sts) (ex.length + 1) k c i (by omega) hkc
          rw [hterm] at hu
          exact absurd hu (by simp)
        exact hmem_of_k i k hk hkc hkle
    | some z =>
      obtain ⟨hzit, hzact⟩ := hEsent z hsent
      have hz_ne_c : z ≠ c := by
        intro h0
        obtain ⟨u, hu⟩ := iter_back_parent (parF sts) l.length t z hElen hzit
        rw [h0] at hu
        exact hLc u hu
      obtain ⟨kz, hkz⟩ := (HA z).mp hzact
      have hkz1 : 1 ≤ kz := by
        rcases Nat.eq_zero_or_pos kz with h0 | h1
        · subst h0
          exact absurd (by injection hkz with h0; exact h0.symm) hz_ne_c
        · exact h1
      have hkzval : kz = ex.length + 1 := by
        rcases hXterm with hroot | ⟨z2, hz2, hit⟩
        · exfalso
          by_cases hle : kz ≤ ex.length
          · have h1 := hXidx (kz - 1) (by omega)
            rw [show kz - 1 + 1 = kz from by omega, hkz] at h1
            have hz' : z = ex.getD (kz - 1) 0 := by injection h1 with h0
            exact (hXns (kz - 1) (by omega)) (by rw [hsent, hz'])
          · obtain ⟨u, hu⟩ :=
              iterP_some_mono (parF sts) (ex.length + 1) kz c z (by omega) hkz
            rw [hroot] at hu
            exact absurd hu (by simp)
        · rw [hsent] at hz2
          have hz2' : z2 = z := by injection hz2 with h0; exact h0.symm
          rw [hz2'] at hit
          by_cases hkeq : kz = ex.length + 1
          · exact hkeq
          · exfalso
            rcases Nat.lt_or_ge kz (ex.length + 1) with hlt | hge
            · exact hinj kz (ex.length + 1) z hlt hkz hit
            · exact hinj (ex.length + 1) kz z (by omega) hit hkz
      constructor
      · intro hmem
        have hkle := hk_of_mem i k hk hkc hmem
        rintro ⟨kp, hkp⟩
        by_cases hkp0 : kp = 0
        · subst hkp0
          exact hnot_t i k hk hkc (by injection hkp with h0; exact h0.symm)
        · rcases Nat.lt_trichotomy kp l.length with hlt | heq | hgt
          · have h1 := hEidx kp hlt
            rw [hkp] at h1
            have hieq : i = l.getD kp 0 := by injection h1 with h0
            have h2 := hEact kp (by omega) hlt
            rw [← hieq, hactive] at h2
            exact absurd h2 (by simp)
          · rw [heq, hzit] at hkp
            have hiz : z = i := by injection hkp with h0
            rw [← hiz] at hkc
            exact hinj k kz z (by omega) hkc hkz
          · have hsplit : iterP (parF sts) kp t =
                (iterP (parF sts) l.length t).bind (iterP (parF sts) (kp - l.length)) := by
              rw [← iterP_add]
              rw [show l.length + (kp - l.length) = kp from by omega]
            rw [hsplit, hzit] at hkp
            have hiz : iterP (parF sts) (kp - l.length) z = some i := hkp
            have hlong : iterP (parF sts) (kz + (kp - l.length)) c = some i := by
              rw [iterP_add, hkz]
              exact hiz
            exact hinj k (kz + (kp - l.length)) i (by omega) hkc hlong
      · intro hnone
        by_cases hkle : k ≤ ex.length
        · exact hmem_of_k i k hk hkc hkle
        · exfalso
          apply hnone
          rcases Nat.lt_trichotomy k kz with hlt | heq | hgt
          · omega
          · refine ⟨l.length, ?_⟩
            rw [hzit]
            rw [heq, hkz] at hkc
            exact hkc
          · refine ⟨l.length + (k - kz), ?_⟩
            rw [iterP_add, hzit]
            have h1 : iterP (parF sts) (k - kz) z = some i := by
              have h2 : iterP (parF sts) (kz + (k - kz)) c = some i := by
                rw [show kz + (k - kz) = k from by omega]
                exact hkc
              rw [iterP_add, hkz] at h2
              exact h2
            exact h1
  intro i k hk hkc
  refine ⟨hmem_iff i k hk hkc, ?_, ?_⟩
  · intro hnone
    have hmem := (hmem_iff i k hk hkc).mpr hnone
    exact List.count_eq_one_of_mem hnodup hmem
  · intro hsome
    have hnmem : i ∉ (c :: ex) := by
      intro hmem
      exact ((hmem_iff i k hk hkc).mp hmem) hsome
    exact List.count_eq_zero.mpr hnmem

/-- The committing tail of a dispatch in explicit form: consume the
staged destination, validate it, plan the chains, update
previous/current, set the changed flag and drain the whole exit queue
front-to-back. -/
theorem dispatchFinish_commit_eq (msg : P) (e : Executor σ P) (t : Nat)
    (en ex : List Nat) (sent : Option Nat)
    (hs : e.idx_transition_dest = some t)
    (hv : t < e.states.length ∧ e.transition_targets_set.getD t false = true)
    (h1 : setupEnterWalk e.states e.states.length t = some (en, sent))
    (h2 : setupExitWalk e.states sent e.states.length e.idx_current_state = some ex) :
    dispatchFinish msg e = ROut.ok
      { e with
          states := (runExits msg (e.idxs_exit_fns ++ (e.idx_current_state :: ex))
            (e.states, e.sm)).1
          sm := (runExits msg (e.idxs_exit_fns ++ (e.idx_current_state :: ex))
            (e.states, e.sm)).2
          idx_transition_dest := none
          idx_current_state := t
          idx_previous_state := e.idx_current_state
          idxs_enter_fns := e.idxs_enter_fns ++ en
          idxs_exit_fns := []
          current_state_changed := true } := by
  have hsetup : setup_exit_enter_fns_idxs t
      ({ e with idx_transition_dest := none } : Executor σ P) =
      some { e with idx_transition_dest := none,
                    idxs_enter_fns := e.idxs_enter_fns ++ en,
                    idxs_exit_fns := e.idxs_exit_fns ++ (e.idx_current_state :: ex) } := by
    unfold setup_exit_enter_fns_idxs
    dsimp only
    rw [h1]
    dsimp only
    rw [h2]
  unfold dispatchFinish
  rw [hs]
  dsimp only
  rw [if_pos hv]
  rw [hsetup]
  dsimp only
  rfl

/-- C5, counterexample: on the machine with composite `0` (exit callback
but no enter callback) over leaves `1` (enter, no exit) and `2`, the
first dispatch commits the transition `1 → 2`.  The exited state `1` is
popped from the exit list but keeps `exit_cnt = 0` and, worse, stays
`active = true` (the drain body is guarded by
`if let Some(state_exit)`); and the composite `0`'s exit callback fires
(`exit_cnt = 1`) even though the destination `2` lies inside its own
subtree -- its `active` flag was never set because it has no enter
callback. -/
theorem C5_counterexample :
    eX0.idx_current_state = 1 ∧
    dispatch () 3 eX0 = ROut.ok eX1 ∧
    eX1.idx_current_state = 2 ∧
    parF eX0.states 2 = some 0 ∧
    (stAt eX1.states 1).exit_cnt = 0 ∧
    (stAt eX1.states 1).active = true ∧
    (stAt eX1.states 0).exit_cnt = 1 :=
  ⟨rfl, rfl, rfl, rfl, rfl, rfl, rfl⟩

/-- C5 (amended): at the end of a dispatch step that commits a
transition, the exit queue -- the current state first, then its
ancestors up to the sentinel -- is drained front-to-back; every popped
state that has an exit callback gets the callback invoked once per pop,
`exit_cnt` incremented and `active` cleared, while a popped state
without an exit callback is unaffected (its `active` flag is not
cleared).  When the active flags mark exactly the current leaf's
ancestor chain and current state and destination are leaves, a strict
ancestor of the current state is on the exit list -- so its exit
callback (if any) fires, exactly once -- precisely when the destination
lies outside its subtree. -/
theorem C5_exit_drain (msg : P) (e : Executor σ P) (t : Nat)
    (en ex : List Nat) (sent : Option Nat)
    (hs : e.idx_transition_dest = some t)
    (hv : t < e.states.length ∧ e.transition_targets_set.getD t false = true)
    (h1 : setupEnterWalk e.states e.states.length t = some (en, sent))
    (h2 : setupExitWalk e.states sent e.states.length e.idx_current_state = some ex) :
    dispatchFinish msg e = ROut.ok
      { e with
          states := (runExits msg (e.idxs_exit_fns ++ (e.idx_current_state :: ex))
            (e.states, e.sm)).1
          sm := (runExits msg (e.idxs_exit_fns ++ (e.idx_current_state :: ex))
            (e.states, e.sm)).2
          idx_transition_dest := none
          idx_current_state := t
          idx_previous_state := e.idx_current_state
          idxs_enter_fns := e.idxs_enter_fns ++ en
          idxs_exit_fns := []
          current_state_changed := true } ∧
    (∀ j, (stAt (runExits msg (e.idx_current_state :: ex) (e.states, e.sm)).1 j).exit_cnt =
        (stAt e.states j).exit_cnt +
          (if (stAt e.states j).exit.isSome then (e.idx_current_state :: ex).count j
           else 0)) ∧
    (∀ j, (stAt (runExits msg (e.idx_current_state :: ex) (e.states, e.sm)).1 j).active =
        ((stAt e.states j).active &&
          !(decide (j ∈ (e.idx_current_state :: ex)) && (stAt e.states j).exit.isSome))) ∧
    (∀ (L : List Nat) (x : Nat) (p : List (StateInfo σ P) × σ),
        runExits msg (x :: L) p = runExits msg L (exitStep msg p x)) ∧
    ((∃ K, iterP (parF e.states) K e.idx_current_state = none) →
      (∀ i, (stAt e.states i).active = true ↔
          ∃ k, iterP (parF e.states) k e.idx_current_state = some i) →
      (∀ j, parF e.states j ≠ some e.idx_current_state) →
      (∀ j, parF e.states j ≠ some t) →
      ∀ i k, 1 ≤ k → iterP (parF e.states) k e.idx_current_state = some i →
        ((i ∈ (e.idx_current_state :: ex) ↔
            ¬∃ kp, iterP (parF e.states) kp t = some i) ∧
          ((¬∃ kp, iterP (parF e.states) kp t = some i) →
            (e.idx_current_state :: ex).count i = 1) ∧
          ((∃ kp, iterP (parF e.states) kp t = some i) →
            (e.idx_current_state :: ex).count i = 0))) := by
  refine ⟨dispatchFinish_commit_eq msg e t en ex sent hs hv h1 h2, ?_, ?_, ?_, ?_⟩
  · intro j
    exact runExits_exitCnt msg (e.idx_current_state :: ex) (e.states, e.sm) j
  · intro j
    exact runExits_active msg (e.idx_current_state :: ex) (e.states, e.sm) j
  · intro L x p
    exact runExits_cons msg L x p
  · intro hRc HA hLc hLt
    exact exitlist_subtree e.states e.states.length e.states.length t
      e.idx_current_state en sent ex h1 h2 hRc HA hLc hLt

/-- C5, witness: the amended exit-drain description applied at the
commit point `eC5w` (transition `1 → 2` staged, exit list `[1]`). -/
theorem C5_witness :
    eC5w.idx_transition_dest = some 2 ∧
    (stAt (runExits () (eC5w.idx_current_state :: []) (eC5w.states, eC5w.sm)).1 1).exit_cnt =
      (stAt eC5w.states 1).exit_cnt +
        (if (stAt eC5w.states 1).exit.isSome then (eC5w.idx_current_state :: []).count 1
         else 0) ∧
    (stAt (runExits () (eC5w.idx_current_state :: []) (eC5w.states, eC5w.sm)).1 0).active =
      ((stAt eC5w.states 0).active &&
        !(decide ((0 : Nat) ∈ (eC5w.idx_current_state :: [])) &&
          (stAt eC5w.states 0).exit.isSome)) :=
  ⟨rfl,
    (C5_exit_drain () eC5w 2 [2] [] (some 0) rfl (by exact ⟨by decide, rfl⟩) rfl
      rfl).2.1 1,
    (C5_exit_drain () eC5w 2 [2] [] (some 0) rfl (by exact ⟨by decide, rfl⟩) rfl
      rfl).2.2.1 0⟩

/- ============ C4: cycle-detector correctness ============ -/

theorem nodup_bound (L : List Nat) (n : Nat) (hd : L.Nodup)
    (hr : ∀ y ∈ L, y < n) : L.length ≤ n := by
  have h1 : L.toFinset ⊆ Finset.range n := by
    intro y hy
    exact Finset.mem_range.mpr (hr y (List.mem_toFinset.mp hy))
  have h2 := Finset.card_le_card h1
  rwa [List.toFinset_card_of_nodup hd, Finset.card_range] at h2

theorem getD_append_lt (d : α) (L M : List α) :
    ∀ (j : Nat), j < L.length → (L ++ M).getD j d = L.getD j d := by
  induction L with
  | nil => intro j hj; simp at hj
  | cons a L ih =>
    intro j hj
    cases j with
    | zero => rfl
    | succ j => simpa using ih j (by simp at hj; omega)

theorem getD_append_len (d : α) (L : List α) (x : α) (j : Nat) (h : j = L.length) :
    (L ++ [x]).getD j d = x := by
  subst h
  induction L with
  | nil => rfl
  | cons a L ih => simpa using ih

theorem take_append_le (L M : List α) :
    ∀ (j : Nat), j ≤ L.length → (L ++ M).take j = L.take j := by
  induction L with
  | nil =>
    intro j hj
    simp at hj
    simp [hj]
  | cons a L ih =>
    intro j hj
    cases j with
    | zero => rfl
    | succ j => simpa using ih j (by simp at hj; omega)

theorem nodup_append_single (L : List Nat) (x : Nat) (h1 : L.Nodup)
    (h2 : x ∉ L) : (L ++ [x]).Nodup := by
  induction L with
  | nil => simp
  | cons a L ih =>
    rcases List.nodup_cons.mp h1 with ⟨ha, hL⟩
    refine List.nodup_cons.mpr ⟨?_, ih hL (fun hm => h2 (List.mem_cons.mpr (Or.inr hm)))⟩
    intro hm
    rcases List.mem_append.mp hm with hm1 | hm2
    · exact ha hm1
    · have hax : a = x := by simpa using hm2
      exact h2 (List.mem_cons.mpr (Or.inl hax.symm))

theorem mem_take_getD (L : List Nat) :
    ∀ (j y : Nat), y ∈ L.take j → ∃ i, i < j ∧ i < L.length ∧ L.getD i 0 = y := by
  induction L with
  | nil => intro j y hy; simp at hy
  | cons a L ih =>
    intro j y hy
    cases j with
    | zero => simp at hy
    | succ j =>
      rcases List.mem_cons.mp (by simpa using hy) with h0 | h1
      · exact ⟨0, by omega, by simp, h0.symm⟩
      · obtain ⟨i, hi1, hi2, hi3⟩ := ih j y h1
        refine ⟨i + 1, by omega, by simp; omega, by simpa using hi3⟩

theorem getD_map (d : α) (f : Nat → α) :
    ∀ (l : List Nat) (p : Nat), p < l.length → (l.map f).getD p d = f (l.getD p 0) := by
  intro l
  induction l with
  | nil => intro p hp; simp at hp
  | cons a l ih =>
    intro p hp
    cases p with
    | zero => rfl
    | succ p => simpa using ih p (by simp at hp; omega)

theorem range_getD : ∀ (n p : Nat), p < n → (List.range n).getD p 0 = p := by
  intro n
  induction n with
  | zero => intro p hp; omega
  | succ n ih =>
    intro p hp
    rcases Nat.lt_or_ge p n with h1 | h2
    · rw [List.range_succ, getD_append_lt 0 (List.range n) [n] p (by simpa using h1)]
      exact ih p h1
    · have hp' : p = n := by omega
      rw [List.range_succ, getD_append_len 0 (List.range n) n p (by simpa using hp')]
      omega

theorem getD_map_range (d : α) (f : Nat → α) (n p : Nat) (h : p < n) :
    ((List.range n).map f).getD p d = f p := by
  rw [getD_map d f (List.range n) p (by simpa using h), range_getD n p h]

theorem mem_childrenOf (par : Nat → Option Nat) (n x y : Nat) :
    y ∈ childrenOf par n x ↔ (y < n ∧ par y = some x) := by
  simp [childrenOf, List.mem_filter, List.mem_range]

theorem wfParB_elim (par : Nat → Option Nat) (n : Nat) (h : wfParB par n = true) :
    ∀ i, i < n → ∀ p, par i = some p → p < n := by
  intro i hi p hp
  have h1 := List.all_eq_true.mp h i (List.mem_range.mpr hi)
  rw [hp] at h1
  exact of_decide_eq_true h1

theorem cyclicB_intro (par : Nat → Option Nat) (n u d : Nat) (hu : u < n)
    (hd1 : 1 ≤ d) (hdn : d ≤ n) (h : iterP par d u = some u) :
    cyclicB par n = true := by
  rw [cyclicB, List.any_eq_true]
  refine ⟨u, List.mem_range.mpr hu, ?_⟩
  rw [List.any_eq_true]
  refine ⟨d - 1, List.mem_range.mpr (by omega), ?_⟩
  rw [show d - 1 + 1 = d from by omega]
  exact decide_eq_true h

theorem cyclicB_elim (par : Nat → Option Nat) (n : Nat) (h : cyclicB par n = true) :
    ∃ x, x < n ∧ ∃ k, 1 ≤ k ∧ k ≤ n ∧ iterP par k x = some x := by
  rw [cyclicB, List.any_eq_true] at h
  obtain ⟨x, hx, h2⟩ := h
  rw [List.any_eq_true] at h2
  obtain ⟨k, hk, h3⟩ := h2
  exact ⟨x, List.mem_range.mp hx, k + 1, by omega,
    by have := List.mem_range.mp hk; omega, of_decide_eq_true h3⟩

theorem iterP_lt (par : Nat → Option Nat) (n : Nat)
    (hw : ∀ i, i < n → ∀ p, par i = some p → p < n) :
    ∀ (k x y : Nat), x < n → iterP par k x = some y → y < n := by
  intro k
  induction k with
  | zero =>
    intro x y hx h
    have h' : x = y := by simpa [iterP] using h
    omega
  | succ k ih =>
    intro x y hx h
    cases hp : par x with
    | none => rw [iterP, hp] at h; exact absurd h (by simp)
    | some p =>
      rw [iterP, hp] at h
      exact ih p y (hw x hx p hp) h

theorem cd_pop_L (par : Nat → Option Nat) (n : Nat) (children : List (List Nat))
    (leaf : Nat) (rest L : List Nat)
    (inv : CDInv par n children (leaf :: rest) L) :
    (L ++ [leaf]).Nodup ∧ (∀ x ∈ L ++ [leaf], x < n) ∧
    (∀ j, j < (L ++ [leaf]).length →
      ∀ y ∈ childrenOf par n ((L ++ [leaf]).getD j 0), y ∈ (L ++ [leaf]).take j) := by
  have hlf_mem : leaf ∈ leaf :: rest := List.mem_cons_self leaf rest
  have hlfn : leaf < n := inv.srange leaf hlf_mem
  have hlfL : leaf ∉ L := inv.snotpop leaf hlf_mem
  refine ⟨nodup_append_single L leaf inv.lnodup hlfL, ?_, ?_⟩
  · intro x hx
    rcases List.mem_append.mp hx with h1 | h2
    · exact inv.lrange x h1
    · have : x = leaf := by simpa using h2
      omega
  · intro j hj y hy
    rw [List.length_append, List.length_singleton] at hj
    rcases Nat.lt_or_ge j L.length with hjl | hje
    · rw [getD_append_lt 0 L [leaf] j hjl] at hy
      rw [take_append_le L [leaf] j (by omega)]
      exact inv.ordered j hjl y hy
    · have hje' : j = L.length := by omega
      rw [getD_append_len 0 L leaf j hje'] at hy
      have hyL : y ∈ L := (inv.closure leaf hlfn).mp (Or.inl hlf_mem) y hy
      rw [hje', take_append_le L [leaf] L.length (le_refl _), List.take_length]
      exact hyL

theorem cd_step_root (par : Nat → Option Nat) (n : Nat) (children : List (List Nat))
    (leaf : Nat) (rest L : List Nat)
    (inv : CDInv par n children (leaf :: rest) L) (hp : par leaf = none) :
    CDInv par n children rest (L ++ [leaf]) := by
  have hlf_mem : leaf ∈ leaf :: rest := List.mem_cons_self leaf rest
  have hlfn : leaf < n := inv.srange leaf hlf_mem
  have hlfL : leaf ∉ L := inv.snotpop leaf hlf_mem
  have hmemL' : ∀ x, x ∈ L ++ [leaf] ↔ x ∈ L ∨ x = leaf := by intro x; simp
  have hrest_nd : rest.Nodup := (List.nodup_cons.mp inv.snodup).2
  have hlf_rest : leaf ∉ rest := (List.nodup_cons.mp inv.snodup).1
  have hleaf_not_child : ∀ z y, y ∈ childrenOf par n z → y ≠ leaf := by
    intro z y hy he
    subst he
    have := ((mem_childrenOf par n z y).mp hy).2
    rw [hp] at this
    exact absurd this (by simp)
  obtain ⟨hnd', hrg', hord'⟩ := cd_pop_L par n children leaf rest L inv
  refine ⟨inv.hlen, hrest_nd, ?_, ?_, hnd', fun x hx => hrg' x hx, ?_, inv.csub, ?_, ?_, hord'⟩
  · intro x hx
    exact inv.srange x (List.mem_cons.mpr (Or.inr hx))
  · intro x hx hxL'
    rcases (hmemL' x).mp hxL' with h1 | h2
    · exact inv.snotpop x (List.mem_cons.mpr (Or.inr hx)) h1
    · subst h2
      exact hlf_rest hx
  · intro x hxn
    have hsubL : (∀ y ∈ childrenOf par n x, y ∈ L ++ [leaf]) ↔
        (∀ y ∈ childrenOf par n x, y ∈ L) := by
      constructor
      · intro h y hy
        rcases (hmemL' y).mp (h y hy) with h1 | h2
        · exact h1
        · exact absurd h2 (hleaf_not_child x y hy)
      · intro h y hy
        exact (hmemL' y).mpr (Or.inl (h y hy))
    rw [hsubL, ← inv.closure x hxn]
    constructor
    · rintro (hst | hL')
      · exact Or.inl (List.mem_cons.mpr (Or.inr hst))
      · rcases (hmemL' x).mp hL' with h1 | h2
        · exact Or.inr h1
        · subst h2
          exact Or.inl hlf_mem
    · rintro (hst | hL)
      · rcases List.mem_cons.mp hst with h1 | h2
        · subst h1
          exact Or.inr ((hmemL' x).mpr (Or.inr rfl))
        · exact Or.inl h2
      · exact Or.inr ((hmemL' x).mpr (Or.inl hL))
  · intro p hpn y hy hyL'
    refine inv.csup p hpn y hy ?_
    intro hyL
    exact hyL' ((hmemL' y).mpr (Or.inl hyL))
  · intro p hpn hex y hy
    obtain ⟨y0, hy0c, hy0L'⟩ := hex
    have hy0L : y0 ∉ L := fun h => hy0L' ((hmemL' y0).mpr (Or.inl h))
    have h1 : y ∉ L := inv.cfresh p hpn ⟨y0, hy0c, hy0L⟩ y hy
    have h2 : y ≠ leaf := hleaf_not_child p y (inv.csub p hpn y hy)
    intro hcon
    rcases (hmemL' y).mp hcon with hc1 | hc2
    · exact h1 hc1
    · exact h2 hc2

theorem cd_step_push (par : Nat → Option Nat) (n : Nat) (children : List (List Nat))
    (leaf : Nat) (rest L : List Nat) (q : Nat)
    (inv : CDInv par n children (leaf :: rest) L)
    (hp : par leaf = some q) (hq : q < n)
    (hoc : ∀ y ∈ children.getD q [], y = leaf) :
    CDInv par n children (q :: rest) (L ++ [leaf]) := by
  have hlf_mem : leaf ∈ leaf :: rest := List.mem_cons_self leaf rest
  have hlfn : leaf < n := inv.srange leaf hlf_mem
  have hlfL : leaf ∉ L := inv.snotpop leaf hlf_mem
  have hmemL' : ∀ x, x ∈ L ++ [leaf] ↔ x ∈ L ∨ x = leaf := by intro x; simp
  have hrest_nd : rest.Nodup := (List.nodup_cons.mp inv.snodup).2
  have hlf_rest : leaf ∉ rest := (List.nodup_cons.mp inv.snodup).1
  have hlf_child_q : leaf ∈ childrenOf par n q :=
    (mem_childrenOf par n q leaf).mpr ⟨hlfn, hp⟩
  have hchild_only_q : ∀ z y, y ∈ childrenOf par n z → y = leaf → z = q := by
    intro z y hy he
    subst he
    have h1 := ((mem_childrenOf par n z y).mp hy).2
    rw [hp] at h1
    exact (Option.some_inj.mp h1).symm
  have hCq_notL : ¬ (∀ y ∈ childrenOf par n q, y ∈ L) :=
    fun h => hlfL (h leaf hlf_child_q)
  have hq_notstack : q ∉ leaf :: rest :=
    fun h => hCq_notL ((inv.closure q hq).mp (Or.inl h))
  have hq_notL : q ∉ L :=
    fun h => hCq_notL ((inv.closure q hq).mp (Or.inr h))
  have hq_ne_leaf : q ≠ leaf := fun h => hq_notstack (h ▸ hlf_mem)
  have hCq_L' : ∀ y ∈ childrenOf par n q, y ∈ L ++ [leaf] := by
    intro y hy
    by_cases hyL : y ∈ L
    · exact (hmemL' y).mpr (Or.inl hyL)
    · exact (hmemL' y).mpr (Or.inr (hoc y (inv.csup q hq y hy hyL)))
  obtain ⟨hnd', hrg', hord'⟩ := cd_pop_L par n children leaf rest L inv
  refine ⟨inv.hlen, ?_, ?_, ?_, hnd', fun x hx => hrg' x hx, ?_, inv.csub, ?_, ?_, hord'⟩
  · exact List.nodup_cons.mpr
      ⟨fun h => hq_notstack (List.mem_cons.mpr (Or.inr h)), hrest_nd⟩
  · intro x hx
    rcases List.mem_cons.mp hx with h1 | h2
    · omega
    · exact inv.srange x (List.mem_cons.mpr (Or.inr h2))
  · intro x hx hxL'
    rcases (hmemL' x).mp hxL' with h1 | h2
    · rcases List.mem_cons.mp hx with hx1 | hx2
      · subst hx1; exact hq_notL h1
      · exact inv.snotpop x (List.mem_cons.mpr (Or.inr hx2)) h1
    · subst h2
      rcases List.mem_cons.mp hx with hx1 | hx2
      · exact hq_ne_leaf hx1.symm
      · exact hlf_rest hx2
  · intro x hxn
    by_cases hxq : x = q
    · subst hxq
      exact iff_of_true (Or.inl (List.mem_cons_self x rest)) hCq_L'
    · have hsubL : (∀ y ∈ childrenOf par n x, y ∈ L ++ [leaf]) ↔
          (∀ y ∈ childrenOf par n x, y ∈ L) := by
        constructor
        · intro h y hy
          rcases (hmemL' y).mp (h y hy) with h1 | h2
          · exact h1
          · exact absurd (hchild_only_q x y hy h2) hxq
        · intro h y hy
          exact (hmemL' y).mpr (Or.inl (h y hy))
      rw [hsubL, ← inv.closure x hxn]
      constructor
      · rintro (hst | hL')
        · rcases List.mem_cons.mp hst with h1 | h2
          · exact absurd h1 hxq
          · exact Or.inl (List.mem_cons.mpr (Or.inr h2))
        · rcases (hmemL' x).mp hL' with h1 | h2
          · exact Or.inr h1
          · subst h2
            exact Or.inl hlf_mem
      · rintro (hst | hL)
        · rcases List.mem_cons.mp hst with h1 | h2
          · subst h1
            exact Or.inr ((hmemL' x).mpr (Or.inr rfl))
          · exact Or.inl (List.mem_cons.mpr (Or.inr h2))
        · exact Or.inr ((hmemL' x).mpr (Or.inl hL))
  · intro p hpn y hy hyL'
    refine inv.csup p hpn y hy ?_
    intro hyL
    exact hyL' ((hmemL' y).mpr (Or.inl hyL))
  · intro p hpn hex y hy
    obtain ⟨y0, hy0c, hy0L'⟩ := hex
    by_cases hpq : p = q
    · subst hpq
      exact absurd (hCq_L' y0 hy0c) hy0L'
    · have hy0L : y0 ∉ L := fun h => hy0L' ((hmemL' y0).mpr (Or.inl h))
      have h1 : y ∉ L := inv.cfresh p hpn ⟨y0, hy0c, hy0L⟩ y hy
      have h2 : y ≠ leaf :=
        fun he => hpq (hchild_only_q p y (inv.csub p hpn y hy) he)
      intro hcon
      rcases (hmemL' y).mp hcon with hc1 | hc2
      · exact h1 hc1
      · exact h2 hc2

theorem cd_step_set (par : Nat → Option Nat) (n : Nat) (children : List (List Nat))
    (leaf : Nat) (rest L : List Nat) (q c0 : Nat) (ocr : List Nat)
    (inv : CDInv par n children (leaf :: rest) L)
    (hp : par leaf = some q) (hq : q < n)
    (hoc : (children.getD q []).filter (fun c => decide (c ≠ leaf)) = c0 :: ocr) :
    CDInv par n (modifyIdx (fun _ => c0 :: ocr) q children) rest (L ++ [leaf]) := by
  have hlf_mem : leaf ∈ leaf :: rest := List.mem_cons_self leaf rest
  have hlfn : leaf < n := inv.srange leaf hlf_mem
  have hlfL : leaf ∉ L := inv.snotpop leaf hlf_mem
  have hmemL' : ∀ x, x ∈ L ++ [leaf] ↔ x ∈ L ∨ x = leaf := by intro x; simp
  have hrest_nd : rest.Nodup := (List.nodup_cons.mp inv.snodup).2
  have hlf_rest : leaf ∉ rest := (List.nodup_cons.mp inv.snodup).1
  have hlf_child_q : leaf ∈ childrenOf par n q :=
    (mem_childrenOf par n q leaf).mpr ⟨hlfn, hp⟩
  have hchild_only_q : ∀ z y, y ∈ childrenOf par n z → y = leaf → z = q := by
    intro z y hy he
    subst he
    have h1 := ((mem_childrenOf par n z y).mp hy).2
    rw [hp] at h1
    exact (Option.some_inj.mp h1).symm
  have hfilter_mem : ∀ y, y ∈ c0 :: ocr → y ∈ children.getD q [] ∧ y ≠ leaf := by
    intro y hy
    rw [← hoc] at hy
    have h1 := List.mem_filter.mp hy
    exact ⟨h1.1, of_decide_eq_true h1.2⟩
  have hc0 := hfilter_mem c0 (List.mem_cons_self c0 ocr)
  have hc0_origC : c0 ∈ childrenOf par n q := inv.csub q hq c0 hc0.1
  have hfresh_q : ∀ y ∈ children.getD q [], y ∉ L :=
    inv.cfresh q hq ⟨leaf, hlf_child_q, hlfL⟩
  have hc0_L : c0 ∉ L := hfresh_q c0 hc0.1
  have hc0_L' : c0 ∉ L ++ [leaf] := by
    intro h
    rcases (hmemL' c0).mp h with h1 | h2
    · exact hc0_L h1
    · exact hc0.2 h2
  have hq_not : ¬(q ∈ leaf :: rest ∨ q ∈ L) := by
    intro h
    exact hc0_L ((inv.closure q hq).mp h c0 hc0_origC)
  have hlen' : q < children.length := by rw [inv.hlen]; exact hq
  have hgq : (modifyIdx (fun _ => c0 :: ocr) q children).getD q [] = c0 :: ocr := by
    rw [getD_modifyIdx_self (fun _ => c0 :: ocr) [] q children hlen']
  have hgp : ∀ p, p ≠ q →
      (modifyIdx (fun _ => c0 :: ocr) q children).getD p [] = children.getD p [] := by
    intro p hpq
    exact getD_modifyIdx_ne (fun _ => c0 :: ocr) [] q p children hpq
  obtain ⟨hnd', hrg', hord'⟩ := cd_pop_L par n children leaf rest L inv
  refine ⟨?_, hrest_nd, ?_, ?_, hnd', fun x hx => hrg' x hx, ?_, ?_, ?_, ?_, hord'⟩
  · rw [modifyIdx_length]; exact inv.hlen
  · intro x hx
    exact inv.srange x (List.mem_cons.mpr (Or.inr hx))
  · intro x hx hxL'
    rcases (hmemL' x).mp hxL' with h1 | h2
    · exact inv.snotpop x (List.mem_cons.mpr (Or.inr hx)) h1
    · subst h2
      exact hlf_rest hx
  · intro x hxn
    by_cases hxq : x = q
    · subst hxq
      refine iff_of_false ?_ ?_
      · rintro (h1 | h2)
        · exact hq_not (Or.inl (List.mem_cons.mpr (Or.inr h1)))
        · rcases (hmemL' x).mp h2 with h3 | h4
          · exact hq_not (Or.inr h3)
          · subst h4
            exact hq_not (Or.inl hlf_mem)
      · intro h
        exact hc0_L' (h c0 hc0_origC)
    · have hsubL : (∀ y ∈ childrenOf par n x, y ∈ L ++ [leaf]) ↔
          (∀ y ∈ childrenOf par n x, y ∈ L) := by
        constructor
        · intro h y hy
          rcases (hmemL' y).mp (h y hy) with h1 | h2
          · exact h1
          · exact absurd (hchild_only_q x y hy h2) hxq
        · intro h y hy
          exact (hmemL' y).mpr (Or.inl (h y hy))
      rw [hsubL, ← inv.closure x hxn]
      constructor
      · rintro (hst | hL')
        · exact Or.inl (List.mem_cons.mpr (Or.inr hst))
        · rcases (hmemL' x).mp hL' with h1 | h2
          · exact Or.inr h1
          · subst h2
            exact Or.inl hlf_mem
      · rintro (hst | hL)
        · rcases List.mem_cons.mp hst with h1 | h2
          · subst h1
            exact Or.inr ((hmemL' x).mpr (Or.inr rfl))
          · exact Or.inl h2
        · exact Or.inr ((hmemL' x).mpr (Or.inl hL))
  · intro p hpn y hy
    by_cases hpq : p = q
    · subst hpq
      rw [hgq] at hy
      exact inv.csub p hpn y (hfilter_mem y hy).1
    · rw [hgp p hpq] at hy
      exact inv.csub p hpn y hy
  · intro p hpn y hy hyL'
    have hyL : y ∉ L := fun h => hyL' ((hmemL' y).mpr (Or.inl h))
    have hyleaf : y ≠ leaf := fun h => hyL' ((hmemL' y).mpr (Or.inr h))
    by_cases hpq : p = q
    · subst hpq
      rw [hgq, ← hoc]
      exact List.mem_filter.mpr ⟨inv.csup p hpn y hy hyL, decide_eq_true hyleaf⟩
    · rw [hgp p hpq]
      exact inv.csup p hpn y hy hyL
  · intro p hpn hex y hy
    obtain ⟨y0, hy0c, hy0L'⟩ := hex
    have hy0L : y0 ∉ L := fun h => hy0L' ((hmemL' y0).mpr (Or.inl h))
    by_cases hpq : p = q
    · subst hpq
      rw [hgq] at hy
      have h1 := hfilter_mem y hy
      have h2 : y ∉ L := hfresh_q y h1.1
      intro hcon
      rcases (hmemL' y).mp hcon with hc1 | hc2
      · exact h2 hc1
      · exact h1.2 hc2
    · rw [hgp p hpq] at hy
      have h1 : y ∉ L := inv.cfresh p hpn ⟨y0, hy0c, hy0L⟩ y hy
      have h2 : y ≠ leaf :=
        fun he => hpq (hchild_only_q p y (inv.csub p hpn y hy) he)
      intro hcon
      rcases (hmemL' y).mp hcon with hc1 | hc2
      · exact h1 hc1
      · exact h2 hc2

/-- Running the detector loop from any invariant state with enough fuel
(and in-range parents) returns the visited count and final child table,
with the invariant holding at an empty stack. -/
theorem cd_run (par : Nat → Option Nat) (n : Nat)
    (hw : ∀ i, i < n → ∀ p, par i = some p → p < n) :
    ∀ (fuel : Nat) (children : List (List Nat)) (stack L : List Nat),
      CDInv par n children stack L → n - L.length < fuel →
      ∃ L2 ch2, cdLoop par n fuel children stack L.length = ROut.ok (L2.length, ch2) ∧
        CDInv par n ch2 [] L2 := by
  intro fuel
  induction fuel with
  | zero => intro children stack L _ hf; omega
  | succ fuel ih =>
    intro children stack L inv hf
    cases stack with
    | nil => exact ⟨L, children, rfl, inv⟩
    | cons leaf rest =>
      have hlf_mem : leaf ∈ leaf :: rest := List.mem_cons_self leaf rest
      have hlfn : leaf < n := inv.srange leaf hlf_mem
      have hlfL : leaf ∉ L := inv.snotpop leaf hlf_mem
      have hLn : L.length < n := by
        have h1 := nodup_bound (L ++ [leaf]) n
          (nodup_append_single L leaf inv.lnodup hlfL)
          (by
            intro x hx
            rcases List.mem_append.mp hx with h1 | h2
            · exact inv.lrange x h1
            · have : x = leaf := by simpa using h2
              omega)
        rw [List.length_append, List.length_singleton] at h1
        omega
      have hlen' : (L ++ [leaf]).length = L.length + 1 := by
        rw [List.length_append, List.length_singleton]
      cases hp : par leaf with
      | none =>
        have inv' := cd_step_root par n children leaf rest L inv hp
        obtain ⟨L2, ch2, hrun, hinv2⟩ := ih children rest (L ++ [leaf]) inv'
          (by rw [hlen']; omega)
        refine ⟨L2, ch2, ?_, hinv2⟩
        show cdLoop par n (fuel + 1) children (leaf :: rest) L.length = _
        simp only [cdLoop, hp]
        rw [show L.length + 1 = (L ++ [leaf]).length from hlen'.symm]
        exact hrun
      | some q =>
        have hq : q < n := hw leaf hlfn q hp
        cases hoc : (children.getD q []).filter (fun c => decide (c ≠ leaf)) with
        | nil =>
          have hall : ∀ y ∈ children.getD q [], y = leaf := by
            intro y hy
            by_contra hne
            have : y ∈ (children.getD q []).filter (fun c => decide (c ≠ leaf)) :=
              List.mem_filter.mpr ⟨hy, decide_eq_true hne⟩
            rw [hoc] at this
            exact absurd this (by simp)
          have inv' := cd_step_push par n children leaf rest L q inv hp hq hall
          obtain ⟨L2, ch2, hrun, hinv2⟩ := ih children (q :: rest) (L ++ [leaf]) inv'
            (by rw [hlen']; omega)
          refine ⟨L2, ch2, ?_, hinv2⟩
          show cdLoop par n (fuel + 1) children (leaf :: rest) L.length = _
          simp only [cdLoop, hp, hq, if_true]
          rw [hoc]
          rw [show L.length + 1 = (L ++ [leaf]).length from hlen'.symm]
          exact hrun
        | cons c0 ocr =>
          have inv' := cd_step_set par n children leaf rest L q c0 ocr inv hp hq hoc
          obtain ⟨L2, ch2, hrun, hinv2⟩ :=
            ih (modifyIdx (fun _ => c0 :: ocr) q children) rest (L ++ [leaf]) inv'
              (by rw [hlen']; omega)
          refine ⟨L2, ch2, ?_, hinv2⟩
          show cdLoop par n (fuel + 1) children (leaf :: rest) L.length = _
          simp only [cdLoop, hp, hq, if_true]
          rw [hoc]
          rw [show L.length + 1 = (L ++ [leaf]).length from hlen'.symm]
          exact hrun

/-- The initial state of the detector satisfies the invariant. -/
theorem cd_init (par : Nat → Option Nat) (n : Nat) :
    CDInv par n ((List.range n).map (fun i => childrenOf par n i))
      (((List.range n).filter (fun i => (childrenOf par n i).isEmpty)).reverse) [] := by
  have hstack : ∀ x, x ∈ ((List.range n).filter
      (fun i => (childrenOf par n i).isEmpty)).reverse ↔
      (x < n ∧ (childrenOf par n x).isEmpty = true) := by
    intro x
    rw [List.mem_reverse, List.mem_filter, List.mem_range]
  have hget : ∀ p, p < n →
      ((List.range n).map (fun i => childrenOf par n i)).getD p [] = childrenOf par n p :=
    fun p hp => getD_map_range [] (fun i => childrenOf par n i) n p hp
  refine ⟨by simp, ?_, ?_, ?_, List.nodup_nil, by simp, ?_, ?_, ?_, ?_, ?_⟩
  · rw [List.nodup_reverse]
    exact List.Nodup.filter _ (List.nodup_range n)
  · intro x hx
    exact ((hstack x).mp hx).1
  · intro x _
    simp
  · intro x hxn
    constructor
    · rintro (h1 | h2)
      · have := ((hstack x).mp h1).2
        rw [List.isEmpty_iff] at this
        intro y hy
        rw [this] at hy
        exact absurd hy (by simp)
      · exact absurd h2 (by simp)
    · intro h
      refine Or.inl ((hstack x).mpr ⟨hxn, ?_⟩)
      rw [List.isEmpty_iff]
      by_contra hne
      obtain ⟨y, hy⟩ := List.exists_mem_of_ne_nil _ hne
      exact absurd (h y hy) (by simp)
  · intro p hpn y hy
    rw [hget p hpn] at hy
    exact hy
  · intro p hpn y hy _
    rw [hget p hpn]
    exact hy
  · intro p _ _ y _
    simp
  · intro j hj
    simp at hj

/-- Soundness: when the parent relation has a cycle, the detector's
visited set misses at least one node. -/
theorem cd_sound (par : Nat → Option Nat) (n : Nat)
    (hw : ∀ i, i < n → ∀ p, par i = some p → p < n)
    (hc : cyclicB par n = true) (ch : List (List Nat)) (L : List Nat)
    (inv : CDInv par n ch [] L) : L.length < n := by
  obtain ⟨x, hxn, k, hk1, hkn, hcyc⟩ := cyclicB_elim par n hc
  have claim : ∀ j, j < L.length → ∀ m, m < k →
      iterP par m x ≠ some (L.getD j 0) := by
    intro j
    induction j using Nat.strong_induction_on with
    | _ j ihj =>
      intro hj m hm heq
      -- produce a cycle predecessor z of y := L.getD j 0
      have hz : ∃ z m2, m2 < k ∧ iterP par m2 x = some z ∧
          par z = some (L.getD j 0) := by
        cases m with
        | zero =>
          have hx_eq : x = L.getD j 0 := by simpa [iterP] using heq
          obtain ⟨z, hz1⟩ := iterP_some_mono par (k - 1) k x x (by omega) hcyc
          refine ⟨z, k - 1, by omega, hz1, ?_⟩
          have h2 : iterP par ((k - 1) + 1) x = some x := by
            rw [show k - 1 + 1 = k from by omega]
            exact hcyc
          rw [iterP_succ_back, hz1] at h2
          rw [← hx_eq]
          exact h2
        | succ m2 =>
          rw [iterP_succ_back] at heq
          cases hz1 : iterP par m2 x with
          | none => rw [hz1] at heq; exact absurd heq (by simp)
          | some z =>
            rw [hz1] at heq
            exact ⟨z, m2, by omega, hz1, heq⟩
      obtain ⟨z, m2, hm2, hz1, hz2⟩ := hz
      have hzn : z < n := iterP_lt par n hw m2 x z hxn hz1
      have hz_child : z ∈ childrenOf par n (L.getD j 0) :=
        (mem_childrenOf par n (L.getD j 0) z).mpr ⟨hzn, hz2⟩
      have hz_take : z ∈ L.take j := inv.ordered j hj z hz_child
      obtain ⟨i, hi1, hi2, hi3⟩ := mem_take_getD L j z hz_take
      exact ihj i hi1 hi2 m2 hm2 (by rw [hz1, hi3])
  have hx_notL : x ∉ L := by
    intro hxL
    obtain ⟨j, hj, hget⟩ := mem_getD L x hxL
    exact claim j hj 0 (by omega) (by rw [hget]; rfl)
  have h1 := nodup_bound (L ++ [x]) n
    (nodup_append_single L x inv.lnodup hx_notL)
    (by
      intro y hy
      rcases List.mem_append.mp hy with h1 | h2
      · exact inv.lrange y h1
      · have : y = x := by simpa using h2
        omega)
  rw [List.length_append, List.length_singleton] at h1
  omega

/-- Completeness: when the parent relation is acyclic (and in range),
the detector visits every node. -/
theorem cd_complete (par : Nat → Option Nat) (n : Nat)
    (hnc : cyclicB par n = false) (ch : List (List Nat)) (L : List Nat)
    (inv : CDInv par n ch [] L) : L.length = n := by
  have hall : ∀ x, x < n → x ∈ L := by
    by_contra hcon
    push_neg at hcon
    obtain ⟨x0, hx0n, hx0L⟩ := hcon
    have step : ∀ t : {y : Nat // y < n ∧ y ∉ L},
        ∃ z : {y : Nat // y < n ∧ y ∉ L}, par z.val = some t.val := by
      rintro ⟨t, htn, htL⟩
      have h1 : ¬ (∀ y ∈ childrenOf par n t, y ∈ L) := by
        intro h
        rcases (inv.closure t htn).mpr h with h3 | h4
        · exact absurd h3 (by simp)
        · exact htL h4
      push_neg at h1
      obtain ⟨y, hy1, hy2⟩ := h1
      have hy3 := (mem_childrenOf par n t y).mp hy1
      exact ⟨⟨y, hy3.1, hy2⟩, hy3.2⟩
    classical
    let F : {y : Nat // y < n ∧ y ∉ L} → {y : Nat // y < n ∧ y ∉ L} :=
      fun t => (step t).choose
    have hF : ∀ t, par (F t).val = some t.val := fun t => (step t).choose_spec
    let g : Nat → {y : Nat // y < n ∧ y ∉ L} :=
      fun j => Nat.rec ⟨x0, hx0n, hx0L⟩ (fun _ s => F s) j
    have hg : ∀ j, g (j + 1) = F (g j) := fun j => rfl
    have key : ∀ m j, iterP par m (g (j + m)).val = some (g j).val := by
      intro m
      induction m with
      | zero => intro j; rfl
      | succ m ihm =>
        intro j
        have h2 : par (g (j + (m + 1))).val = some (g (j + m)).val := by
          rw [show j + (m + 1) = (j + m) + 1 from by omega, hg (j + m)]
          exact hF (g (j + m))
        show iterP par (m + 1) (g (j + (m + 1))).val = some (g j).val
        rw [iterP, h2]
        exact ihm j
    have main : ∀ a b, a < b → b ≤ n → (g a).val = (g b).val → False := by
      intro a b hab hbn hv
      have h := key (b - a) a
      rw [show a + (b - a) = b from by omega] at h
      rw [hv] at h
      have := cyclicB_intro par n (g b).val (b - a) (g b).2.1 (by omega) (by omega) h
      rw [hnc] at this
      exact absurd this (by simp)
    have hmap : ∀ j ∈ Finset.range (n + 1), (g j).val ∈ Finset.range n :=
      fun j _ => Finset.mem_range.mpr (g j).2.1
    obtain ⟨a, ha, b, hb, hab, heq⟩ :=
      Finset.exists_ne_map_eq_of_card_lt_of_maps_to
        (by rw [Finset.card_range, Finset.card_range]; omega) hmap
    rcases Nat.lt_trichotomy a b with h1 | h2 | h3
    · exact main a b h1 (by have := Finset.mem_range.mp hb; omega) heq
    · exact hab h2
    · exact main b a h3 (by have := Finset.mem_range.mp ha; omega) heq.symm
  have hsub : L.toFinset ⊆ Finset.range n := by
    intro y hy
    exact Finset.mem_range.mpr (inv.lrange y (List.mem_toFinset.mp hy))
  have hsup : Finset.range n ⊆ L.toFinset := by
    intro y hy
    exact List.mem_toFinset.mpr (hall y (Finset.mem_range.mp hy))
  have heq : L.toFinset = Finset.range n := Finset.Subset.antisymm hsub hsup
  have hcard := congrArg Finset.card heq
  rwa [List.toFinset_card_of_nodup inv.lnodup, Finset.card_range] at hcard

/-- Acyclicity (with in-range parents) lets every node reach a root. -/
theorem iterP_reach_none (par : Nat → Option Nat) (n : Nat)
    (hw : ∀ i, i < n → ∀ p, par i = some p → p < n)
    (hnc : cyclicB par n = false) (x : Nat) (hx : x < n) :
    ∃ k, k ≤ n ∧ iterP par k x = none := by
  by_contra hcon
  push_neg at hcon
  have hsome : ∀ k, k ≤ n → ∃ v, iterP par k x = some v := by
    intro k hk
    cases h : iterP par k x with
    | none => exact absurd h (hcon k hk)
    | some v => exact ⟨v, rfl⟩
  have hval : ∀ k, k ≤ n → iterP par k x = some ((iterP par k x).getD 0) := by
    intro k hk
    obtain ⟨v, hv⟩ := hsome k hk
    rw [hv]
    rfl
  have hlt : ∀ k, k ≤ n → (iterP par k x).getD 0 < n := by
    intro k hk
    exact iterP_lt par n hw k x _ hx (hval k hk)
  have main : ∀ a b, a < b → b ≤ n →
      (iterP par a x).getD 0 = (iterP par b x).getD 0 → False := by
    intro a b hab hbn hv
    have h1 : iterP par b x = (iterP par a x).bind (iterP par (b - a)) := by
      rw [← iterP_add, show a + (b - a) = b from by omega]
    rw [hval a (by omega)] at h1
    have h1' : iterP par b x = iterP par (b - a) ((iterP par a x).getD 0) := by
      rw [h1]
      rfl
    have h2 : iterP par (b - a) ((iterP par a x).getD 0) = some ((iterP par b x).getD 0) := by
      rw [← h1']
      exact hval b hbn
    rw [← hv] at h2
    have := cyclicB_intro par n ((iterP par a x).getD 0) (b - a)
      (hlt a (by omega)) (by omega) (by omega) h2
    rw [hnc] at this
    exact absurd this (by simp)
  have hmap : ∀ j ∈ Finset.range (n + 1), (iterP par j x).getD 0 ∈ Finset.range n :=
    fun j hj => Finset.mem_range.mpr (hlt j (by have := Finset.mem_range.mp hj; omega))
  obtain ⟨a, ha, b, hb, hab, heq⟩ :=
    Finset.exists_ne_map_eq_of_card_lt_of_maps_to
      (by rw [Finset.card_range, Finset.card_range]; omega) hmap
  rcases Nat.lt_trichotomy a b with h1 | h2 | h3
  · exact main a b h1 (by have := Finset.mem_range.mp hb; omega) heq
  · exact hab h2
  · exact main b a h3 (by have := Finset.mem_range.mp ha; omega) heq.symm

/-- The enter-chain initialisation succeeds whenever the parent walk
from the start reaches a root within the fuel. -/
theorem buildChain_some (par : Nat → Option Nat) :
    ∀ (f x k : Nat), iterP par (k + 1) x = none → k < f →
      ∃ l, buildChain par f x = some l := by
  intro f
  induction f with
  | zero => intro x k _ hk; omega
  | succ f ih =>
    intro x k h hk
    cases hp : par x with
    | none => exact ⟨[x], by simp [buildChain, hp]⟩
    | some p =>
      have h' : iterP par k p = none := by rw [iterP, hp] at h; exact h
      cases k with
      | zero => rw [iterP] at h'; exact absurd h' (by simp)
      | succ k2 =>
        obtain ⟨l, hl⟩ := ih p k2 h' (by omega)
        exact ⟨x :: l, by simp [buildChain, hp, hl]⟩

/-- The full cycle-detector run of `build`: with in-range parents it
returns a visited count that equals the number of states exactly when
the parent relation is acyclic. -/
theorem cd_full (par : Nat → Option Nat) (n : Nat) (hw : wfParB par n = true) :
    ∃ v ch, cdLoop par n (n + 1) ((List.range n).map (fun i => childrenOf par n i))
      (((List.range n).filter (fun i => (childrenOf par n i).isEmpty)).reverse) 0
      = ROut.ok (v, ch) ∧ (v = n ↔ cyclicB par n = false) := by
  have hw' := wfParB_elim par n hw
  obtain ⟨L2, ch2, hrun, hinv⟩ :=
    cd_run par n hw' (n + 1) ((List.range n).map (fun i => childrenOf par n i))
      (((List.range n).filter (fun i => (childrenOf par n i).isEmpty)).reverse) []
      (cd_init par n) (by simp)
  refine ⟨L2.length, ch2, by simpa using hrun, ?_, ?_⟩
  · intro hv
    cases hb : cyclicB par n with
    | false => rfl
    | true =>
      have := cd_sound par n hw' hb ch2 L2 hinv
      omega
  · intro hnc
    exact cd_complete par n hnc ch2 L2 hinv

/-- C4: with every declared parent in range, `build` fails with the
recoverable CycleDetected error exactly when the declared parent
relation contains a cycle.  The leaf-pruning detector returns a visited
count that equals the number of declared states iff the relation is
acyclic (the flagging condition of `build`); when a cycle exists,
`build` returns `cycleError`; and for every acyclic topology with a
valid initial state (in range and a leaf) `build` succeeds. -/
theorem C4_cycle_detection (sm0 : σ) (decls : List (StateDecl σ P)) (init : Nat)
    (hw : wfParB (parOf decls) decls.length = true) :
    (∃ v ch, cdLoop (parOf decls) decls.length (decls.length + 1)
        ((List.range decls.length).map (fun i => childrenOf (parOf decls) decls.length i))
        (((List.range decls.length).filter
            (fun i => (childrenOf (parOf decls) decls.length i).isEmpty)).reverse) 0
        = ROut.ok (v, ch) ∧
        (v = decls.length ↔ cyclicB (parOf decls) decls.length = false)) ∧
    (cyclicB (parOf decls) decls.length = true →
      buildExec sm0 decls init = BOut.cycleError) ∧
    (cyclicB (parOf decls) decls.length = false → init < decls.length →
      (childrenOf (parOf decls) decls.length init).isEmpty = true →
      (buildExec sm0 decls init).isOk = true) := by
  obtain ⟨v, ch, hrun, hiff⟩ := cd_full (parOf decls) decls.length hw
  refine ⟨⟨v, ch, hrun, hiff⟩, ?_, ?_⟩
  · intro hcyc
    have hvne : v ≠ decls.length := by
      intro he
      have h1 := hiff.mp he
      rw [hcyc] at h1
      exact absurd h1 (by simp)
    unfold buildExec
    dsimp only
    rw [hrun]
    dsimp only
    rw [if_pos hvne]
  · intro hnc hinit hleaf
    have hv : v = decls.length := hiff.mpr hnc
    obtain ⟨k, hk, hnone⟩ := iterP_reach_none (parOf decls) decls.length
      (wfParB_elim (parOf decls) decls.length hw) hnc init hinit
    have hk1 : 1 ≤ k := by
      by_contra hcon
      have hk0 : k = 0 := by omega
      rw [hk0] at hnone
      exact absurd hnone (by simp [iterP])
    obtain ⟨chain, hchain⟩ := buildChain_some (parOf decls) decls.length init (k - 1)
      (by rw [show k - 1 + 1 = k from by omega]; exact hnone) (by omega)
    have htset : ((List.range decls.length).map
        (fun i => (childrenOf (parOf decls) decls.length i).isEmpty)).getD init false
        = true := by
      rw [getD_map_range false (fun i => (childrenOf (parOf decls) decls.length i).isEmpty)
        decls.length init hinit]
      exact hleaf
    unfold buildExec
    dsimp only
    rw [hrun]
    dsimp only
    rw [if_neg (by omega)]
    rw [if_neg (not_or.mpr ⟨by omega, by rw [htset]; simp⟩)]
    rw [hchain]
    rfl

/-- C4, witness: the self-loop topology `declsLoop` is flagged by the
detector and `build` returns the cycle error, while the acyclic
single-state topology `declsOneNoEnter` builds successfully. -/
theorem C4_witness :
    wfParB (parOf declsLoop) declsLoop.length = true ∧
    cyclicB (parOf declsLoop) declsLoop.length = true ∧
    buildExec () declsLoop 0 = BOut.cycleError ∧
    cyclicB (parOf declsOneNoEnter) declsOneNoEnter.length = false ∧
    (buildExec () declsOneNoEnter 0).isOk = true :=
  ⟨rfl, rfl, (C4_cycle_detection () declsLoop 0 rfl).2.1 rfl, rfl,
    (C4_cycle_detection () declsOneNoEnter 0 rfl).2.2 rfl (by decide) rfl⟩

/- ============ build inversion and reachable-machine invariants ============ -/

theorem getD_map_gen (f : α → β) (d : α) (l : List α) :
    ∀ (i : Nat), (l.map f).getD i (f d) = f (l.getD i d) := by
  induction l with
  | nil => intro i; cases i <;> rfl
  | cons a l ih =>
    intro i
    cases i with
    | zero => rfl
    | succ i => simpa using ih i

theorem stAt_map_range (f : Nat → StateInfo σ P) (n i : Nat) :
    stAt ((List.range n).map f) i = if i < n then f i else StateInfo.dflt := by
  by_cases h : i < n
  · rw [if_pos h]
    exact getD_map_range StateInfo.dflt f n i h
  · rw [if_neg h]
    exact stAt_oob _ i (by simp; omega)

theorem stAt_toInfo (decls : List (StateDecl σ P)) (i : Nat) :
    stAt (decls.map StateDecl.toInfo) i = (decls.getD i StateDecl.dflt).toInfo :=
  getD_map_gen StateDecl.toInfo StateDecl.dflt decls i

/-- A detector run that returned `ok` preserves the invariant and pops
only nodes whose declared parent is in range (the out-of-range read
would have panicked). -/
theorem cd_run_ok (par : Nat → Option Nat) (n : Nat) :
    ∀ (fuel : Nat) (children : List (List Nat)) (stack L : List Nat)
      (v : Nat) (ch : List (List Nat)),
      CDInv par n children stack L →
      (∀ x ∈ L, ∀ p, par x = some p → p < n) →
      cdLoop par n fuel children stack L.length = ROut.ok (v, ch) →
      ∃ L2, v = L2.length ∧ CDInv par n ch [] L2 ∧
        (∀ x ∈ L2, ∀ p, par x = some p → p < n) := by
  intro fuel
  induction fuel with
  | zero =>
    intro children stack L v ch _ _ h
    exact absurd h (by simp [cdLoop])
  | succ fuel ih =>
    intro children stack L v ch inv hwp h
    cases stack with
    | nil =>
      have h' : ROut.ok (L.length, children) = ROut.ok (v, ch) := h
      have h1 : (L.length, children) = (v, ch) := by injection h'
      have hv : L.length = v := congrArg Prod.fst h1
      have hc : children = ch := congrArg Prod.snd h1
      subst hv
      subst hc
      exact ⟨L, rfl, inv, hwp⟩
    | cons leaf rest =>
      have hlf_mem : leaf ∈ leaf :: rest := List.mem_cons_self leaf rest
      have hlfn : leaf < n := inv.srange leaf hlf_mem
      have hlen' : (L ++ [leaf]).length = L.length + 1 := by
        rw [List.length_append, List.length_singleton]
      cases hp : par leaf with
      | none =>
        have h2 : cdLoop par n fuel children rest (L ++ [leaf]).length = ROut.ok (v, ch) := by
          rw [hlen']
          have h' := h
          simp only [cdLoop, hp] at h'
          exact h'
        have hwp' : ∀ x ∈ L ++ [leaf], ∀ p, par x = some p → p < n := by
          intro x hx p hpx
          rcases List.mem_append.mp hx with h1 | h1
          · exact hwp x h1 p hpx
          · have hxl : x = leaf := by simpa using h1
            subst hxl
            rw [hp] at hpx
            exact absurd hpx (by simp)
        exact ih children rest (L ++ [leaf]) v ch
          (cd_step_root par n children leaf rest L inv hp) hwp' h2
      | some q =>
        by_cases hq : q < n
        · have hwp' : ∀ x ∈ L ++ [leaf], ∀ p, par x = some p → p < n := by
            intro x hx p hpx
            rcases List.mem_append.mp hx with h1 | h1
            · exact hwp x h1 p hpx
            · have hxl : x = leaf := by simpa using h1
              subst hxl
              rw [hp] at hpx
              have hqp : q = p := by injection hpx
              omega
          cases hoc : (children.getD q []).filter (fun c => decide (c ≠ leaf)) with
          | nil =>
            have hall : ∀ y ∈ children.getD q [], y = leaf := by
              intro y hy
              by_contra hne
              have hmem : y ∈ (children.getD q []).filter (fun c => decide (c ≠ leaf)) :=
                List.mem_filter.mpr ⟨hy, decide_eq_true hne⟩
              rw [hoc] at hmem
              exact absurd hmem (by simp)
            have h2 : cdLoop par n fuel children (q :: rest) (L ++ [leaf]).length
                = ROut.ok (v, ch) := by
              rw [hlen']
              have h' := h
              simp only [cdLoop, hp, hq, if_true] at h'
              rw [hoc] at h'
              exact h'
            exact ih children (q :: rest) (L ++ [leaf]) v ch
              (cd_step_push par n children leaf rest L q inv hp hq hall) hwp' h2
          | cons c0 ocr =>
            have h2 : cdLoop par n fuel (modifyIdx (fun _ => c0 :: ocr) q children) rest
                (L ++ [leaf]).length = ROut.ok (v, ch) := by
              rw [hlen']
              have h' := h
              simp only [cdLoop, hp, hq, if_true] at h'
              rw [hoc] at h'
              exact h'
            exact ih (modifyIdx (fun _ => c0 :: ocr) q children) rest (L ++ [leaf]) v ch
              (cd_step_set par n children leaf rest L q c0 ocr inv hp hq hoc) hwp' h2
        · have h' := h
          simp only [cdLoop, hp, hq, if_false] at h'
          exact absurd h' (by simp)

/-- A detector run of `build` that visited all states certifies the
parent relation: every parent is in range and there is no cycle. -/
theorem cdLoop_ok_wf (par : Nat → Option Nat) (n v : Nat) (ch : List (List Nat))
    (hrun : cdLoop par n (n + 1) ((List.range n).map (fun i => childrenOf par n i))
      (((List.range n).filter (fun i => (childrenOf par n i).isEmpty)).reverse) 0
      = ROut.ok (v, ch)) (hv : v = n) :
    wfParB par n = true ∧ cyclicB par n = false := by
  obtain ⟨L2, hvL, hinv, hwpop⟩ :=
    cd_run_ok par n (n + 1) ((List.range n).map (fun i => childrenOf par n i))
      (((List.range n).filter (fun i => (childrenOf par n i).isEmpty)).reverse) []
      v ch (cd_init par n) (by intro x hx; exact absurd hx (by simp))
      (by simpa using hrun)
  have hall : ∀ x, x < n → x ∈ L2 := by
    have hsub : L2.toFinset ⊆ Finset.range n := by
      intro y hy
      exact Finset.mem_range.mpr (hinv.lrange y (List.mem_toFinset.mp hy))
    have hcard : (Finset.range n).card ≤ L2.toFinset.card := by
      rw [Finset.card_range, List.toFinset_card_of_nodup hinv.lnodup]
      omega
    have heq := Finset.eq_of_subset_of_card_le hsub hcard
    intro x hx
    exact List.mem_toFinset.mp (heq ▸ Finset.mem_range.mpr hx)
  have hwf : wfParB par n = true := by
    rw [wfParB, List.all_eq_true]
    intro i hi
    cases hp : par i with
    | none => rfl
    | some p =>
      exact decide_eq_true (hwpop i (hall i (List.mem_range.mp hi)) p hp)
  refine ⟨hwf, ?_⟩
  cases hb : cyclicB par n with
  | false => rfl
  | true =>
    have := cd_sound par n (wfParB_elim par n hwf) hb ch L2 hinv
    omega

/-- Inversion of a successful `build`: the detector visited everything
(so parents are in range and acyclic), the initial state is a valid
leaf, and the fresh machine starts at it with clean flags and counters. -/
theorem buildExec_ok_inv (sm0 : σ) (decls : List (StateDecl σ P)) (init : Nat)
    (e : Executor σ P) (h : buildExec sm0 decls init = BOut.ok e) :
    wfParB (parOf decls) decls.length = true ∧
    cyclicB (parOf decls) decls.length = false ∧
    e.states.length = decls.length ∧
    (∀ i, (stAt e.states i).parent = parOf decls i) ∧
    e.idx_current_state = init ∧ init < decls.length ∧
    e.idxs_exit_fns = [] ∧ e.current_state_changed = true ∧
    e.idx_transition_dest = none ∧
    (∀ i, (stAt e.states i).enter = (decls.getD i StateDecl.dflt).enter) ∧
    (∀ i, (stAt e.states i).active = false) ∧
    (∀ i, (stAt e.states i).enter_cnt = 0) := by
  unfold buildExec at h
  dsimp only at h
  cases hrun : cdLoop (parOf decls) decls.length (decls.length + 1)
      ((List.range decls.length).map (fun i => childrenOf (parOf decls) decls.length i))
      (((List.range decls.length).filter
        (fun i => (childrenOf (parOf decls) decls.length i).isEmpty)).reverse) 0 with
  | fuelOut => rw [hrun] at h; exact absurd h (by simp)
  | panicked => rw [hrun] at h; exact absurd h (by simp)
  | ok vc =>
    obtain ⟨v, ch⟩ := vc
    rw [hrun] at h
    dsimp only at h
    by_cases hv : v ≠ decls.length
    · rw [if_pos hv] at h
      exact absurd h (by simp)
    · rw [if_neg hv] at h
      have hveq : v = decls.length := not_ne_iff.mp hv
      by_cases hbad : init ≥ decls.length ∨
          ((List.range decls.length).map
            (fun i => (childrenOf (parOf decls) decls.length i).isEmpty)).getD init false
            = false
      · rw [if_pos hbad] at h
        exact absurd h (by simp)
      · rw [if_neg hbad] at h
        push_neg at hbad
        obtain ⟨hinit, _⟩ := hbad
        have hinit' : init < decls.length := by omega
        cases hchain : buildChain (parOf decls) decls.length init with
        | none => rw [hchain] at h; exact absurd h (by simp)
        | some chain =>
          rw [hchain] at h
          dsimp only at h
          injection h with he
          obtain ⟨hwf, hnc⟩ := cdLoop_ok_wf (parOf decls) decls.length v ch hrun hveq
          subst he
          refine ⟨hwf, hnc, by simp, ?_, rfl, hinit', rfl, rfl, rfl, ?_, ?_, ?_⟩
          · intro i
            by_cases hi : i < decls.length
            · rw [stAt_map_range, if_pos hi]
              show (stAt (decls.map StateDecl.toInfo) i).parent = parOf decls i
              rw [stAt_toInfo]
              rfl
            · rw [stAt_map_range, if_neg hi]
              show (none : Option Nat) = parOf decls i
              unfold parOf
              rw [List.getD_eq_default _ _ (by omega)]
              rfl
          · intro i
            by_cases hi : i < decls.length
            · rw [stAt_map_range, if_pos hi]
              show (stAt (decls.map StateDecl.toInfo) i).enter
                = (decls.getD i StateDecl.dflt).enter
              rw [stAt_toInfo]
              rfl
            · rw [stAt_map_range, if_neg hi]
              show (none : Option (σ → P → σ)) = (decls.getD i StateDecl.dflt).enter
              rw [List.getD_eq_default _ _ (by omega)]
              rfl
          · intro i
            by_cases hi : i < decls.length
            · rw [stAt_map_range, if_pos hi]
              show (stAt (decls.map StateDecl.toInfo) i).active = false
              rw [stAt_toInfo]
              rfl
            · rw [stAt_map_range, if_neg hi]
              rfl
          · intro i
            by_cases hi : i < decls.length
            · rw [stAt_map_range, if_pos hi]
              show (stAt (decls.map StateDecl.toInfo) i).enter_cnt = 0
              rw [stAt_toInfo]
              rfl
            · rw [stAt_map_range, if_neg hi]
              rfl

theorem parF_procStep (msg : P) (idx : Nat) (p : List (StateInfo σ P) × σ) :
    parF ((procStep msg idx p).1.1) = parF p.1 := by
  funext j
  show (stAt (procStep msg idx p).1.1 j).parent = (stAt p.1 j).parent
  have h1 : (procStep msg idx p).1.1
      = modifyIdx (fun s => { s with process_cnt := s.process_cnt + 1 }) idx p.1 := rfl
  rw [h1]
  exact congrArg (fun t => t.2.1) (skelP_procInc idx j p.1)

/-- The bubbling pass returns within fuel bounded by the length of the
terminating parent chain of the dispatched state. -/
theorem bubble_some (msg : P) :
    ∀ (fuel k idx : Nat) (p : List (StateInfo σ P) × σ),
      iterP (parF p.1) (k + 1) idx = none → k < fuel →
      ∃ qd, bubble msg fuel idx p = some qd := by
  intro fuel
  induction fuel with
  | zero => intro k idx p _ hk; omega
  | succ fuel ih =>
    intro k idx p hit hk
    rw [bubble]
    rcases hpr : procStep msg idx p with ⟨q1, hd, dst⟩
    dsimp only
    cases hd with
    | yes => exact ⟨_, rfl⟩
    | no =>
      cases hpar : (stAt p.1 idx).parent with
      | none => exact ⟨_, rfl⟩
      | some q =>
        dsimp only
        have hq1 : parF q1.1 = parF p.1 := by
          have hq : q1.1 = (procStep msg idx p).1.1 := by rw [hpr]
          rw [hq, parF_procStep]
        have hpar' : parF p.1 idx = some q := hpar
        have hstep : iterP (parF p.1) k q = none := by
          simp only [iterP] at hit
          rw [hpar'] at hit
          exact hit
        cases k with
        | zero => exact absurd hstep (by simp [iterP])
        | succ k2 =>
          have hit' : iterP (parF q1.1) (k2 + 1) q = none := by
            rw [hq1]
            exact hstep
          obtain ⟨qd2, hqd2⟩ := ih k2 q q1 hit' (by omega)
          rw [hqd2]
          exact ⟨_, rfl⟩

/-- The planner enter walk terminates along a terminating parent chain. -/
theorem setupEnterWalk_some (sts : List (StateInfo σ P)) :
    ∀ (fuel k x : Nat), iterP (parF sts) (k + 1) x = none → k < fuel →
      ∃ pr, setupEnterWalk sts fuel x = some pr := by
  intro fuel
  induction fuel with
  | zero => intro k x _ hk; omega
  | succ fuel ih =>
    intro k x hit hk
    cases hpar : (stAt sts x).parent with
    | none =>
      refine ⟨([x], none), ?_⟩
      rw [setupEnterWalk, hpar]
    | some q =>
      have hpar' : parF sts x = some q := hpar
      have hstep : iterP (parF sts) k q = none := by
        simp only [iterP] at hit
        rw [hpar'] at hit
        exact hit
      cases hact : (stAt sts q).active with
      | true =>
        refine ⟨([x], some q), ?_⟩
        rw [setupEnterWalk, hpar]
        dsimp only
        rw [if_pos hact]
      | false =>
        cases k with
        | zero => exact absurd hstep (by simp [iterP])
        | succ k2 =>
          obtain ⟨pr, hpr⟩ := ih k2 q hstep (by omega)
          refine ⟨(x :: pr.1, pr.2), ?_⟩
          rw [setupEnterWalk, hpar]
          dsimp only
          rw [if_neg (by rw [hact]; exact Bool.false_ne_true), hpr]

/-- The planner exit walk terminates along a terminating parent chain. -/
theorem setupExitWalk_some (sts : List (StateInfo σ P)) (sent : Option Nat) :
    ∀ (fuel k x : Nat), iterP (parF sts) (k + 1) x = none → k < fuel →
      ∃ l, setupExitWalk sts sent fuel x = some l := by
  intro fuel
  induction fuel with
  | zero => intro k x _ hk; omega
  | succ fuel ih =>
    intro k x hit hk
    cases hpar : (stAt sts x).parent with
    | none =>
      refine ⟨[], ?_⟩
      rw [setupExitWalk, hpar]
    | some q =>
      have hpar' : parF sts x = some q := hpar
      have hstep : iterP (parF sts) k q = none := by
        simp only [iterP] at hit
        rw [hpar'] at hit
        exact hit
      by_cases hs : sent = some q
      · refine ⟨[], ?_⟩
        rw [setupExitWalk, hpar]
        dsimp only
        rw [if_pos hs]
      · cases k with
        | zero => exact absurd hstep (by simp [iterP])
        | succ k2 =>
          obtain ⟨l, hl⟩ := ih k2 q hstep (by omega)
          refine ⟨q :: l, ?_⟩
          rw [setupExitWalk, hpar]
          dsimp only
          rw [if_neg hs, hl]

/-- The path-planner wrapper succeeds when every in-range state has a
terminating parent chain. -/
theorem setup_some (t : Nat) (e : Executor σ P)
    (hall : ∀ x, x < e.states.length →
      ∃ m, m ≤ e.states.length ∧ iterP (parF e.states) m x = none)
    (ht : t < e.states.length) (hcur : e.idx_current_state < e.states.length) :
    ∃ e2, setup_exit_enter_fns_idxs t e = some e2 := by
  obtain ⟨m1, hm1, hn1⟩ := hall t ht
  have hm11 : 1 ≤ m1 := by
    by_contra hcon
    have hz : m1 = 0 := by omega
    rw [hz] at hn1
    exact absurd hn1 (by simp [iterP])
  obtain ⟨pr, hpr⟩ := setupEnterWalk_some e.states e.states.length (m1 - 1) t
    (by rw [show m1 - 1 + 1 = m1 from by omega]; exact hn1) (by omega)
  obtain ⟨m2, hm2, hn2⟩ := hall e.idx_current_state hcur
  have hm21 : 1 ≤ m2 := by
    by_contra hcon
    have hz : m2 = 0 := by omega
    rw [hz] at hn2
    exact absurd hn2 (by simp [iterP])
  obtain ⟨l, hl⟩ := setupExitWalk_some e.states pr.2 e.states.length (m2 - 1)
    e.idx_current_state
    (by rw [show m2 - 1 + 1 = m2 from by omega]; exact hn2) (by omega)
  unfold setup_exit_enter_fns_idxs
  rw [show setupEnterWalk e.states e.states.length t = some (pr.1, pr.2) from hpr]
  dsimp only
  rw [hl]
  exact ⟨_, rfl⟩

/-- `dispatchFinish` cannot run out of fuel when parent chains
terminate: its only fuel consumers are the two planner walks. -/
theorem dispatchFinish_not_fuelOut (msg : P) (e : Executor σ P)
    (hall : ∀ x, x < e.states.length →
      ∃ m, m ≤ e.states.length ∧ iterP (parF e.states) m x = none)
    (hcur : e.idx_current_state < e.states.length) :
    dispatchFinish msg e ≠ ROut.fuelOut := by
  unfold dispatchFinish
  cases hd : e.idx_transition_dest with
  | none =>
    dsimp only
    split <;> simp
  | some t =>
    dsimp only
    by_cases hv : t < e.states.length ∧ e.transition_targets_set.getD t false = true
    · rw [if_pos hv]
      obtain ⟨e2, hs⟩ := setup_some t { e with idx_transition_dest := none } hall hv.1 hcur
      rw [hs]
      dsimp only
      split <;> simp
    · rw [if_neg hv]
      simp

/-- Frame facts of a successful `dispatchFinish`: the states vector
keeps its length, an inactive state stays inactive (the exit drain only
clears `active`), and the current state is unchanged or becomes the
validated (in-range) destination. -/
theorem dispatchFinish_frame (msg : P) (e e' : Executor σ P)
    (h : dispatchFinish msg e = ROut.ok e') :
    e'.states.length = e.states.length ∧
    (∀ j, (stAt e.states j).active = false → (stAt e'.states j).active = false) ∧
    (e'.idx_current_state = e.idx_current_state ∨
      e'.idx_current_state < e.states.length) := by
  unfold dispatchFinish at h
  cases hd : e.idx_transition_dest with
  | none =>
    rw [hd] at h
    simp only [] at h
    split at h
    · cases h
      refine ⟨?_, ?_, Or.inl rfl⟩
      · show (runExits msg e.idxs_exit_fns (e.states, e.sm)).1.length = e.states.length
        unfold runExits
        exact exitFold_length msg _ _
      · intro j ha
        have hw := runExits_active msg e.idxs_exit_fns (e.states, e.sm) j
        show (stAt (runExits msg e.idxs_exit_fns (e.states, e.sm)).1 j).active = false
        rw [hw]
        show ((stAt e.states j).active && _) = false
        rw [ha]
        exact Bool.false_and _
    · cases h
      exact ⟨rfl, fun j ha => ha, Or.inl rfl⟩
  | some t =>
    rw [hd] at h
    simp only [] at h
    by_cases hv : t < e.states.length ∧ e.transition_targets_set.getD t false = true
    · rw [if_pos hv] at h
      cases hs : setup_exit_enter_fns_idxs t { e with idx_transition_dest := none } with
      | none => rw [hs] at h; exact absurd h (by simp)
      | some e3 =>
        rw [hs] at h
        obtain ⟨en, ex, sent, _, _, he3⟩ := setup_inv _ _ _ hs
        subst he3
        simp only [] at h
        split at h
        · cases h
          refine ⟨?_, ?_, Or.inr hv.1⟩
          · show (runExits msg _ (e.states, e.sm)).1.length = e.states.length
            unfold runExits
            exact exitFold_length msg _ _
          · intro j ha
            have hw := runExits_active msg
              (e.idxs_exit_fns ++ (e.idx_current_state :: ex)) (e.states, e.sm) j
            show (stAt (runExits msg
              (e.idxs_exit_fns ++ (e.idx_current_state :: ex)) (e.states, e.sm)).1 j).active
              = false
            rw [hw]
            show ((stAt e.states j).active && _) = false
            rw [ha]
            exact Bool.false_and _
        · cases h
          exact ⟨rfl, fun j ha => ha, Or.inr hv.1⟩
    · rw [if_neg hv] at h
      exact absurd h (by simp)

theorem enterPhase_len (msg : P) (e : Executor σ P) :
    (enterPhase msg e).states.length = e.states.length := by
  show (runEnters msg e.idxs_enter_fns (e.states, e.sm)).1.length = e.states.length
  unfold runEnters
  exact enterFold_length msg _ _

theorem enterPhase_parent (msg : P) (e : Executor σ P) (j : Nat) :
    (stAt (enterPhase msg e).states j).parent = (stAt e.states j).parent :=
  congrArg (fun t => t.2.1) (runEnters_skelE msg e.idxs_enter_fns (e.states, e.sm) j)

theorem enterPhase_enter (msg : P) (e : Executor σ P) (j : Nat) :
    (stAt (enterPhase msg e).states j).enter = (stAt e.states j).enter :=
  congrArg (fun t => t.2.2.1) (runEnters_skelE msg e.idxs_enter_fns (e.states, e.sm) j)

/-- Frame facts of one `dispatch_idx` call on a machine with the enter
drain already done: length, parents, enter slots and enter counters are
preserved, inactive states can only stay inactive, the exit queue ends
empty, and the current state is unchanged or in range. -/
theorem dispatch_ok_frame (msg : P) (fuel idx : Nat) (e e' : Executor σ P)
    (hch : e.current_state_changed = false) (hxq : e.idxs_exit_fns = [])
    (h : dispatch_idx msg fuel idx e = ROut.ok e') :
    e'.states.length = e.states.length ∧
    (∀ i, (stAt e'.states i).parent = (stAt e.states i).parent) ∧
    (∀ i, (stAt e'.states i).enter = (stAt e.states i).enter) ∧
    (∀ i, (stAt e'.states i).enter_cnt = (stAt e.states i).enter_cnt) ∧
    (∀ i, (stAt e.states i).active = false → (stAt e'.states i).active = false) ∧
    (e'.idx_current_state = e.idx_current_state ∨
      e'.idx_current_state < e.states.length) ∧
    e'.idxs_exit_fns = [] := by
  rw [dispatch_pipeline msg fuel idx e hch hxq] at h
  cases hb : bubble msg fuel idx (e.states, e.sm) with
  | none => rw [hb] at h; exact absurd h (by simp)
  | some qd =>
    rw [hb] at h
    simp only [] at h
    have hblen : qd.1.1.length = e.states.length := bubble_length msg fuel idx _ qd hb
    have hbs : ∀ j, skelP (stAt qd.1.1 j) = skelP (stAt e.states j) :=
      bubble_skelP msg fuel idx _ qd hb
    obtain ⟨hflen, hfact, hfcur⟩ := dispatchFinish_frame msg _ _ h
    have hfsx := dispatchFinish_skelX msg _ _ h
    have hfxq := (dispatchFinish_ok_inv msg _ _ (by exact hxq) h).2
    refine ⟨?_, ?_, ?_, ?_, ?_, ?_, hfxq⟩
    · rw [hflen]
      exact hblen
    · intro i
      have h1 : (stAt e'.states i).parent = (stAt qd.1.1 i).parent :=
        congrArg (fun t => t.2.1) (hfsx i)
      have h2 : (stAt qd.1.1 i).parent = (stAt e.states i).parent :=
        congrArg (fun t => t.2.1) (hbs i)
      exact h1.trans h2
    · intro i
      have h1 : (stAt e'.states i).enter = (stAt qd.1.1 i).enter :=
        congrArg (fun t => t.2.2.1) (hfsx i)
      have h2 : (stAt qd.1.1 i).enter = (stAt e.states i).enter :=
        congrArg (fun t => t.2.2.1) (hbs i)
      exact h1.trans h2
    · intro i
      have h1 : (stAt e'.states i).enter_cnt = (stAt qd.1.1 i).enter_cnt :=
        congrArg (fun t => t.2.2.2.2.2.2) (hfsx i)
      have h2 : (stAt qd.1.1 i).enter_cnt = (stAt e.states i).enter_cnt :=
        congrArg (fun t => t.2.2.2.2.2.1) (hbs i)
      exact h1.trans h2
    · intro i ha
      have h2 : (stAt qd.1.1 i).active = (stAt e.states i).active :=
        congrArg (fun t => t.2.2.2.2.2.2.2) (hbs i)
      exact hfact i (h2.trans ha)
    · rcases hfcur with h1 | h1
      · exact Or.inl h1
      · right
        rw [← hblen]
        exact h1

/-- One `dispatch_idx` call cannot run out of fuel when every in-range
parent chain terminates and the fuel exceeds the chain length of the
dispatched state. -/
theorem dispatch_idx_not_fuelOut (msg : P) (fuel idx : Nat) (e : Executor σ P)
    (hch : e.current_state_changed = false) (hxq : e.idxs_exit_fns = [])
    (hall : ∀ x, x < e.states.length →
      ∃ m, m ≤ e.states.length ∧ iterP (parF e.states) m x = none)
    (hidx : ∃ k, k < fuel ∧ iterP (parF e.states) (k + 1) idx = none)
    (hcur : e.idx_current_state < e.states.length) :
    dispatch_idx msg fuel idx e ≠ ROut.fuelOut := by
  obtain ⟨k, hk, hit⟩ := hidx
  rw [dispatch_pipeline msg fuel idx e hch hxq]
  obtain ⟨qd, hqd⟩ := bubble_some msg fuel k idx (e.states, e.sm) hit hk
  rw [hqd]
  dsimp only
  have hpE : parF qd.1.1 = parF e.states :=
    funext (fun j => congrArg (fun t => t.2.1) (bubble_skelP msg fuel idx _ qd hqd j))
  have hlE : qd.1.1.length = e.states.length := bubble_length msg fuel idx _ qd hqd
  apply dispatchFinish_not_fuelOut
  · intro x hx
    have hx2 : x < qd.1.1.length := hx
    rw [hlE] at hx2
    obtain ⟨m, hm, hitm⟩ := hall x hx2
    refine ⟨m, ?_, ?_⟩
    · show m ≤ qd.1.1.length
      rw [hlE]
      exact hm
    · show iterP (parF qd.1.1) m x = none
      rw [hpE]
      exact hitm
  · show e.idx_current_state < qd.1.1.length
    rw [hlE]
    exact hcur

/-- Frame facts of one `dispatch` call (any initial flag state). -/
theorem dispatch_ok_frame2 (msg : P) (f : Nat) (e e' : Executor σ P)
    (h : dispatch_idx msg (f + 1) e.idx_current_state e = ROut.ok e')
    (hxq : e.idxs_exit_fns = []) :
    e'.states.length = e.states.length ∧
    (∀ i, (stAt e'.states i).parent = (stAt e.states i).parent) ∧
    (∀ i, (stAt e'.states i).enter = (stAt e.states i).enter) ∧
    (∀ i, (stAt e.states i).active = false → (stAt e.states i).enter = none →
      (stAt e'.states i).active = false ∧
        (stAt e'.states i).enter_cnt = (stAt e.states i).enter_cnt) ∧
    (e'.idx_current_state = e.idx_current_state ∨
      e'.idx_current_state < e.states.length) ∧
    e'.idxs_exit_fns = [] := by
  by_cases hch : e.current_state_changed = true
  · rw [dispatch_enterPhase msg f _ e hch] at h
    obtain ⟨h1, h2, h3, h4, h5, h6, h7⟩ :=
      dispatch_ok_frame msg (f + 1) e.idx_current_state (enterPhase msg e) e'
        rfl (by exact hxq) h
    have hElen : (enterPhase msg e).states.length = e.states.length :=
      enterPhase_len msg e
    refine ⟨h1.trans hElen, ?_, ?_, ?_, ?_, h7⟩
    · intro i
      exact (h2 i).trans (enterPhase_parent msg e i)
    · intro i
      exact (h3 i).trans (enterPhase_enter msg e i)
    · intro i ha he
      have hEa : (stAt (enterPhase msg e).states i).active = false := by
        show (stAt (runEnters msg e.idxs_enter_fns (e.states, e.sm)).1 i).active = false
        rw [runEnters_active msg e.idxs_enter_fns (e.states, e.sm) i]
        show ((stAt e.states i).active || _) = false
        rw [ha, he]
        simp
      have hEc : (stAt (enterPhase msg e).states i).enter_cnt
          = (stAt e.states i).enter_cnt := by
        show (stAt (runEnters msg e.idxs_enter_fns (e.states, e.sm)).1 i).enter_cnt = _
        rw [runEnters_enterCnt msg e.idxs_enter_fns (e.states, e.sm) i]
        show (stAt e.states i).enter_cnt + _ = (stAt e.states i).enter_cnt
        rw [he]
        simp
      exact ⟨h5 i hEa, (h4 i).trans hEc⟩
    · rcases h6 with hc | hc
      · exact Or.inl hc
      · right
        rw [← hElen]
        exact hc
  · have hch' : e.current_state_changed = false := by
      cases hcs : e.current_state_changed
      · rfl
      · exact absurd hcs hch
    obtain ⟨h1, h2, h3, h4, h5, h6, h7⟩ :=
      dispatch_ok_frame msg (f + 1) e.idx_current_state e e' hch' hxq h
    exact ⟨h1, h2, h3, fun i ha _ => ⟨h5 i ha, h4 i⟩, h6, h7⟩

/-- Invariants of every machine reachable through `build` + `dispatch`:
the parent table matches the declarations and is validated (in range,
acyclic), the current state is in range, the exit queue is empty between
dispatches, enter callbacks match the declarations, and a state declared
without an enter callback is inactive with `enter_cnt = 0`. -/
theorem reach_inv (sm0 : σ) (decls : List (StateDecl σ P)) (init : Nat)
    (e : Executor σ P) (h : Reach sm0 decls init e) :
    wfParB (parOf decls) decls.length = true ∧
    cyclicB (parOf decls) decls.length = false ∧
    e.states.length = decls.length ∧
    (∀ i, (stAt e.states i).parent = parOf decls i) ∧
    e.idx_current_state < decls.length ∧
    e.idxs_exit_fns = [] ∧
    (∀ i, (stAt e.states i).enter = (decls.getD i StateDecl.dflt).enter) ∧
    (∀ i, (decls.getD i StateDecl.dflt).enter = none →
      (stAt e.states i).active = false ∧ (stAt e.states i).enter_cnt = 0) := by
  induction h with
  | base e0 hb =>
    obtain ⟨hwf, hnc, hlen, hpar, hcur, hinit, hxq, _, _, hent, hact, hcnt⟩ :=
      buildExec_ok_inv sm0 decls init e0 hb
    exact ⟨hwf, hnc, hlen, hpar, by rw [hcur]; exact hinit, hxq, hent,
      fun i _ => ⟨hact i, hcnt i⟩⟩
  | step e0 e1 msg fuel hr hd ih =>
    obtain ⟨hwf, hnc, hlen, hpar, hcur, hxq, hent, hq⟩ := ih
    cases fuel with
    | zero => exact absurd hd (by simp [dispatch, dispatch_idx])
    | succ f =>
      have hd' : dispatch_idx msg (f + 1) e0.idx_current_state e0 = ROut.ok e1 := hd
      obtain ⟨h1, h2, h3, h4, h5, h6⟩ := dispatch_ok_frame2 msg f e0 e1 hd' hxq
      refine ⟨hwf, hnc, h1.trans hlen, ?_, ?_, h6, ?_, ?_⟩
      · intro i
        exact (h2 i).trans (hpar i)
      · rcases h5 with hc | hc
        · rw [hc]
          exact hcur
        · rw [hlen] at hc
          exact hc
      · intro i
        exact (h3 i).trans (hent i)
      · intro i hni
        obtain ⟨ha0, hc0⟩ := hq i hni
        have hen0 : (stAt e0.states i).enter = none := (hent i).trans hni
        obtain ⟨ha1, hc1⟩ := h4 i ha0 hen0
        exact ⟨ha1, hc1.trans hc0⟩

/-- C10: for every machine reachable from a successful `build` (which
validated the parent relation in range and acyclic), a `dispatch` call
terminates: with any fuel exceeding the number of declared states the
fueled embedding never reports fuel exhaustion, because the bubbling
recursion and the planner walks climb the terminating parent chains and
the drains consume finite lists. -/
theorem C10_termination (sm0 : σ) (decls : List (StateDecl σ P)) (init : Nat)
    (msg : P) (e : Executor σ P) (hreach : Reach sm0 decls init e)
    (fuel : Nat) (hfuel : decls.length < fuel) :
    dispatch msg fuel e ≠ ROut.fuelOut := by
  obtain ⟨hwf, hnc, hlen, hpar, hcur, hxq, _, _⟩ := reach_inv sm0 decls init e hreach
  have hparF : parF e.states = parOf decls := funext hpar
  have hall : ∀ x, x < e.states.length →
      ∃ m, m ≤ e.states.length ∧ iterP (parF e.states) m x = none := by
    intro x hx
    rw [hparF, hlen]
    rw [hlen] at hx
    exact iterP_reach_none (parOf decls) decls.length
      (wfParB_elim (parOf decls) decls.length hwf) hnc x hx
  have hcur' : e.idx_current_state < e.states.length := by
    rw [hlen]
    exact hcur
  have hidx : ∀ (g : Nat), decls.length ≤ g →
      ∃ k, k < g ∧ iterP (parF e.states) (k + 1) e.idx_current_state = none := by
    intro g hg
    obtain ⟨m, hm, hitm⟩ := hall e.idx_current_state hcur'
    have hm1 : 1 ≤ m := by
      by_contra hcon
      have hz : m = 0 := by omega
      rw [hz] at hitm
      exact absurd hitm (by simp [iterP])
    refine ⟨m - 1, by rw [hlen] at hm; omega, ?_⟩
    rw [show m - 1 + 1 = m from by omega]
    exact hitm
  cases fuel with
  | zero => omega
  | succ f =>
    by_cases hch : e.current_state_changed = true
    · rw [dispatch, dispatch_enterPhase msg f _ e hch]
      have hElen : (enterPhase msg e).states.length = e.states.length :=
        enterPhase_len msg e
      have hEpar : parF (enterPhase msg e).states = parF e.states :=
        funext (fun j => enterPhase_parent msg e j)
      apply dispatch_idx_not_fuelOut msg (f + 1) e.idx_current_state (enterPhase msg e)
        rfl (by exact hxq)
      · intro x hx
        have hx2 : x < e.states.length := by
          rw [← hElen]
          exact hx
        obtain ⟨m, hm, hitm⟩ := hall x hx2
        refine ⟨m, ?_, ?_⟩
        · rw [hElen]
          exact hm
        · rw [hEpar]
          exact hitm
      · obtain ⟨k, hk, hitk⟩ := hidx (f + 1) (by omega)
        refine ⟨k, hk, ?_⟩
        rw [hEpar]
        exact hitk
      · show e.idx_current_state < (enterPhase msg e).states.length
        rw [hElen]
        exact hcur'
    · have hch' : e.current_state_changed = false := by
        cases hcs : e.current_state_changed
        · rfl
        · exact absurd hcs hch
      rw [dispatch]
      exact dispatch_idx_not_fuelOut msg (f + 1) e.idx_current_state e hch' hxq hall
        (hidx (f + 1) (by omega)) hcur'

/-- C10, witness: the freshly built Scenario A machine dispatches
within fuel `|decls| + 1 = 4`. -/
theorem C10_witness :
    declsA.length < 4 ∧ dispatch () 4 eA0 ≠ ROut.fuelOut :=
  ⟨by decide, C10_termination () declsA 1 () eA0 (Reach.base eA0 rfl) 4 (by decide)⟩

/-- C9: a state declared without an enter callback is never active in
any reachable machine (it starts inactive and the enter drain, the only
place that sets `active`, skips states with an empty enter slot); hence
the path planner can never record it as the exit sentinel, and its
`enter_cnt` stays `0` forever. -/
theorem C9_no_enter_never_active (sm0 : σ) (decls : List (StateDecl σ P)) (init : Nat)
    (e : Executor σ P) (hreach : Reach sm0 decls init e) (i : Nat)
    (hni : (decls.getD i StateDecl.dflt).enter = none) :
    (stAt e.states i).active = false ∧
    (stAt e.states i).enter_cnt = 0 ∧
    (∀ fuel d l sent, setupEnterWalk e.states fuel d = some (l, sent) →
      sent ≠ some i) := by
  obtain ⟨_, _, _, _, _, _, _, hq⟩ := reach_inv sm0 decls init e hreach
  obtain ⟨ha, hc⟩ := hq i hni
  refine ⟨ha, hc, ?_⟩
  intro fuel d l sent hw hcon
  have h5 := (enterWalk_chain e.states fuel d l sent hw).2.2.2.2.1 i hcon
  have h6 := h5.2
  rw [ha] at h6
  exact absurd h6 (by simp)

/-- C9, witness: in the one-state machine declared without an enter
callback, after a build and one dispatch the state is still inactive
with `enter_cnt = 0`. -/
theorem C9_witness :
    (declsOneNoEnter.getD 0 StateDecl.dflt).enter = none ∧
    (stAt eN1.states 0).active = false ∧
    (stAt eN1.states 0).enter_cnt = 0 :=
  ⟨rfl,
    (C9_no_enter_never_active () declsOneNoEnter 0 eN1
      (Reach.step eN0 eN1 () 2 (Reach.base eN0 rfl) rfl) 0 rfl).1,
    (C9_no_enter_never_active () declsOneNoEnter 0 eN1
      (Reach.step eN0 eN1 () 2 (Reach.base eN0 rfl) rfl) 0 rfl).2.1⟩

/-- C8: invalid state-table conditions are fatal (panics), not
recoverable errors.  With a validated topology, `build` panics when the
initial state id is out of range or not in the leaf set (instead of
returning an error value); and a dispatch whose bubbling pass staged a
destination that is out of range or not a registered leaf panics at the
commit point. -/
theorem C8_fatal_invalid (sm0 : σ) (decls : List (StateDecl σ P)) (init : Nat)
    (hw : wfParB (parOf decls) decls.length = true)
    (hnc : cyclicB (parOf decls) decls.length = false) :
    (init ≥ decls.length ∨ ((List.range decls.length).map
        (fun i => (childrenOf (parOf decls) decls.length i).isEmpty)).getD init false
        = false →
      buildExec sm0 decls init = BOut.panicked) ∧
    (∀ (msg : P) (fuel idx : Nat) (e : Executor σ P)
        (qd : (List (StateInfo σ P) × σ) × Option Nat) (t : Nat),
      e.current_state_changed = false → e.idxs_exit_fns = [] →
      e.idx_transition_dest = none →
      bubble msg fuel idx (e.states, e.sm) = some qd → qd.2 = some t →
      ¬(t < e.states.length ∧ e.transition_targets_set.getD t false = true) →
      dispatch_idx msg fuel idx e = ROut.panicked) := by
  constructor
  · intro hbad
    obtain ⟨v, ch, hrun, hiff⟩ := cd_full (parOf decls) decls.length hw
    have hv : v = decls.length := hiff.mpr hnc
    unfold buildExec
    dsimp only
    rw [hrun]
    dsimp only
    rw [if_neg (by omega)]
    rw [if_pos hbad]
  · intro msg fuel idx e qd t hch hxq hslot hb hqd2 hbad
    rw [dispatch_pipeline msg fuel idx e hch hxq, hb]
    dsimp only
    have hlen : qd.1.1.length = e.states.length := bubble_length msg fuel idx _ qd hb
    have hs : ({ e with states := qd.1.1, sm := qd.1.2, idx_transition_dest := firstSome e.idx_transition_dest qd.2 } : Executor σ P).idx_transition_dest = some t := by
      show firstSome e.idx_transition_dest qd.2 = some t
      rw [hslot, hqd2]
      rfl
    unfold dispatchFinish
    rw [hs]
    dsimp only
    rw [if_neg (by
      show ¬(t < qd.1.1.length ∧ e.transition_targets_set.getD t false = true)
      rw [hlen]
      exact hbad)]

/-- C8, witness: building the two-state machine at the non-leaf initial
state `0` panics, and dispatching the single-state machine whose handler
stages the out-of-range destination `1` panics at the commit point. -/
theorem C8_witness :
    buildExec () declsNonLeaf 0 = BOut.panicked ∧
    dispatch_idx () 2 0 eOobP = ROut.panicked ∧
    qdOob.2 = some 1 ∧ eOobP.states.length = 1 :=
  ⟨(C8_fatal_invalid () declsNonLeaf 0 rfl rfl).1 (Or.inr rfl),
    (C8_fatal_invalid () declsOob 0 rfl rfl).2 () 2 0 eOobP qdOob 1
      rfl rfl rfl rfl rfl (by decide),
    rfl, rfl⟩

/- ============ C7: dispatcher round-by-round draining ============ -/

theorem getBuf_congr (d : DeferCh P) (i j : Nat) (h : i % 2 = j % 2) :
    d.getBuf i = d.getBuf j := by
  unfold DeferCh.getBuf
  rw [h]

theorem setBuf_idx (d : DeferCh P) (i : Nat) (l : List P) :
    (d.setBuf i l).current_defer_idx = d.current_defer_idx := by
  unfold DeferCh.setBuf
  split <;> rfl

theorem getBuf_setBuf_same (d : DeferCh P) (i j : Nat) (l : List P)
    (h : i % 2 = j % 2) : (d.setBuf i l).getBuf j = l := by
  unfold DeferCh.setBuf DeferCh.getBuf
  by_cases hi : i % 2 = 0
  · rw [if_pos hi]
    show (if j % 2 = 0 then l else d.buf1) = l
    rw [if_pos (by omega)]
  · rw [if_neg hi]
    show (if j % 2 = 0 then d.buf0 else l) = l
    rw [if_neg (by omega)]

theorem getBuf_setBuf_other (d : DeferCh P) (i j : Nat) (l : List P)
    (h : ¬ i % 2 = j % 2) : (d.setBuf i l).getBuf j = d.getBuf j := by
  unfold DeferCh.setBuf DeferCh.getBuf
  by_cases hi : i % 2 = 0
  · rw [if_pos hi]
    show (if j % 2 = 0 then l else d.buf1) = if j % 2 = 0 then d.buf0 else d.buf1
    rw [if_neg (by omega), if_neg (by omega)]
  · rw [if_neg hi]
    show (if j % 2 = 0 then d.buf0 else l) = if j % 2 = 0 then d.buf0 else d.buf1
    rw [if_pos (by omega), if_pos (by omega)]

/-- The inner defer-drain loop is one spec round threaded through the
accumulator: same final state, same transition flag, the current buffer
gains exactly the round's deferrals, and the dispatch trace is exactly
the drained queue in order. -/
theorem drainOther_round (A : σ → P → σ × Bool × List P) :
    ∀ (q : List P) (s : σ) (acc : List P),
      drainOther A q s acc =
        ((roundRun A q s).1, acc ++ (roundRun A q s).2.1,
          (roundRun A q s).2.2, q) := by
  intro q
  induction q with
  | nil => intro s acc; simp [drainOther, roundRun]
  | cons m rest ih =>
    intro s acc
    show drainOther A (m :: rest) s acc = _
    rw [drainOther, ih]
    rw [roundRun]
    dsimp only
    rw [List.append_assoc]

/-- The outer dispatcher loop implements strict round-by-round
draining: provided the inactive buffer is empty at entry, its dispatch
trace is exactly the spec's round concatenation over the active buffer,
fuel exhaustion coincides, and on success the machine state agrees and
the channel holds exactly the pending (never-dispatched) deferrals. -/
theorem dispatcherLoop_spec (A : σ → P → σ × Bool × List P) :
    ∀ (fuel : Nat) (s : σ) (c : DeferCh P),
      c.getBuf (c.current_defer_idx + 1) = [] →
      ((dispatcherLoop A fuel (s, c)).2
        = (specRounds A fuel s (c.getBuf c.current_defer_idx)).2) ∧
      ((specRounds A fuel s (c.getBuf c.current_defer_idx)).1 = ROut.fuelOut →
        (dispatcherLoop A fuel (s, c)).1 = ROut.fuelOut) ∧
      (∀ s2 q2, (specRounds A fuel s (c.getBuf c.current_defer_idx)).1
          = ROut.ok (s2, q2) →
        ∃ c2, (dispatcherLoop A fuel (s, c)).1 = ROut.ok (s2, c2) ∧
          c2.getBuf c2.current_defer_idx = q2 ∧
          c2.getBuf (c2.current_defer_idx + 1) = []) := by
  intro fuel
  induction fuel with
  | zero =>
    intro s c _
    exact ⟨rfl, fun _ => rfl, fun s2 q2 h => absurd h (by simp [specRounds])⟩
  | succ fuel ih =>
    intro s c hoth
    have hbufs : ∀ i, c.next_defer.getBuf i = c.getBuf i := fun i => rfl
    have e1 : c.next_defer.getBuf c.next_defer.other_defer
        = c.getBuf c.current_defer_idx := by
      rw [hbufs]
      exact getBuf_congr c (((c.current_defer_idx + 1) % 2 + 1) % 2)
        c.current_defer_idx (by omega)
    have e2 : c.next_defer.getBuf c.next_defer.current_defer = [] := by
      rw [hbufs]
      show c.getBuf ((c.current_defer_idx + 1) % 2) = []
      rw [getBuf_congr c ((c.current_defer_idx + 1) % 2)
        (c.current_defer_idx + 1) (by omega)]
      exact hoth
    have hstep : dispatcherLoop A (fuel + 1) (s, c)
        = (if (roundRun A (c.getBuf c.current_defer_idx) s).2.2 then
            ((dispatcherLoop A fuel ((roundRun A (c.getBuf c.current_defer_idx) s).1,
              (c.next_defer.setBuf c.next_defer.other_defer []).setBuf
                c.next_defer.current_defer
                (roundRun A (c.getBuf c.current_defer_idx) s).2.1)).1,
             c.getBuf c.current_defer_idx ++
              (dispatcherLoop A fuel ((roundRun A (c.getBuf c.current_defer_idx) s).1,
              (c.next_defer.setBuf c.next_defer.other_defer []).setBuf
                c.next_defer.current_defer
                (roundRun A (c.getBuf c.current_defer_idx) s).2.1)).2)
          else (ROut.ok ((roundRun A (c.getBuf c.current_defer_idx) s).1,
            (c.next_defer.setBuf c.next_defer.other_defer []).setBuf
              c.next_defer.current_defer
              (roundRun A (c.getBuf c.current_defer_idx) s).2.1),
            c.getBuf c.current_defer_idx)) := by
      show dispatcherLoop A (fuel + 1) (s, c) = _
      rw [dispatcherLoop]
      dsimp only
      rw [e1, e2, drainOther_round A (c.getBuf c.current_defer_idx) s []]
      rfl
    have hspec : specRounds A (fuel + 1) s (c.getBuf c.current_defer_idx)
        = (if (roundRun A (c.getBuf c.current_defer_idx) s).2.2 then
            ((specRounds A fuel (roundRun A (c.getBuf c.current_defer_idx) s).1
                (roundRun A (c.getBuf c.current_defer_idx) s).2.1).1,
             c.getBuf c.current_defer_idx ++
              (specRounds A fuel (roundRun A (c.getBuf c.current_defer_idx) s).1
                (roundRun A (c.getBuf c.current_defer_idx) s).2.1).2)
          else (ROut.ok ((roundRun A (c.getBuf c.current_defer_idx) s).1,
              (roundRun A (c.getBuf c.current_defer_idx) s).2.1),
            c.getBuf c.current_defer_idx)) := rfl
    have hc2idx : ((c.next_defer.setBuf c.next_defer.other_defer []).setBuf
        c.next_defer.current_defer
        (roundRun A (c.getBuf c.current_defer_idx) s).2.1).current_defer_idx
        = (c.current_defer_idx + 1) % 2 := by
      rw [setBuf_idx, setBuf_idx]
      rfl
    have hc2cur : ((c.next_defer.setBuf c.next_defer.other_defer []).setBuf
        c.next_defer.current_defer
        (roundRun A (c.getBuf c.current_defer_idx) s).2.1).getBuf
          ((c.current_defer_idx + 1) % 2)
        = (roundRun A (c.getBuf c.current_defer_idx) s).2.1 := by
      exact getBuf_setBuf_same _ ((c.current_defer_idx + 1) % 2)
        ((c.current_defer_idx + 1) % 2) _ rfl
    have hc2oth : ((c.next_defer.setBuf c.next_defer.other_defer []).setBuf
        c.next_defer.current_defer
        (roundRun A (c.getBuf c.current_defer_idx) s).2.1).getBuf
          ((c.current_defer_idx + 1) % 2 + 1)
        = [] := by
      have h1 := getBuf_setBuf_other
        (c.next_defer.setBuf c.next_defer.other_defer [])
        c.next_defer.current_defer
        ((c.current_defer_idx + 1) % 2 + 1)
        (roundRun A (c.getBuf c.current_defer_idx) s).2.1
        (by
          show ¬ (c.current_defer_idx + 1) % 2 % 2
            = ((c.current_defer_idx + 1) % 2 + 1) % 2
          omega)
      rw [h1]
      exact getBuf_setBuf_same c.next_defer c.next_defer.other_defer
        ((c.current_defer_idx + 1) % 2 + 1) []
        (by
          show ((c.current_defer_idx + 1) % 2 + 1) % 2 % 2
            = ((c.current_defer_idx + 1) % 2 + 1) % 2
          omega)
    cases htr : (roundRun A (c.getBuf c.current_defer_idx) s).2.2 with
    | false =>
      rw [hstep, hspec, if_neg (by rw [htr]; simp), if_neg (by rw [htr]; simp)]
      refine ⟨rfl, fun h => absurd h (by simp), fun s2 q2 h => ?_⟩
      have h1 : ((roundRun A (c.getBuf c.current_defer_idx) s).1,
          (roundRun A (c.getBuf c.current_defer_idx) s).2.1) = (s2, q2) := by
        injection h
      have hs2 : (roundRun A (c.getBuf c.current_defer_idx) s).1 = s2 :=
        congrArg Prod.fst h1
      have hq2 : (roundRun A (c.getBuf c.current_defer_idx) s).2.1 = q2 :=
        congrArg Prod.snd h1
      refine ⟨_, by rw [hs2], ?_, ?_⟩
      · rw [hc2idx]
        rw [hc2cur]
        exact hq2
      · rw [hc2idx]
        exact hc2oth
    | true =>
      rw [hstep, hspec, if_pos (by rw [htr]), if_pos (by rw [htr])]
      have ihh := ih (roundRun A (c.getBuf c.current_defer_idx) s).1
        ((c.next_defer.setBuf c.next_defer.other_defer []).setBuf
          c.next_defer.current_defer
          (roundRun A (c.getBuf c.current_defer_idx) s).2.1)
        (by rw [hc2idx]; exact hc2oth)
      rw [hc2idx, hc2cur] at ihh
      obtain ⟨iht, ihf, iho⟩ := ihh
      refine ⟨?_, ?_, ?_⟩
      · show c.getBuf c.current_defer_idx ++ _ = c.getBuf c.current_defer_idx ++ _
        rw [iht]
      · intro h
        exact ihf h
      · intro s2 q2 h
        exact iho s2 q2 h

/-- C7: `dispatcher` is strict round-by-round draining.  Starting with
an empty inactive buffer (as every machine does, and as every
`dispatcher` call re-establishes), the sequence of dispatched messages
is the incoming message followed, when its dispatch transitioned, by
the spec-side rounds over the queue formed by the pending deferrals
plus those of the initial dispatch: each round is fully dispatched in
FIFO order before any message deferred during that round, so newly
deferred messages never overtake previously deferred ones. -/
theorem C7_dispatcher_rounds (A : σ → P → σ × Bool × List P) (fuel : Nat)
    (msg : P) (s : σ) (c : DeferCh P)
    (hoth : c.getBuf (c.current_defer_idx + 1) = []) :
    ((A s msg).2.1 = false →
      (dispatcher A fuel msg s c).2 = [msg] ∧
      (dispatcher A fuel msg s c).1 = ROut.ok ((A s msg).1,
        c.setBuf c.current_defer_idx
          (c.getBuf c.current_defer_idx ++ (A s msg).2.2))) ∧
    ((A s msg).2.1 = true →
      (dispatcher A fuel msg s c).2
        = msg :: (specRounds A fuel (A s msg).1
            (c.getBuf c.current_defer_idx ++ (A s msg).2.2)).2 ∧
      (∀ s2 q2, (specRounds A fuel (A s msg).1
          (c.getBuf c.current_defer_idx ++ (A s msg).2.2)).1 = ROut.ok (s2, q2) →
        ∃ c2, (dispatcher A fuel msg s c).1 = ROut.ok (s2, c2) ∧
          c2.getBuf c2.current_defer_idx = q2 ∧
          c2.getBuf (c2.current_defer_idx + 1) = [])) := by
  have hc1idx : (c.setBuf c.current_defer_idx
      (c.getBuf c.current_defer_idx ++ (A s msg).2.2)).current_defer_idx
      = c.current_defer_idx := setBuf_idx c _ _
  have hc1cur : (c.setBuf c.current_defer_idx
      (c.getBuf c.current_defer_idx ++ (A s msg).2.2)).getBuf c.current_defer_idx
      = c.getBuf c.current_defer_idx ++ (A s msg).2.2 :=
    getBuf_setBuf_same c _ _ _ rfl
  have hc1oth : (c.setBuf c.current_defer_idx
      (c.getBuf c.current_defer_idx ++ (A s msg).2.2)).getBuf
        (c.current_defer_idx + 1) = [] := by
    rw [getBuf_setBuf_other c _ _ _ (by omega)]
    exact hoth
  constructor
  · intro hno
    unfold dispatcher
    dsimp only
    rw [if_neg (by rw [hno]; simp)]
    exact ⟨rfl, rfl⟩
  · intro hyes
    unfold dispatcher
    dsimp only
    simp only [DeferCh.current_defer]
    rw [if_pos (by rw [hyes])]
    have hsp := dispatcherLoop_spec A fuel (A s msg).1
      (c.setBuf c.current_defer_idx
        (c.getBuf c.current_defer_idx ++ (A s msg).2.2))
      (by rw [hc1idx]; exact hc1oth)
    rw [hc1idx, hc1cur] at hsp
    obtain ⟨ht, _, ho⟩ := hsp
    refine ⟨?_, ?_⟩
    · show msg :: _ = msg :: _
      rw [ht]
    · intro s2 q2 h
      exact ho s2 q2 h

/-- C7, witness: the countdown machine `defA` starting at `2` with empty
buffers transitions on the incoming message, and the dispatcher's trace
is the message followed by the strict spec rounds. -/
theorem C7_witness :
    (⟨[], [], 0⟩ : DeferCh Unit).getBuf (0 + 1) = [] ∧
    (defA 2 ()).2.1 = true ∧
    (dispatcher defA 5 () 2 ⟨[], [], 0⟩).2
      = () :: (specRounds defA 5 (defA 2 ()).1
          ((⟨[], [], 0⟩ : DeferCh Unit).getBuf 0 ++ (defA 2 ()).2.2)).2 :=
  ⟨rfl, rfl,
    ((C7_dispatcher_rounds defA 5 () 2 ⟨[], [], 0⟩ rfl).2 rfl).1⟩

end Hsm0
